import Mathlib

/-!
# Bag-of-words model (`go-bow`): shallow embedding and verified properties

The Go package `bow` keeps a vocabulary (`map[string]int`) and a list of document
vectors (`[][]int`).  This file embeds `model.go`, `tokenizer.go`, `config.go` and
`tfidf.go` as pure Lean functions with explicit state passing and proves properties of
the ingestion protocol.

Modelling conventions.

* A Go `string` is a Lean `String`, read as the sequence of runes that a Go `range` loop
  over the string yields.  Go compares strings byte-wise; on UTF-8 text that order is the
  lexicographic order of the code points, which is what `stringLess` computes.
* A Go `map[string]int` is an association list with pairwise distinct keys (`GoMap`).
  The order of the list carries no meaning: every `range` loop over a map visits the
  entries through a `RangeOrder`, an arbitrary permutation chosen by the runtime.
* Go `int` is `Int` (word counts and indices never get near the 64-bit limit).
* A run-time panic (index out of range, nil interface call) is an explicit outcome.
* The locks of `BoW` only matter for concurrent callers; the embedding is sequential.
-/

namespace Bow

/-! ## Go values -/

/-- Go `error` values are modelled by their message. -/
abbrev GoError := String

/-- How a Go call ends: it returns with a nil error (`ok`), it returns a non-nil error
(`err`), or it panics at run time (`panicked`). -/
inductive Outcome (α : Type) where
  | ok : α → Outcome α
  | err : GoError → Outcome α
  | panicked : Outcome α
  deriving DecidableEq, Repr

/-- Go's `<` on the rune sequences of two strings (lexicographic order). -/
def runesLess : List Char → List Char → Bool
  | [], [] => false
  | [], _ :: _ => true
  | _ :: _, [] => false
  | a :: as, b :: bs =>
    if a.toNat < b.toNat then true
    else if b.toNat < a.toNat then false
    else runesLess as bs

/-- Go's `a < b` on strings. -/
def stringLess (a b : String) : Bool := runesLess a.toList b.toList

/-- The order `a <= b` on strings used by the sort: `!(b < a)`. -/
def stringLE (a b : String) : Prop := stringLess b a = false

instance stringLE.decidable : DecidableRel stringLE := fun a b =>
  inferInstanceAs (Decidable (stringLess b a = false))

/-- Go's `sort.Strings`: the slice sorted in increasing order. -/
def sortStrings (l : List String) : List String := l.insertionSort stringLE

/-- A Go `map[string]int`. -/
abbrev GoMap := List (String × Int)

namespace GoMap

/-- The keys of the map. -/
def keys (m : GoMap) : List String := m.map Prod.fst

/-- Map read `v, exists := m[k]`. -/
def get? : GoMap → String → Option Int
  | [], _ => none
  | (k', v) :: t, k => if k' = k then some v else get? t k

/-- Map read `m[k]` with Go's zero value for a missing key. -/
def getD (m : GoMap) (k : String) : Int := (m.get? k).getD 0

/-- Map write `m[k] = v`. -/
def set : GoMap → String → Int → GoMap
  | [], k, v => [(k, v)]
  | (k', v') :: t, k, v => if k' = k then (k, v) :: t else (k', v') :: set t k v

/-- Go's `len(m)`. -/
def len (m : GoMap) : Int := m.length

end GoMap

/-- The order in which one `range` loop visits the entries of a map: some permutation of
the entries. -/
structure RangeOrder where
  visit : GoMap → GoMap
  perm : ∀ m, (visit m).Perm m

/-- The iteration order that visits the entries as they are stored. -/
def RangeOrder.stored : RangeOrder := ⟨fun m => m, fun m => List.Perm.refl m⟩

/-- The iteration order that visits the entries in reverse. -/
def RangeOrder.reversed : RangeOrder := ⟨fun m => m.reverse, fun m => List.reverse_perm m⟩

/-- Slice write `s[i] = v`; `none` is the index-out-of-range panic. -/
def setIdx? {α : Type} (s : List α) (i : Int) (v : α) : Option (List α) :=
  if 0 ≤ i ∧ i < s.length then some (s.set i.toNat v) else none

/-! ## tokenizer.go -/

/-- The interface `Tokenizer`: `Tokenize(text) ([]string, error)`. -/
abbrev Tokenizer := String → Except GoError (List String)

/-- The three functions of Go's `unicode` package that the default tokenizer calls. -/
structure UnicodeTables where
  IsLetter : Char → Bool
  IsDigit : Char → Bool
  ToLower : Char → Char

/-- The `unicode` functions restricted to ASCII, where they agree with Go's tables. -/
def UnicodeTables.ascii : UnicodeTables := ⟨Char.isAlpha, Char.isDigit, Char.toLower⟩

/-- One iteration of the loop of `DefaultTokenizer.Tokenize`; the state is the slice
`tokens` and the contents of the builder `token`. -/
def tokenizeStep (u : UnicodeTables) (st : List String × List Char) (r : Char) :
    List String × List Char :=
  if u.IsLetter r || u.IsDigit r then (st.1, st.2 ++ [u.ToLower r])
  else if st.2.length > 0 then (st.1 ++ [String.mk st.2], [])
  else st

/-- Method `DefaultTokenizer.Tokenize`. -/
def DefaultTokenizer.Tokenize (u : UnicodeTables) : Tokenizer := fun text =>
  let st := text.toList.foldl (tokenizeStep u) ([], [])
  if st.2.length > 0 then .ok (st.1 ++ [String.mk st.2]) else .ok st.1

/-! ## config.go -/

/-- The type `WeightingScheme`, a Go `string`. -/
abbrev WeightingScheme := String

/-- Constant `WeightingRaw`. -/
def WeightingRaw : WeightingScheme := "raw"

/-- Constant `WeightingTFIDF`. -/
def WeightingTFIDF : WeightingScheme := "tfidf"

/-- Struct `Config`; a nil `Tokenizer` interface is `none`. -/
structure Config where
  UseBinaryEncoding : Bool
  Weighting : WeightingScheme
  Tokenizer : Option Tokenizer

/-- Function `DefaultConfig`. -/
def DefaultConfig (u : UnicodeTables) : Config :=
  { UseBinaryEncoding := false, Weighting := WeightingRaw,
    Tokenizer := some (DefaultTokenizer.Tokenize u) }

/-! ## model.go -/

/-- Struct `BoW` without its two locks. -/
structure BoW where
  cfg : Config
  vocab : GoMap
  docs : List (List Int)

/-- Function `New`. -/
def New (u : UnicodeTables) (cfg : Config) : BoW :=
  { cfg := if cfg.Tokenizer.isNone then
      { cfg with Tokenizer := some (DefaultTokenizer.Tokenize u) } else cfg,
    vocab := [],
    docs := [] }

/-- The loop `for _, word := range words { wordFreq[word]++ }`. -/
def countWords (words : List String) : GoMap :=
  words.foldl (fun wordFreq word => wordFreq.set word (wordFreq.getD word + 1)) []

/-- The loop collecting `newWords`: the visited words that are not in the vocabulary. -/
def collectNew (vocab : GoMap) : GoMap → List String
  | [] => []
  | (word, _) :: rest =>
    if (vocab.get? word).isNone then word :: collectNew vocab rest
    else collectNew vocab rest

/-- The loop `for _, word := range newWords { bow.vocab[word] = len(bow.vocab) }`. -/
def assignIndices (vocab : GoMap) (newWords : List String) : GoMap :=
  newWords.foldl (fun v word => v.set word v.len) vocab

/-- The loop filling `vec` from the visited entries of `wordFreq`. -/
def fillVec (binary : Bool) (vocab : GoMap) : GoMap → List Int → Option (List Int)
  | [], vec => some vec
  | (word, freq) :: rest, vec =>
    match vocab.get? word with
    | some idx =>
      match setIdx? vec idx (if binary then 1 else freq) with
      | some vec' => fillVec binary vocab rest vec'
      | none => none
    | none => fillVec binary vocab rest vec

/-- Method `BoW.AddDocument`: the returned outcome and the state after the call.  `ρ₁` is the
order of the loop that collects the new words, `ρ₂` the order of the loop that fills the
vector. -/
def AddDocument (ρ₁ ρ₂ : RangeOrder) (bow : BoW) (doc : String) : Outcome Unit × BoW :=
  match bow.cfg.Tokenizer with
  | none => (.panicked, bow)
  | some tokenizer =>
    match tokenizer doc with
    | .error e => (.err e, bow)
    | .ok words =>
      if words.length = 0 then (.ok (), bow)
      else
        let wordFreq := countWords words
        let newWords := sortStrings (collectNew bow.vocab (ρ₁.visit wordFreq))
        let vocab := assignIndices bow.vocab newWords
        match fillVec bow.cfg.UseBinaryEncoding vocab (ρ₂.visit wordFreq)
            (List.replicate vocab.len.toNat 0) with
        | none => (.panicked, { bow with vocab := vocab })
        | some vec => (.ok (), { bow with vocab := vocab, docs := bow.docs ++ [vec] })

/-- Method `BoW.AddDocuments`; the `k`-th call of `AddDocument` runs with the iteration orders
`ρ₁ k` and `ρ₂ k`. -/
def AddDocuments (ρ₁ ρ₂ : Nat → RangeOrder) (bow : BoW) :
    List String → Outcome Unit × BoW
  | [] => (.ok (), bow)
  | doc :: rest =>
    match AddDocument (ρ₁ 0) (ρ₂ 0) bow doc with
    | (.ok _, bow') => AddDocuments (fun k => ρ₁ (k + 1)) (fun k => ρ₂ (k + 1)) bow' rest
    | (.err e, bow') => (.err e, bow')
    | (.panicked, bow') => (.panicked, bow')

/-- The loop of `GetVocab` over the visited vocabulary entries. -/
def fillVocabList : GoMap → List String → Option (List String)
  | [], vocabList => some vocabList
  | (word, idx) :: rest, vocabList =>
    match setIdx? vocabList idx word with
    | some vocabList' => fillVocabList rest vocabList'
    | none => none

/-- Method `BoW.GetVocab`. -/
def GetVocab (ρ : RangeOrder) (bow : BoW) : Outcome (List String) :=
  match fillVocabList (ρ.visit bow.vocab) (List.replicate bow.vocab.len.toNat "") with
  | some vocabList => .ok vocabList
  | none => .panicked

/-- Method `BoW.GetRawDocVectors`: a copy of every stored vector. -/
def GetRawDocVectors (bow : BoW) : List (List Int) :=
  bow.docs.map (fun vec => vec.map (fun x => x))

/-! ## tfidf.go

`float64` is idealised as a field `F` with a logarithm `log : F → F`; the theorems about
numeric values instantiate `F` with the real numbers. -/

/-- The inner loop `for j, tf := range vec { if tf > 0 { docFreq[j]++ } }`, started at
slot `j`; `none` is the index-out-of-range panic. -/
def bumpDocFreq : List Int → Nat → List Int → Option (List Int)
  | [], _, docFreq => some docFreq
  | tf :: rest, j, docFreq =>
    if tf > 0 then
      match docFreq[j]? with
      | some c => bumpDocFreq rest (j + 1) (docFreq.set j (c + 1))
      | none => none
    else bumpDocFreq rest (j + 1) docFreq

/-- The loop `for _, vec := range raw` computing the document frequencies. -/
def countDocFreq : List (List Int) → List Int → Option (List Int)
  | [], docFreq => some docFreq
  | vec :: rest, docFreq =>
    match bumpDocFreq vec 0 docFreq with
    | some docFreq' => countDocFreq rest docFreq'
    | none => none

/-- The inner loop filling `tfidfVec` for one document, started at slot `j`. -/
def fillTFIDFVec {F : Type} [Field F] (log : F → F) (totalDocs : F) (docFreq : List Int) :
    List Int → Nat → List F → Option (List F)
  | [], _, tfidfVec => some tfidfVec
  | tf :: rest, j, tfidfVec =>
    if tf > 0 then
      match docFreq[j]? with
      | some df =>
        let idf := log ((totalDocs + 1) / ((df : F) + 1)) + 1
        if j < tfidfVec.length then
          fillTFIDFVec log totalDocs docFreq rest (j + 1) (tfidfVec.set j ((tf : F) * idf))
        else none
      | none => none
    else fillTFIDFVec log totalDocs docFreq rest (j + 1) tfidfVec

/-- The loop `for i, vec := range raw` building `tfidfMatrix`. -/
def tfidfRows {F : Type} [Field F] (log : F → F) (totalDocs : F) (docFreq : List Int)
    (vocabSize : Int) : List (List Int) → Option (List (List F))
  | [] => some []
  | vec :: rest =>
    match fillTFIDFVec log totalDocs docFreq vec 0 (List.replicate vocabSize.toNat 0) with
    | some tfidfVec =>
      match tfidfRows log totalDocs docFreq vocabSize rest with
      | some rows => some (tfidfVec :: rows)
      | none => none
    | none => none

/-- Method `BoW.ComputeTFIDF`. -/
def ComputeTFIDF {F : Type} [Field F] [DecidableEq F] (log : F → F) (bow : BoW) :
    Outcome (List (List F)) :=
  let raw := GetRawDocVectors bow
  let totalDocs : F := (raw.length : F)
  let vocabSize := bow.vocab.len
  if totalDocs = 0 then .ok []
  else
    match countDocFreq raw (List.replicate vocabSize.toNat 0) with
    | none => .panicked
    | some docFreq =>
      match tfidfRows log totalDocs docFreq vocabSize raw with
      | none => .panicked
      | some tfidfMatrix => .ok tfidfMatrix

/-- The error of `GetDocVectorsWeighted` (the spec's `UnsupportedConfiguration`). -/
def errUnsupportedConfiguration : GoError :=
  "TF-IDF weighting is not supported in binary mode"

/-- Method `BoW.GetDocVectorsWeighted`. -/
def GetDocVectorsWeighted {F : Type} [Field F] [DecidableEq F] (log : F → F) (bow : BoW) :
    Outcome (List (List F)) :=
  if bow.cfg.Weighting = WeightingTFIDF then
    if bow.cfg.UseBinaryEncoding then .err errUnsupportedConfiguration
    else ComputeTFIDF log bow
  else
    .ok ((GetRawDocVectors bow).map (fun vec => vec.map (fun (val : Int) => (val : F))))

/-! ## Auxiliary functions for the proofs -/

/-- The entries `(w₀, n), (w₁, n + 1), ...`: the words numbered from `n` on. -/
def numberFrom (n : Nat) : List String → GoMap
  | [] => []
  | w :: ws => (w, (n : Int)) :: numberFrom (n + 1) ws

/-- The new words of a document in sorted order: its distinct words that the vocabulary
does not hold yet. -/
def newWordsOf (vocab : GoMap) (words : List String) : List String :=
  sortStrings (collectNew vocab (countWords words))

/-- The vocabulary with the new words of a document appended, numbered from its size on. -/
def extendVocab (vocab : GoMap) (words : List String) : GoMap :=
  vocab ++ numberFrom vocab.length (newWordsOf vocab words)

/-- A sequence of slice writes `s[i] = v`; `none` when one of them is out of range. -/
def scatter {α : Type} : List (Int × α) → List α → Option (List α)
  | [], s => some s
  | (i, v) :: rest, s =>
    match setIdx? s i v with
    | some s' => scatter rest s'
    | none => none

/-! ## Reachable states and the state invariant -/

/-- The states reachable from `New u cfg` by calls of `AddDocument` and `AddDocuments`,
each run with arbitrary map iteration orders. -/
inductive Reachable (u : UnicodeTables) (cfg : Config) : BoW → Prop
  | new : Reachable u cfg (New u cfg)
  | addDocument (ρ₁ ρ₂ : RangeOrder) (bow : BoW) (doc : String) :
      Reachable u cfg bow → Reachable u cfg (AddDocument ρ₁ ρ₂ bow doc).2
  | addDocuments (ρ₁ ρ₂ : Nat → RangeOrder) (bow : BoW) (docs : List String) :
      Reachable u cfg bow → Reachable u cfg (AddDocuments ρ₁ ρ₂ bow docs).2

/-- A well-formed vocabulary: the keys are pairwise distinct (it is a map) and the indices
are the numbers `0, ..., len - 1`, each held once. -/
def VocabOK (vocab : GoMap) : Prop :=
  vocab.keys.Nodup ∧
    (vocab.map Prod.snd).Perm ((List.range vocab.length).map Int.ofNat)

/-- The state invariant: the vocabulary is well formed, a tokenizer is configured, and no
stored vector is longer than the vocabulary. -/
structure Valid (bow : BoW) : Prop where
  vocabOK : VocabOK bow.vocab
  tokenizer : bow.cfg.Tokenizer.isSome = true
  docsLen : ∀ vec ∈ bow.docs, vec.length ≤ bow.vocab.length

/-- The state after calling `AddDocument` on each document in turn, whatever the calls
return; the `k`-th call runs with the iteration orders `ρ₁ k` and `ρ₂ k`. -/
def ingestEach (ρ₁ ρ₂ : Nat → RangeOrder) (bow : BoW) : List String → BoW
  | [] => bow
  | doc :: rest =>
    ingestEach (fun k => ρ₁ (k + 1)) (fun k => ρ₂ (k + 1)) (AddDocument (ρ₁ 0) (ρ₂ 0) bow doc).2 rest


/-! ## Example models -/

/-- The raw-count configuration of the examples; its nil tokenizer selects the default
tokenizer. -/
def exampleCfg : Config := ⟨false, WeightingRaw, none⟩

/-- A configuration with binary encoding and TF-IDF weighting. -/
def exampleBinaryCfg : Config := ⟨true, WeightingTFIDF, none⟩

/-- A fresh raw-count model. -/
def exampleModel : BoW := New UnicodeTables.ascii exampleCfg

/-- The raw-count model after ingesting `"go go go fast"`. -/
def exampleIngested : BoW :=
  (AddDocument RangeOrder.stored RangeOrder.reversed exampleModel "go go go fast").2

/-- The binary model after ingesting `"go go go fast"`. -/
def exampleBinaryIngested : BoW :=
  (AddDocument RangeOrder.reversed RangeOrder.stored (New UnicodeTables.ascii exampleBinaryCfg)
    "go go go fast").2

/-- A tokenizer that fails on the document `"bad"` and is the default tokenizer on every
other document. -/
def failingTokenizer : Tokenizer := fun text =>
  if text = "bad" then .error "cannot tokenize"
  else DefaultTokenizer.Tokenize UnicodeTables.ascii text

/-- A fresh raw-count model with the failing tokenizer. -/
def exampleFailing : BoW :=
  New UnicodeTables.ascii ⟨false, WeightingRaw, some failingTokenizer⟩

/-! ## Specification-side functions and further examples -/

/-- A configuration with TF-IDF weighting over raw counts and the default tokenizer. -/
def exampleTFIDFCfg : Config := ⟨false, WeightingTFIDF, none⟩

/-- The corpus of the spec's TF-IDF scenario. -/
def exampleCorpus : List String := ["go go fast", "fast and slow"]

/-- The TF-IDF model after ingesting the example corpus in order. -/
def exampleCorpusModel : BoW :=
  (AddDocuments (fun _ => RangeOrder.stored) (fun _ => RangeOrder.reversed)
    (New UnicodeTables.ascii exampleTFIDFCfg) exampleCorpus).2

/-- The maximal runs of consecutive runes satisfying `p`, in order of occurrence: a run
starts at a rune satisfying `p`, extends as long as `p` holds, and the search resumes after
it; runes failing `p` belong to no run. -/
def maximalRuns (p : Char → Bool) : List Char → List (List Char)
  | [] => []
  | r :: rest =>
    if p r then (r :: rest.takeWhile p) :: maximalRuns p (rest.dropWhile p)
    else maximalRuns p rest
termination_by text => text.length
decreasing_by
  · simp only [List.length_cons]
    exact Nat.lt_succ_of_le (List.dropWhile_sublist p).length_le
  · simp only [List.length_cons]
    exact Nat.lt_succ_self _

/-- The tokens that the spec asks of the default tokenizer: the maximal runs of
letter-or-digit runes, each rune mapped to lowercase. -/
def specTokens (u : UnicodeTables) (text : String) : List String :=
  (maximalRuns (fun r => u.IsLetter r || u.IsDigit r) text.toList).map
    (fun run => String.mk (run.map u.ToLower))

/-- What `DefaultTokenizer.Tokenize` returns from loop state `st`. -/
def tokenizeFinish (st : List String × List Char) : List String :=
  if st.2.length > 0 then st.1 ++ [String.mk st.2] else st.1

/-- The number of raw vectors with a positive value at slot `j`. -/
def posCount (raw : List (List Int)) (j : Nat) : Nat :=
  raw.countP (fun vec => decide (0 < vec.getD j 0))

/-- The document frequency `df[j]` of the spec: the number of raw vectors with a non-zero
value at slot `j`. -/
def docFreqOf (raw : List (List Int)) (j : Nat) : Nat :=
  raw.countP (fun vec => decide (vec.getD j 0 ≠ 0))

/-- The weight that `ComputeTFIDF` stores for a slot with raw count `tf` and document
frequency `df` in a corpus of `totalDocs` documents. -/
def tfidfWeight {F : Type} [Field F] (log : F → F) (totalDocs : F) (tf df : Int) : F :=
  (tf : F) * (log ((totalDocs + 1) / ((df : F) + 1)) + 1)

/-- Every stored vector has only non-negative entries and at least one positive entry. -/
def DocsPositive (bow : BoW) : Prop :=
  ∀ vec ∈ bow.docs, (∀ x ∈ vec, 0 ≤ x) ∧ ∃ x ∈ vec, 0 < x

/-- The example corpus ingested into a fresh TF-IDF model under arbitrary iteration
orders. -/
def ingestCorpus (σ₁ σ₂ : Nat → RangeOrder) : BoW :=
  (AddDocuments σ₁ σ₂ (New UnicodeTables.ascii exampleTFIDFCfg) exampleCorpus).2

/-! ## The interleaving model of concurrent ingestion

The three critical sections of `AddDocument` are atomic steps (that is what the locks
provide); the prologue that tokenizes and counts touches no shared mutable state.  The
read-locked sections of different goroutines only read the vocabulary, and the section
under `docLock` touches only the document store, so sections that overlap in time are
equivalent to one of their interleavings. -/

/-- Where a goroutine running `AddDocument(doc)` stands between the lock-protected
sections of the method: before the call (`start`); after tokenizing and counting, about
to take the vocabulary write lock (`counted`); after the write-locked section that inserts
the new words, about to take the vocabulary read lock (`indexed`); after the read-locked
section that builds the vector, about to take the document lock (`built`); after the call
has returned or panicked (`returned`). -/
inductive Phase where
  | start : Phase
  | counted (wordFreq : GoMap) : Phase
  | indexed (wordFreq : GoMap) : Phase
  | built (vec : List Int) : Phase
  | returned (ret : Outcome Unit) : Phase

/-- Whether the call has returned. -/
def Phase.isReturned : Phase → Bool
  | .returned _ => true
  | _ => false

/-- One atomic section of `AddDocument(doc)` run on the shared state `bow` by a goroutine
in the given phase: the unlocked prologue (tokenize, count), the section under
`vocabLock.Lock`, the section under `vocabLock.RLock`, or the section under
`docLock.Lock`.  `ρ` is the order of the `range` loop of the section. -/
def advance (ρ : RangeOrder) (bow : BoW) (doc : String) : Phase → BoW × Phase
  | .start =>
    match bow.cfg.Tokenizer with
    | none => (bow, .returned .panicked)
    | some tokenizer =>
      match tokenizer doc with
      | .error e => (bow, .returned (.err e))
      | .ok words =>
        if words.length = 0 then (bow, .returned (.ok ()))
        else (bow, .counted (countWords words))
  | .counted wordFreq =>
    let newWords := sortStrings (collectNew bow.vocab (ρ.visit wordFreq))
    ({ bow with vocab := assignIndices bow.vocab newWords }, .indexed wordFreq)
  | .indexed wordFreq =>
    match fillVec bow.cfg.UseBinaryEncoding bow.vocab (ρ.visit wordFreq)
        (List.replicate bow.vocab.len.toNat 0) with
    | none => (bow, .returned .panicked)
    | some vec => (bow, .built vec)
  | .built vec => ({ bow with docs := bow.docs ++ [vec] }, .returned (.ok ()))
  | .returned ret => (bow, .returned ret)

/-- A model shared by goroutines, each running `AddDocument` on its own document. -/
structure Pool where
  bow : BoW
  tasks : List (String × Phase)

/-- One step of the pool: some goroutine runs its next atomic section. -/
inductive PoolStep : Pool → Pool → Prop
  | atomic (ρ : RangeOrder) (bow : BoW) (pre post : List (String × Phase)) (doc : String)
      (phase : Phase) :
      PoolStep ⟨bow, pre ++ (doc, phase) :: post⟩
        ⟨(advance ρ bow doc phase).1, pre ++ (doc, (advance ρ bow doc phase).2) :: post⟩

/-- An interleaving of atomic sections. -/
inductive PoolRun : Pool → Pool → Prop
  | refl (c : Pool) : PoolRun c c
  | tail {a b c : Pool} : PoolRun a b → PoolStep b c → PoolRun a c

/-- The four sections of one call run back to back, with nothing in between. -/
def runAlone (ρ₁ ρ₂ : RangeOrder) (bow : BoW) (doc : String) : BoW × Phase :=
  let s₁ := advance ρ₁ bow doc Phase.start
  let s₂ := advance ρ₁ s₁.1 doc s₁.2
  let s₃ := advance ρ₂ s₂.1 doc s₂.2
  advance ρ₂ s₃.1 doc s₃.2

/-- The pool after goroutine `i` has run its next atomic section. -/
def Pool.stepAt (ρ : RangeOrder) (c : Pool) (i : Nat) : Pool :=
  match c.tasks[i]? with
  | none => c
  | some (doc, phase) =>
    ⟨(advance ρ c.bow doc phase).1, c.tasks.set i (doc, (advance ρ c.bow doc phase).2)⟩

/-- The pool after the goroutines named by the schedule have run one section each, in
that order. -/
def Pool.runSchedule (ρ : RangeOrder) (c : Pool) (schedule : List Nat) : Pool :=
  schedule.foldl (Pool.stepAt ρ) c

/-- Two goroutines ingesting `"go fast"` and `"and go"` into a fresh model, with the second
one entering the write-locked section first. -/
def examplePool : Pool :=
  Pool.runSchedule RangeOrder.stored
    ⟨exampleModel, ["go fast", "and go"].map (fun d => (d, Phase.start))⟩
    [0, 1, 1, 0, 0, 1, 1, 0]

/-- The tokens of a document under the configured tokenizer; none when it fails. -/
def tokensOf (cfg : Config) (doc : String) : List String :=
  match cfg.Tokenizer with
  | none => []
  | some tokenizer =>
    match tokenizer doc with
    | .ok words => words
    | .error _ => []

/-- What the invariant of an interleaving records about one goroutine. -/
def TaskOK (cfg : Config) (vocab : GoMap) (task : String × Phase) : Prop :=
  match task.2 with
  | .start => True
  | .counted wordFreq =>
    tokensOf cfg task.1 ≠ [] ∧ wordFreq = countWords (tokensOf cfg task.1)
  | .indexed wordFreq =>
    tokensOf cfg task.1 ≠ [] ∧ wordFreq = countWords (tokensOf cfg task.1) ∧
      ∀ w ∈ tokensOf cfg task.1, w ∈ vocab.keys
  | .built _ => tokensOf cfg task.1 ≠ [] ∧ ∀ w ∈ tokensOf cfg task.1, w ∈ vocab.keys
  | .returned ret => ret ≠ .panicked ∧ ∀ w ∈ tokensOf cfg task.1, w ∈ vocab.keys

/-- The invariant of every interleaving that starts from the valid state `bow₀` with one
goroutine per document of `docs`. -/
structure PoolInv (bow₀ : BoW) (docs : List String) (c : Pool) : Prop where
  cfg : c.bow.cfg = bow₀.cfg
  names : c.tasks.map Prod.fst = docs
  vocabOK : VocabOK c.bow.vocab
  keysOld : ∀ w ∈ bow₀.vocab.keys, w ∈ c.bow.vocab.keys
  keysNew : ∀ w ∈ c.bow.vocab.keys,
    w ∈ bow₀.vocab.keys ∨ ∃ d ∈ docs, w ∈ tokensOf bow₀.cfg d
  tasks : ∀ t ∈ c.tasks, TaskOK bow₀.cfg c.bow.vocab t
  docs : ∃ tail, c.bow.docs = bow₀.docs ++ tail ∧
    tail.length = c.tasks.countP
      (fun t => t.2.isReturned && !(tokensOf bow₀.cfg t.1).isEmpty)



/-! ## The string order and `sort.Strings` -/

theorem runesLess_asymm : ∀ a b : List Char, runesLess a b = true → runesLess b a = false
  | [], [], _ => rfl
  | [], _ :: _, _ => rfl
  | _ :: _, [], h => by simp [runesLess] at h
  | a :: as, b :: bs, h => by
    simp only [runesLess] at h ⊢
    by_cases h1 : a.toNat < b.toNat
    · have h2 : ¬ b.toNat < a.toNat := by omega
      simp [h1, h2]
    · by_cases h2 : b.toNat < a.toNat
      · simp [h1, h2] at h
      · simp only [h1, h2, if_false] at h ⊢
        exact runesLess_asymm as bs h

theorem runesLess_eq_of_not : ∀ a b : List Char,
    runesLess a b = false → runesLess b a = false → a = b
  | [], [], _, _ => rfl
  | [], _ :: _, h, _ => by simp [runesLess] at h
  | _ :: _, [], _, h => by simp [runesLess] at h
  | a :: as, b :: bs, h, h' => by
    simp only [runesLess] at h h'
    by_cases h1 : a.toNat < b.toNat
    · simp [h1] at h
    · by_cases h2 : b.toNat < a.toNat
      · simp [h2] at h'
      · simp only [h1, h2, if_false] at h h'
        have hab : a = b := Char.ext (UInt32.ext (by
          have : a.toNat = b.toNat := by omega
          exact this))
        rw [hab, runesLess_eq_of_not as bs h h']

theorem runesLess_negTrans : ∀ a b c : List Char,
    runesLess b a = false → runesLess c b = false → runesLess c a = false
  | [], _, [], _, _ => rfl
  | _ :: _, b, [], _, _ => by cases b <;> simp_all [runesLess]
  | [], [], _ :: _, _, _ => by simp_all [runesLess]
  | [], _ :: _, _ :: _, _, _ => by simp_all [runesLess]
  | _ :: _, [], _ :: _, _, _ => by simp_all [runesLess]
  | a :: as, b :: bs, c :: cs, h, h' => by
    simp only [runesLess] at h h' ⊢
    by_cases h1 : b.toNat < a.toNat
    · simp [h1] at h
    · by_cases h2 : c.toNat < b.toNat
      · simp [h2] at h'
      · have h4 : ¬ c.toNat < a.toNat := by omega
        simp only [h1, h2, h4, if_false] at h h' ⊢
        by_cases h3 : a.toNat < b.toNat
        · have h5 : a.toNat < c.toNat := by omega
          simp [h5]
        · by_cases h6 : b.toNat < c.toNat
          · have h5 : a.toNat < c.toNat := by omega
            simp [h5]
          · have h5 : ¬ a.toNat < c.toNat := by omega
            simp only [h3, h6, h5, if_false] at h h' ⊢
            exact runesLess_negTrans as bs cs h h'

theorem stringLE_total (a b : String) : stringLE a b ∨ stringLE b a := by
  unfold stringLE stringLess
  cases h : runesLess b.toList a.toList
  · exact Or.inl rfl
  · exact Or.inr (runesLess_asymm _ _ h)

theorem stringLE_trans {a b c : String} (h : stringLE a b) (h' : stringLE b c) :
    stringLE a c :=
  runesLess_negTrans a.toList b.toList c.toList h h'

theorem stringLE_antisymm {a b : String} (h : stringLE a b) (h' : stringLE b a) : a = b :=
  String.ext (runesLess_eq_of_not a.toList b.toList h' h)

theorem stringLess_irrefl (a : String) : stringLess a a = false := by
  cases h : stringLess a a
  · rfl
  · have := runesLess_asymm _ _ h
    unfold stringLess at h
    rw [h] at this
    exact this

theorem sortStrings_perm (l : List String) : (sortStrings l).Perm l :=
  List.perm_insertionSort stringLE l

theorem sortStrings_sorted (l : List String) : (sortStrings l).Sorted stringLE := by
  haveI : IsTotal String stringLE := ⟨stringLE_total⟩
  haveI : IsTrans String stringLE := ⟨fun _ _ _ => stringLE_trans⟩
  exact List.sorted_insertionSort stringLE l

theorem mem_sortStrings {l : List String} {w : String} : w ∈ sortStrings l ↔ w ∈ l :=
  (sortStrings_perm l).mem_iff

theorem sortStrings_nodup {l : List String} (h : l.Nodup) : (sortStrings l).Nodup :=
  (sortStrings_perm l).nodup_iff.2 h

/-- Sorting does not depend on the order of the input. -/
theorem sortStrings_congr {l₁ l₂ : List String} (h : l₁.Perm l₂) :
    sortStrings l₁ = sortStrings l₂ := by
  haveI : IsAntisymm String stringLE := ⟨fun _ _ => stringLE_antisymm⟩
  exact List.eq_of_perm_of_sorted
    (((sortStrings_perm l₁).trans h).trans (sortStrings_perm l₂).symm)
    (sortStrings_sorted l₁) (sortStrings_sorted l₂)

/-- A sorted list without repetition is strictly increasing. -/
theorem sortStrings_strict {l : List String} (h : l.Nodup) :
    (sortStrings l).Pairwise (fun a b => stringLess a b = true) := by
  have hs := sortStrings_sorted l
  have hn := sortStrings_nodup h
  unfold List.Sorted at hs
  unfold List.Nodup at hn
  refine (hs.and hn).imp ?_
  intro a b hab
  obtain ⟨h1, h2⟩ := hab
  cases hlt : stringLess a b
  · exact absurd (stringLE_antisymm h1 hlt) h2
  · rfl


/-! ## Go maps -/

namespace GoMap

theorem get?_eq_none_iff {m : GoMap} {k : String} : m.get? k = none ↔ k ∉ m.keys := by
  induction m with
  | nil => simp [get?, keys]
  | cons p t ih =>
    obtain ⟨k', v⟩ := p
    by_cases h : k' = k
    · simp [get?, keys, h]
    · have h' : ¬ k = k' := fun e => h e.symm
      simpa [get?, keys, h, h'] using ih

theorem mem_of_get? {m : GoMap} {k : String} {v : Int} (h : m.get? k = some v) :
    (k, v) ∈ m := by
  induction m with
  | nil => simp [get?] at h
  | cons p t ih =>
    obtain ⟨k', v'⟩ := p
    by_cases hk : k' = k
    · simp [get?, hk] at h
      simp [hk, h]
    · simp only [get?, hk, if_false] at h
      exact List.mem_cons_of_mem _ (ih h)

theorem mem_keys_of_get? {m : GoMap} {k : String} {v : Int} (h : m.get? k = some v) :
    k ∈ m.keys :=
  List.mem_map.2 ⟨(k, v), mem_of_get? h, rfl⟩

theorem get?_of_mem {m : GoMap} (hm : m.keys.Nodup) {k : String} {v : Int}
    (h : (k, v) ∈ m) : m.get? k = some v := by
  induction m with
  | nil => simp at h
  | cons p t ih =>
    obtain ⟨k', v'⟩ := p
    simp only [keys, List.map_cons, List.nodup_cons] at hm
    rcases List.mem_cons.1 h with h | h
    · cases h
      simp [get?]
    · have hk : k' ≠ k := by
        rintro rfl
        exact hm.1 (List.mem_map.2 ⟨(k', v), h, rfl⟩)
      simp only [get?, hk, if_false]
      exact ih hm.2 h

theorem get?_append (m m' : GoMap) (k : String) :
    (m ++ m').get? k = (m.get? k).orElse (fun _ => m'.get? k) := by
  induction m with
  | nil => simp [get?]
  | cons p t ih =>
    obtain ⟨k', v⟩ := p
    by_cases h : k' = k
    · simp [get?, h]
    · simpa [get?, h] using ih

theorem get?_set (m : GoMap) (k k' : String) (v : Int) :
    (m.set k v).get? k' = if k = k' then some v else m.get? k' := by
  induction m with
  | nil => simp [set, get?]
  | cons p t ih =>
    obtain ⟨k₀, v₀⟩ := p
    by_cases h : k₀ = k
    · subst h
      by_cases h' : k₀ = k' <;> simp [set, get?, h']
    · by_cases h' : k₀ = k'
      · subst h'
        have : ¬ k = k₀ := fun e => h e.symm
        simp [set, get?, h, this]
      · simp [set, get?, h, h', ih]

theorem set_of_not_mem {m : GoMap} {k : String} (h : k ∉ m.keys) (v : Int) :
    m.set k v = m ++ [(k, v)] := by
  induction m with
  | nil => rfl
  | cons p t ih =>
    obtain ⟨k₀, v₀⟩ := p
    simp only [keys, List.map_cons, List.mem_cons, not_or] at h
    have h0 : ¬ k₀ = k := fun e => h.1 e.symm
    simp only [set, h0, if_false, List.cons_append]
    rw [ih h.2]

theorem keys_set_of_mem {m : GoMap} {k : String} (h : k ∈ m.keys) (v : Int) :
    (m.set k v).keys = m.keys := by
  induction m with
  | nil => simp [keys] at h
  | cons p t ih =>
    obtain ⟨k₀, v₀⟩ := p
    by_cases h0 : k₀ = k
    · simp [set, keys, h0]
    · have : k ∈ keys t := by
        simp only [keys, List.map_cons, List.mem_cons] at h
        rcases h with h | h
        · exact absurd h.symm h0
        · exact h
      simp only [set, h0, if_false, keys, List.map_cons]
      exact congrArg _ (ih this)

theorem keys_set (m : GoMap) (k : String) (v : Int) :
    (m.set k v).keys = if k ∈ m.keys then m.keys else m.keys ++ [k] := by
  by_cases h : k ∈ m.keys
  · simp [h, keys_set_of_mem h]
  · rw [if_neg h, set_of_not_mem h]
    simp [keys]

theorem nodup_keys_set {m : GoMap} (hm : m.keys.Nodup) (k : String) (v : Int) :
    (m.set k v).keys.Nodup := by
  rw [keys_set]
  by_cases h : k ∈ m.keys
  · simpa [h] using hm
  · simp only [h, if_false]
    exact List.Nodup.append hm (List.nodup_singleton k) (by simpa using h)

theorem getD_set (m : GoMap) (k k' : String) (v : Int) :
    (m.set k v).getD k' = if k = k' then v else m.getD k' := by
  unfold getD
  rw [get?_set]
  by_cases h : k = k' <;> simp [h]

theorem get?_eq_some_getD {m : GoMap} {k : String} (h : k ∈ m.keys) :
    m.get? k = some (m.getD k) := by
  cases hg : m.get? k with
  | none => exact absurd h (get?_eq_none_iff.1 hg)
  | some v => simp [getD, hg]

end GoMap


/-! ## The loops of `AddDocument` -/

theorem countWords_go_keys (words : List String) : ∀ (acc : GoMap) (w : String),
    w ∈ (words.foldl (fun wordFreq word => wordFreq.set word (wordFreq.getD word + 1))
      acc).keys ↔ w ∈ acc.keys ∨ w ∈ words := by
  induction words with
  | nil => simp
  | cons x xs ih =>
    intro acc w
    rw [List.foldl_cons, ih, GoMap.keys_set]
    by_cases hx : x ∈ acc.keys
    · simp only [hx, if_true, List.mem_cons]
      constructor
      · rintro (h | h)
        · exact Or.inl h
        · exact Or.inr (Or.inr h)
      · rintro (h | h | h)
        · exact Or.inl h
        · exact Or.inl (h ▸ hx)
        · exact Or.inr h
    · simp only [hx, if_false, List.mem_append, List.mem_singleton, List.mem_cons]
      tauto

theorem countWords_go_nodup (words : List String) : ∀ (acc : GoMap), acc.keys.Nodup →
    (words.foldl (fun wordFreq word => wordFreq.set word (wordFreq.getD word + 1))
      acc).keys.Nodup := by
  induction words with
  | nil => intro acc h; exact h
  | cons x xs ih =>
    intro acc h
    rw [List.foldl_cons]
    exact ih _ (GoMap.nodup_keys_set h _ _)

theorem countWords_go_getD (words : List String) : ∀ (acc : GoMap) (w : String),
    (words.foldl (fun wordFreq word => wordFreq.set word (wordFreq.getD word + 1))
      acc).getD w = acc.getD w + (words.count w : Int) := by
  induction words with
  | nil => simp
  | cons x xs ih =>
    intro acc w
    rw [List.foldl_cons, ih, GoMap.getD_set]
    by_cases hx : x = w
    · subst hx
      simp only [if_true, List.count_cons_self]
      push_cast
      ring
    · have : (x == w) = false := by simpa using hx
      simp [hx, List.count_cons, this]

/-- The frequency map has one key per distinct word. -/
theorem countWords_keys_nodup (words : List String) : (countWords words).keys.Nodup :=
  countWords_go_nodup words [] List.nodup_nil

theorem mem_countWords_keys {words : List String} {w : String} :
    w ∈ (countWords words).keys ↔ w ∈ words := by
  unfold countWords
  rw [countWords_go_keys]
  simp [GoMap.keys]

/-- The frequency map holds the number of occurrences of each word. -/
theorem countWords_get? {words : List String} {w : String} (h : w ∈ words) :
    (countWords words).get? w = some (words.count w : Int) := by
  rw [GoMap.get?_eq_some_getD (mem_countWords_keys.2 h)]
  unfold countWords
  rw [countWords_go_getD]
  simp [GoMap.getD, GoMap.get?]

theorem mem_countWords {words : List String} {w : String} {f : Int}
    (h : (w, f) ∈ countWords words) : w ∈ words ∧ f = (words.count w : Int) := by
  have hw : w ∈ words := mem_countWords_keys.1 (List.mem_map.2 ⟨(w, f), h, rfl⟩)
  refine ⟨hw, ?_⟩
  have h1 := GoMap.get?_of_mem (countWords_keys_nodup words) h
  rw [countWords_get? hw] at h1
  exact (Option.some.inj h1).symm

theorem collectNew_eq (vocab entries : GoMap) :
    collectNew vocab entries =
      (entries.filter (fun e => (vocab.get? e.1).isNone)).map Prod.fst := by
  induction entries with
  | nil => rfl
  | cons p t ih =>
    obtain ⟨w, f⟩ := p
    by_cases h : (vocab.get? w).isNone = true
    · simp [collectNew, h, List.filter_cons, ih]
    · simp [collectNew, h, List.filter_cons, ih]

theorem collectNew_perm (vocab : GoMap) {e₁ e₂ : GoMap} (h : e₁.Perm e₂) :
    (collectNew vocab e₁).Perm (collectNew vocab e₂) := by
  rw [collectNew_eq, collectNew_eq]
  exact (h.filter _).map _

theorem mem_collectNew {vocab entries : GoMap} {w : String} :
    w ∈ collectNew vocab entries ↔ w ∈ entries.keys ∧ vocab.get? w = none := by
  rw [collectNew_eq]
  simp only [List.mem_map, List.mem_filter, GoMap.keys, Option.isNone_iff_eq_none]
  constructor
  · rintro ⟨p, ⟨hp, hn⟩, rfl⟩
    exact ⟨⟨p, hp, rfl⟩, hn⟩
  · rintro ⟨⟨p, hp, rfl⟩, hn⟩
    exact ⟨p, ⟨hp, hn⟩, rfl⟩

theorem collectNew_nodup (vocab : GoMap) {entries : GoMap} (h : entries.keys.Nodup) :
    (collectNew vocab entries).Nodup := by
  rw [collectNew_eq]
  have : (List.filter (fun e => (vocab.get? e.1).isNone) entries).Sublist entries :=
    List.filter_sublist _
  exact (this.map Prod.fst).nodup h

/-- The sorted slice `newWords` of `AddDocument`, for the words of a document. -/
theorem newWords_eq (ρ : RangeOrder) (vocab : GoMap) (words : List String) :
    sortStrings (collectNew vocab (ρ.visit (countWords words))) =
      sortStrings (collectNew vocab (countWords words)) :=
  sortStrings_congr (collectNew_perm vocab (ρ.perm _))

theorem mem_newWords {ρ : RangeOrder} {vocab : GoMap} {words : List String} {w : String} :
    w ∈ sortStrings (collectNew vocab (ρ.visit (countWords words))) ↔
      w ∈ words ∧ vocab.get? w = none := by
  rw [newWords_eq, mem_sortStrings, mem_collectNew, mem_countWords_keys]

theorem newWords_nodup (ρ : RangeOrder) (vocab : GoMap) (words : List String) :
    (sortStrings (collectNew vocab (ρ.visit (countWords words)))).Nodup := by
  rw [newWords_eq]
  exact sortStrings_nodup (collectNew_nodup vocab (countWords_keys_nodup words))

theorem newWords_strict (ρ : RangeOrder) (vocab : GoMap) (words : List String) :
    (sortStrings (collectNew vocab (ρ.visit (countWords words)))).Pairwise
      (fun a b => stringLess a b = true) := by
  rw [newWords_eq]
  exact sortStrings_strict (collectNew_nodup vocab (countWords_keys_nodup words))


theorem numberFrom_keys (ws : List String) : ∀ n, (numberFrom n ws).keys = ws := by
  induction ws with
  | nil => intro n; rfl
  | cons w ws ih =>
    intro n
    simp only [numberFrom, GoMap.keys, List.map_cons]
    exact congrArg _ (ih (n + 1))

theorem numberFrom_length (ws : List String) : ∀ n, (numberFrom n ws).length = ws.length := by
  induction ws with
  | nil => intro n; rfl
  | cons w ws ih => intro n; simp [numberFrom, ih]

theorem numberFrom_vals (ws : List String) : ∀ n,
    (numberFrom n ws).map Prod.snd = (List.range' n ws.length).map Int.ofNat := by
  induction ws with
  | nil => intro n; rfl
  | cons w ws ih =>
    intro n
    simp [numberFrom, List.range'_succ, ih]

theorem mem_numberFrom (ws : List String) : ∀ (n i : Nat) (h : i < ws.length),
    (ws[i], ((n + i : Nat) : Int)) ∈ numberFrom n ws := by
  induction ws with
  | nil => intro n i h; simp at h
  | cons w ws ih =>
    intro n i h
    cases i with
    | zero => simp [numberFrom]
    | succ i =>
      have hi : i < ws.length := by simpa using h
      have := ih (n + 1) i hi
      simp only [numberFrom, List.getElem_cons_succ, List.mem_cons]
      right
      have e : n + (i + 1) = n + 1 + i := by omega
      rw [e]
      exact this

theorem numberFrom_get? {ws : List String} (hws : ws.Nodup) (n i : Nat) (h : i < ws.length) :
    (numberFrom n ws).get? ws[i] = some ((n : Int) + i) := by
  have hk : (numberFrom n ws).keys.Nodup := by rw [numberFrom_keys]; exact hws
  have := GoMap.get?_of_mem hk (mem_numberFrom ws n i h)
  rw [this]
  push_cast
  rfl

/-- New words are appended to the vocabulary, numbered from `len(vocab)` on. -/
theorem assignIndices_eq (ws : List String) : ∀ (vocab : GoMap), ws.Nodup →
    (∀ w ∈ ws, w ∉ vocab.keys) →
    assignIndices vocab ws = vocab ++ numberFrom vocab.length ws := by
  induction ws with
  | nil => intro vocab _ _; simp [assignIndices, numberFrom]
  | cons w ws ih =>
    intro vocab hnd hnew
    have hw : w ∉ vocab.keys := hnew w (List.mem_cons_self _ _)
    have hnd' := List.nodup_cons.1 hnd
    have step : assignIndices vocab (w :: ws) =
        assignIndices (vocab ++ [(w, (vocab.length : Int))]) ws := by
      simp only [assignIndices, List.foldl_cons, GoMap.len]
      rw [GoMap.set_of_not_mem hw]
    rw [step, ih _ hnd'.2]
    · simp [numberFrom]
    · intro w' hw' hmem
      simp only [GoMap.keys, List.map_append, List.map_cons, List.map_nil, List.mem_append,
        List.mem_singleton] at hmem
      rcases hmem with hmem | hmem
      · exact hnew w' (List.mem_cons_of_mem _ hw') hmem
      · exact hnd'.1 (hmem ▸ hw')

theorem vocabOK_append {vocab : GoMap} (h : VocabOK vocab) {ws : List String}
    (hnd : ws.Nodup) (hnew : ∀ w ∈ ws, w ∉ vocab.keys) :
    VocabOK (vocab ++ numberFrom vocab.length ws) := by
  obtain ⟨hk, hv⟩ := h
  constructor
  · simp only [GoMap.keys, List.map_append]
    have e : List.map Prod.fst (numberFrom vocab.length ws) = ws := numberFrom_keys ws _
    rw [e]
    refine List.Nodup.append hk hnd ?_
    intro w h1 h2
    exact hnew w h2 h1
  · rw [List.map_append, numberFrom_vals, List.length_append, numberFrom_length,
      List.range_eq_range', Nat.add_comm vocab.length ws.length,
      ← List.range'_append 0 vocab.length ws.length, List.map_append]
    simp only [Nat.zero_add, Nat.one_mul]
    refine List.Perm.append ?_ (List.Perm.refl _)
    rw [← List.range_eq_range']
    exact hv

theorem vocabOK_nil : VocabOK [] := ⟨List.nodup_nil, List.Perm.refl _⟩

/-- In a well-formed vocabulary every index is in range. -/
theorem VocabOK.index_lt {vocab : GoMap} (h : VocabOK vocab) {w : String} {i : Int}
    (hw : vocab.get? w = some i) : 0 ≤ i ∧ i < vocab.length := by
  have h1 : i ∈ vocab.map Prod.snd := List.mem_map.2 ⟨(w, i), GoMap.mem_of_get? hw, rfl⟩
  have h2 := h.2.mem_iff.1 h1
  obtain ⟨j, hj, rfl⟩ := List.mem_map.1 h2
  have := List.mem_range.1 hj
  simp only [Int.ofNat_eq_coe]
  omega

/-- In a well-formed vocabulary no two words share an index. -/
theorem VocabOK.index_inj {vocab : GoMap} (h : VocabOK vocab) {w₁ w₂ : String} {i : Int}
    (h₁ : vocab.get? w₁ = some i) (h₂ : vocab.get? w₂ = some i) : w₁ = w₂ := by
  have hnd : (vocab.map Prod.snd).Nodup :=
    h.2.nodup_iff.2 ((List.nodup_range _).map (fun a b hab => Int.ofNat.inj hab))
  have m₁ := GoMap.mem_of_get? h₁
  have m₂ := GoMap.mem_of_get? h₂
  have := List.inj_on_of_nodup_map hnd m₁ m₂ rfl
  exact congrArg Prod.fst this

/-- In a well-formed vocabulary every number below the size is the index of a word. -/
theorem VocabOK.index_surj {vocab : GoMap} (h : VocabOK vocab) {i : Nat}
    (hi : i < vocab.length) : ∃ w, vocab.get? w = some (i : Int) := by
  have h1 : (i : Int) ∈ (List.range vocab.length).map Int.ofNat :=
    List.mem_map.2 ⟨i, List.mem_range.2 hi, rfl⟩
  have h2 := h.2.mem_iff.2 h1
  obtain ⟨⟨w, j⟩, hp, hj⟩ := List.mem_map.1 h2
  simp only at hj
  subst hj
  exact ⟨w, GoMap.get?_of_mem h.1 hp⟩


/-! ## Sequences of slice writes -/

theorem setIdx?_eq_some {α : Type} {s : List α} {i : Int} (v : α)
    (h : 0 ≤ i ∧ i < s.length) : setIdx? s i v = some (s.set i.toNat v) := by
  simp [setIdx?, h]

theorem setIdx?_length {α : Type} {s s' : List α} {i : Int} {v : α}
    (h : setIdx? s i v = some s') : s'.length = s.length := by
  unfold setIdx? at h
  split at h
  · cases h
    simp
  · cases h

/-- Writes at pairwise distinct indices in range all succeed; every written slot holds
its value and every other slot is unchanged. -/
theorem scatter_spec {α : Type} : ∀ (ws : List (Int × α)) (s : List α),
    (∀ p ∈ ws, 0 ≤ p.1 ∧ p.1 < s.length) → (ws.map Prod.fst).Nodup →
    ∃ s', scatter ws s = some s' ∧ s'.length = s.length ∧
      (∀ p ∈ ws, s'[p.1.toNat]? = some p.2) ∧
      (∀ j : Nat, (∀ p ∈ ws, p.1 ≠ (j : Int)) → s'[j]? = s[j]?) := by
  intro ws
  induction ws with
  | nil =>
    intro s _ _
    exact ⟨s, rfl, rfl, by simp, fun _ _ => rfl⟩
  | cons q ws ih =>
    intro s hr hnd
    obtain ⟨i, v⟩ := q
    have hi : 0 ≤ i ∧ i < (s.length : Int) := hr (i, v) (List.mem_cons_self _ _)
    simp only [List.map_cons, List.nodup_cons] at hnd
    have hr' : ∀ p ∈ ws, 0 ≤ p.1 ∧ p.1 < ((s.set i.toNat v).length : Int) := by
      intro p hp
      simpa using hr p (List.mem_cons_of_mem _ hp)
    obtain ⟨s', h1, h2, h3, h4⟩ := ih (s.set i.toNat v) hr' hnd.2
    refine ⟨s', ?_, ?_, ?_, ?_⟩
    · simp only [scatter, setIdx?_eq_some v hi]
      exact h1
    · simpa using h2
    · intro p hp
      rcases List.mem_cons.1 hp with rfl | hp
      · have hne : ∀ p ∈ ws, p.1 ≠ ((i.toNat : Nat) : Int) := by
          intro p hp e
          apply hnd.1
          have : p.1 = i := by omega
          exact List.mem_map.2 ⟨p, hp, this⟩
        rw [h4 i.toNat hne, List.getElem?_set]
        have : i.toNat < s.length := by omega
        simp [this]
      · exact h3 p hp
    · intro j hj
      have hne : ∀ p ∈ ws, p.1 ≠ (j : Int) := fun p hp => hj p (List.mem_cons_of_mem _ hp)
      have hij : i.toNat ≠ j := by
        have := hj (i, v) (List.mem_cons_self _ _)
        simp only at this
        omega
      rw [h4 j hne, List.getElem?_set]
      simp [hij]

/-- The vector loop of `AddDocument` is a sequence of slice writes. -/
theorem fillVec_eq_scatter (binary : Bool) (vocab : GoMap) : ∀ (entries : GoMap)
    (vec : List Int), fillVec binary vocab entries vec =
      scatter (entries.filterMap (fun e => (vocab.get? e.1).map
        (fun idx => (idx, if binary then 1 else e.2)))) vec := by
  intro entries
  induction entries with
  | nil => intro vec; rfl
  | cons e t ih =>
    intro vec
    obtain ⟨w, f⟩ := e
    cases hg : vocab.get? w with
    | none => simp [fillVec, hg, List.filterMap_cons, ih]
    | some idx =>
      simp only [fillVec, hg, List.filterMap_cons, Option.map_some', scatter]
      cases setIdx? vec idx (if binary then 1 else f) with
      | none => rfl
      | some vec' => exact ih vec'

/-- The loop of `GetVocab` is a sequence of slice writes. -/
theorem fillVocabList_eq_scatter : ∀ (entries : GoMap) (l : List String),
    fillVocabList entries l = scatter (entries.map (fun e => (e.2, e.1))) l := by
  intro entries
  induction entries with
  | nil => intro l; rfl
  | cons e t ih =>
    intro l
    obtain ⟨w, idx⟩ := e
    simp only [fillVocabList, List.map_cons, scatter]
    cases setIdx? l idx w with
    | none => rfl
    | some l' => exact ih l'

/-- In binary mode the vector loop only ever stores `1`. -/
theorem fillVec_binary (vocab : GoMap) : ∀ (entries : GoMap) (vec vec' : List Int),
    (∀ x ∈ vec, x = 0 ∨ x = 1) → fillVec true vocab entries vec = some vec' →
    ∀ x ∈ vec', x = 0 ∨ x = 1 := by
  intro entries
  induction entries with
  | nil =>
    intro vec vec' h he
    simp only [fillVec, Option.some.injEq] at he
    exact he ▸ h
  | cons e t ih =>
    intro vec vec' h he
    obtain ⟨w, f⟩ := e
    cases hg : vocab.get? w with
    | none =>
      simp only [fillVec, hg] at he
      exact ih vec vec' h he
    | some idx =>
      simp only [fillVec, hg] at he
      cases hs : setIdx? vec idx 1 with
      | none => simp [hs] at he
      | some vec₁ =>
        simp only [if_true, hs] at he
        refine ih vec₁ vec' ?_ he
        unfold setIdx? at hs
        split at hs
        · cases hs
          intro x hx
          rcases List.mem_or_eq_of_mem_set hx with hx | hx
          · exact h x hx
          · exact Or.inr hx
        · cases hs


/-! ## `AddDocument` -/

theorem mem_newWordsOf {vocab : GoMap} {words : List String} {w : String} :
    w ∈ newWordsOf vocab words ↔ w ∈ words ∧ vocab.get? w = none := by
  unfold newWordsOf
  rw [mem_sortStrings, mem_collectNew, mem_countWords_keys]

theorem newWordsOf_nodup (vocab : GoMap) (words : List String) :
    (newWordsOf vocab words).Nodup :=
  sortStrings_nodup (collectNew_nodup _ (countWords_keys_nodup words))

theorem newWordsOf_strict (vocab : GoMap) (words : List String) :
    (newWordsOf vocab words).Pairwise (fun a b => stringLess a b = true) :=
  sortStrings_strict (collectNew_nodup _ (countWords_keys_nodup words))

theorem newWordsOf_not_mem (vocab : GoMap) (words : List String) :
    ∀ w ∈ newWordsOf vocab words, w ∉ vocab.keys := fun _ hw =>
  GoMap.get?_eq_none_iff.1 (mem_newWordsOf.1 hw).2

theorem extendVocab_length (vocab : GoMap) (words : List String) :
    (extendVocab vocab words).length = vocab.length + (newWordsOf vocab words).length := by
  simp [extendVocab, numberFrom_length]

/-- The path of `AddDocument` for a document with at least one token: the vocabulary is
extended by the sorted new words, then the vector is filled. -/
theorem addDocument_unfold (ρ₁ ρ₂ : RangeOrder) (bow : BoW) (doc : String)
    {tokenizer : Tokenizer} {words : List String}
    (htok : bow.cfg.Tokenizer = some tokenizer) (hwords : tokenizer doc = .ok words)
    (hne : words ≠ []) :
    AddDocument ρ₁ ρ₂ bow doc =
      match fillVec bow.cfg.UseBinaryEncoding (extendVocab bow.vocab words)
          (ρ₂.visit (countWords words))
          (List.replicate (extendVocab bow.vocab words).length 0) with
      | none => (.panicked, { bow with vocab := extendVocab bow.vocab words })
      | some vec => (.ok (), { bow with
          vocab := extendVocab bow.vocab words, docs := bow.docs ++ [vec] }) := by
  have hlen : ¬ words.length = 0 := by
    intro h
    exact hne (List.length_eq_zero.1 h)
  have hV : assignIndices bow.vocab
      (sortStrings (collectNew bow.vocab (ρ₁.visit (countWords words))))
      = extendVocab bow.vocab words := by
    rw [newWords_eq]
    exact assignIndices_eq _ _ (newWordsOf_nodup _ _) (newWordsOf_not_mem _ _)
  unfold AddDocument
  simp only [htok, hwords, hlen, if_false, hV, GoMap.len, Int.toNat_ofNat]


theorem extendVocab_ok {vocab : GoMap} (h : VocabOK vocab) (words : List String) :
    VocabOK (extendVocab vocab words) :=
  vocabOK_append h (newWordsOf_nodup _ _) (newWordsOf_not_mem _ _)

/-- Extending the vocabulary keeps the index of every word it held. -/
theorem extendVocab_get?_old {vocab : GoMap} {words : List String} {w : String} {i : Int}
    (h : vocab.get? w = some i) : (extendVocab vocab words).get? w = some i := by
  simp [extendVocab, GoMap.get?_append, h]

/-- The `i`-th new word gets the index `len(vocab) + i`. -/
theorem extendVocab_get?_new (vocab : GoMap) (words : List String) (i : Nat)
    (hi : i < (newWordsOf vocab words).length) :
    (extendVocab vocab words).get? (newWordsOf vocab words)[i] =
      some ((vocab.length : Int) + i) := by
  have hnone : vocab.get? (newWordsOf vocab words)[i] = none :=
    (mem_newWordsOf.1 (List.getElem_mem hi)).2
  simp only [extendVocab, GoMap.get?_append, hnone, Option.none_orElse]
  exact numberFrom_get? (newWordsOf_nodup _ _) _ _ hi

/-- After the extension every word of the document is in the vocabulary. -/
theorem extendVocab_get?_isSome {vocab : GoMap} {words : List String} {w : String}
    (hw : w ∈ words) : ∃ i, (extendVocab vocab words).get? w = some i := by
  cases h : vocab.get? w with
  | some i => exact ⟨i, extendVocab_get?_old h⟩
  | none =>
    have hm : w ∈ newWordsOf vocab words := mem_newWordsOf.2 ⟨hw, h⟩
    obtain ⟨i, hi, rfl⟩ := List.getElem_of_mem hm
    exact ⟨_, extendVocab_get?_new vocab words i hi⟩

theorem writes_indices (binary : Bool) (V : GoMap) (l : GoMap) :
    (l.filterMap (fun e => (V.get? e.1).map
      (fun idx => (idx, if binary then (1 : Int) else e.2)))).map Prod.fst =
      l.keys.filterMap V.get? := by
  induction l with
  | nil => rfl
  | cons e t ih =>
    obtain ⟨w, f⟩ := e
    simp only [GoMap.keys, List.map_cons] at ih ⊢
    cases h : V.get? w with
    | none => simp [List.filterMap_cons, h, ih]
    | some idx => simp [List.filterMap_cons, h, ih]

/-- On a well-formed vocabulary the vector loop of `AddDocument` never panics and yields
the count vector of the document (the presence vector in binary mode). -/
theorem fillVec_extend (ρ : RangeOrder) (binary : Bool) {vocab : GoMap} (h : VocabOK vocab)
    (words : List String) :
    ∃ vec, fillVec binary (extendVocab vocab words) (ρ.visit (countWords words))
        (List.replicate (extendVocab vocab words).length 0) = some vec ∧
      vec.length = (extendVocab vocab words).length ∧
      (∀ t ∈ words, ∀ i, (extendVocab vocab words).get? t = some i →
        vec[i.toNat]? = some (if binary then 1 else (words.count t : Int))) ∧
      (∀ j : Nat, j < vec.length →
        (∀ t ∈ words, (extendVocab vocab words).get? t ≠ some (j : Int)) →
        vec[j]? = some 0) := by
  have hV := extendVocab_ok h words
  have hperm := ρ.perm (countWords words)
  rw [fillVec_eq_scatter]
  have hrange : ∀ p ∈ (ρ.visit (countWords words)).filterMap
      (fun e => ((extendVocab vocab words).get? e.1).map
        (fun idx => (idx, if binary then (1 : Int) else e.2))),
      0 ≤ p.1 ∧ p.1 < ((List.replicate (extendVocab vocab words).length (0 : Int)).length : Int) := by
    intro p hp
    obtain ⟨e, _, he⟩ := List.mem_filterMap.1 hp
    obtain ⟨idx, hidx, rfl⟩ := Option.map_eq_some'.1 he
    simpa using hV.index_lt hidx
  have hnd : ((ρ.visit (countWords words)).filterMap
      (fun e => ((extendVocab vocab words).get? e.1).map
        (fun idx => (idx, if binary then (1 : Int) else e.2)))).map Prod.fst |>.Nodup := by
    rw [writes_indices]
    refine List.Nodup.filterMap ?_ ((hperm.map Prod.fst).nodup_iff.2 (countWords_keys_nodup words))
    intro a a' b hb hb'
    exact hV.index_inj hb hb'
  obtain ⟨vec, h1, h2, h3, h4⟩ := scatter_spec _ _ hrange hnd
  refine ⟨vec, h1, by simpa using h2, ?_, ?_⟩
  · intro t ht i hi
    have hmem : (t, (words.count t : Int)) ∈ ρ.visit (countWords words) := by
      refine hperm.mem_iff.2 ?_
      exact GoMap.mem_of_get? (countWords_get? ht)
    have := h3 (i, if binary then (1 : Int) else (words.count t : Int))
      (List.mem_filterMap.2 ⟨_, hmem, by simp [hi]⟩)
    simpa using this
  · intro j hj hno
    have hj' : j < (extendVocab vocab words).length := by
      rw [h2] at hj
      simpa using hj
    rw [h4 j ?_]
    · simp [hj']
    · intro p hp e
      obtain ⟨⟨w, f⟩, hmem, he⟩ := List.mem_filterMap.1 hp
      obtain ⟨idx, hidx, rfl⟩ := Option.map_eq_some'.1 he
      have hw : w ∈ words := (mem_countWords (hperm.mem_iff.1 hmem)).1
      simp only at e hidx
      exact hno w hw (e ▸ hidx)


/-- The four ways a call of `AddDocument` can go. -/
theorem addDocument_cases (ρ₁ ρ₂ : RangeOrder) (bow : BoW) (doc : String) :
    (bow.cfg.Tokenizer = none ∧ AddDocument ρ₁ ρ₂ bow doc = (.panicked, bow)) ∨
    (∃ tokenizer e, bow.cfg.Tokenizer = some tokenizer ∧ tokenizer doc = .error e ∧
      AddDocument ρ₁ ρ₂ bow doc = (.err e, bow)) ∨
    (∃ tokenizer, bow.cfg.Tokenizer = some tokenizer ∧ tokenizer doc = .ok [] ∧
      AddDocument ρ₁ ρ₂ bow doc = (.ok (), bow)) ∨
    (∃ tokenizer words, bow.cfg.Tokenizer = some tokenizer ∧ tokenizer doc = .ok words ∧
      words ≠ [] ∧
      ((fillVec bow.cfg.UseBinaryEncoding (extendVocab bow.vocab words)
          (ρ₂.visit (countWords words))
          (List.replicate (extendVocab bow.vocab words).length 0) = none ∧
        AddDocument ρ₁ ρ₂ bow doc =
          (.panicked, { bow with vocab := extendVocab bow.vocab words })) ∨
      (∃ vec, fillVec bow.cfg.UseBinaryEncoding (extendVocab bow.vocab words)
          (ρ₂.visit (countWords words))
          (List.replicate (extendVocab bow.vocab words).length 0) = some vec ∧
        AddDocument ρ₁ ρ₂ bow doc =
          (.ok (), { bow with vocab := extendVocab bow.vocab words,
                              docs := bow.docs ++ [vec] })))) := by
  cases htok : bow.cfg.Tokenizer with
  | none =>
    left
    exact ⟨rfl, by unfold AddDocument; simp only [htok]⟩
  | some tokenizer =>
    right
    cases hwords : tokenizer doc with
    | error e =>
      left
      exact ⟨tokenizer, e, rfl, hwords, by unfold AddDocument; simp only [htok, hwords]⟩
    | ok words =>
      right
      by_cases hne : words = []
      · left
        subst hne
        exact ⟨tokenizer, rfl, hwords, by
          unfold AddDocument; simp only [htok, hwords, List.length_nil, if_true]⟩
      · right
        refine ⟨tokenizer, words, rfl, hwords, hne, ?_⟩
        rw [addDocument_unfold ρ₁ ρ₂ bow doc htok hwords hne]
        cases fillVec bow.cfg.UseBinaryEncoding (extendVocab bow.vocab words)
            (ρ₂.visit (countWords words))
            (List.replicate (extendVocab bow.vocab words).length 0) with
        | none => exact Or.inl ⟨rfl, rfl⟩
        | some vec => exact Or.inr ⟨vec, rfl, rfl⟩

/-- A call of `AddDocument` never changes the configuration. -/
theorem addDocument_cfg (ρ₁ ρ₂ : RangeOrder) (bow : BoW) (doc : String) :
    (AddDocument ρ₁ ρ₂ bow doc).2.cfg = bow.cfg := by
  rcases addDocument_cases ρ₁ ρ₂ bow doc with ⟨_, h⟩ | ⟨_, _, _, _, h⟩ | ⟨_, _, _, h⟩ |
    ⟨_, _, _, _, _, ⟨_, h⟩ | ⟨_, _, h⟩⟩ <;> rw [h]

/-- On a valid state `AddDocument` does not panic and leaves a valid state. -/
theorem addDocument_valid (ρ₁ ρ₂ : RangeOrder) {bow : BoW} (hv : Valid bow) (doc : String) :
    Valid (AddDocument ρ₁ ρ₂ bow doc).2 ∧ (AddDocument ρ₁ ρ₂ bow doc).1 ≠ .panicked := by
  rcases addDocument_cases ρ₁ ρ₂ bow doc with ⟨h0, _⟩ | ⟨_, _, _, _, h⟩ | ⟨_, _, _, h⟩ |
    ⟨tokenizer, words, htok, hwords, hne, hcase⟩
  · have := hv.tokenizer
    simp [h0] at this
  · rw [h]
    exact ⟨hv, by simp⟩
  · rw [h]
    exact ⟨hv, by simp⟩
  · obtain ⟨vec, hvec, hlen, -, -⟩ :=
      fillVec_extend ρ₂ bow.cfg.UseBinaryEncoding hv.vocabOK words
    rcases hcase with ⟨hnone, _⟩ | ⟨vec', hsome, h⟩
    · rw [hvec] at hnone
      cases hnone
    · rw [hvec] at hsome
      cases hsome
      rw [h]
      refine ⟨⟨extendVocab_ok hv.vocabOK words, hv.tokenizer, ?_⟩, by simp⟩
      intro x hx
      simp only [List.mem_append, List.mem_singleton] at hx
      rcases hx with hx | rfl
      · have := hv.docsLen x hx
        simp only [extendVocab_length]
        omega
      · exact le_of_eq hlen

/-- A property that every call of `AddDocument` preserves is preserved by `AddDocuments`. -/
theorem addDocuments_preserves (P : BoW → Prop)
    (hstep : ∀ (ρ₁ ρ₂ : RangeOrder) (bow : BoW) (doc : String),
      P bow → P (AddDocument ρ₁ ρ₂ bow doc).2) :
    ∀ (docs : List String) (ρ₁ ρ₂ : Nat → RangeOrder) (bow : BoW),
      P bow → P (AddDocuments ρ₁ ρ₂ bow docs).2 := by
  intro docs
  induction docs with
  | nil => intro ρ₁ ρ₂ bow h; exact h
  | cons d ds ih =>
    intro ρ₁ ρ₂ bow h
    have h' := hstep (ρ₁ 0) (ρ₂ 0) bow d h
    unfold AddDocuments
    cases hr : AddDocument (ρ₁ 0) (ρ₂ 0) bow d with
    | mk r bow' =>
      rw [hr] at h'
      cases r with
      | ok _ => exact ih _ _ bow' h'
      | err e => exact h'
      | panicked => exact h'

/-- Induction over the reachable states. -/
theorem Reachable.preserves {u : UnicodeTables} {cfg : Config} (P : BoW → Prop)
    (hnew : P (New u cfg))
    (hstep : ∀ (ρ₁ ρ₂ : RangeOrder) (bow : BoW) (doc : String),
      P bow → P (AddDocument ρ₁ ρ₂ bow doc).2)
    {bow : BoW} (h : Reachable u cfg bow) : P bow := by
  induction h with
  | new => exact hnew
  | addDocument ρ₁ ρ₂ bow doc _ ih => exact hstep ρ₁ ρ₂ bow doc ih
  | addDocuments ρ₁ ρ₂ bow docs _ ih => exact addDocuments_preserves P hstep docs ρ₁ ρ₂ bow ih

theorem new_valid (u : UnicodeTables) (cfg : Config) : Valid (New u cfg) := by
  refine ⟨vocabOK_nil, ?_, ?_⟩
  · unfold New
    cases h : cfg.Tokenizer <;> simp [h]
  · intro vec hvec
    simp [New] at hvec

/-- Every reachable state is valid. -/
theorem Reachable.valid {u : UnicodeTables} {cfg : Config} {bow : BoW}
    (h : Reachable u cfg bow) : Valid bow :=
  h.preserves Valid (new_valid u cfg) (fun ρ₁ ρ₂ _ doc hv => (addDocument_valid ρ₁ ρ₂ hv doc).1)

/-- A reachable state has the flags it was constructed with. -/
theorem Reachable.flags {u : UnicodeTables} {cfg : Config} {bow : BoW}
    (h : Reachable u cfg bow) :
    bow.cfg.UseBinaryEncoding = cfg.UseBinaryEncoding ∧ bow.cfg.Weighting = cfg.Weighting := by
  refine h.preserves (fun b => b.cfg.UseBinaryEncoding = cfg.UseBinaryEncoding ∧
    b.cfg.Weighting = cfg.Weighting) ?_ ?_
  · unfold New
    cases cfg.Tokenizer.isNone <;> simp
  · intro ρ₁ ρ₂ b doc hb
    rw [addDocument_cfg]
    exact hb



/-- The copy returned by `GetRawDocVectors` has the values of the stored vectors. -/
theorem getRawDocVectors_eq (bow : BoW) : GetRawDocVectors bow = bow.docs := by
  simp [GetRawDocVectors]

/-! ## The claims about ingestion -/

/-- C1: in every state reachable from `New cfg` by `AddDocument` / `AddDocuments` calls
(any tokenizer, any map iteration order) the vocabulary is a bijection between its tokens
and the integers `0, ..., |vocab| - 1`: the tokens are pairwise distinct keys, every index
lies in that range, no two tokens share an index, and every integer of the range is the
index of some token. -/
theorem vocab_bijection_of_reachable (u : UnicodeTables) (cfg : Config) (bow : BoW)
    (h : Reachable u cfg bow) :
    bow.vocab.keys.Nodup ∧
    (∀ w i, bow.vocab.get? w = some i → 0 ≤ i ∧ i < bow.vocab.len) ∧
    (∀ w₁ w₂ i, bow.vocab.get? w₁ = some i → bow.vocab.get? w₂ = some i → w₁ = w₂) ∧
    (∀ i : Int, 0 ≤ i → i < bow.vocab.len → ∃ w, bow.vocab.get? w = some i) := by
  have hv := h.valid.vocabOK
  refine ⟨hv.1, fun w i hw => hv.index_lt hw, fun w₁ w₂ i h₁ h₂ => hv.index_inj h₁ h₂, ?_⟩
  intro i h0 hlt
  have hlt' : i.toNat < bow.vocab.length := by
    unfold GoMap.len at hlt
    omega
  obtain ⟨w, hw⟩ := hv.index_surj hlt'
  refine ⟨w, ?_⟩
  rw [hw]
  congr 1
  omega

/-- C2: for a document with at least one token, after `AddDocument` the distinct tokens of
the document that were not in the vocabulary before the call, listed in strictly ascending
string order, hold the indices `n, n + 1, ..., n + k - 1`, where `n` is the vocabulary size
before the call: the `i`-th smallest new token gets index `n + i`, and the vocabulary has
grown by exactly `k` entries. -/
theorem addDocument_new_indices (ρ₁ ρ₂ : RangeOrder) (bow : BoW) (doc : String)
    (tokenizer : Tokenizer) (words : List String)
    (htok : bow.cfg.Tokenizer = some tokenizer) (hwords : tokenizer doc = .ok words)
    (hne : words ≠ []) :
    ∃ newWords : List String,
      newWords.Pairwise (fun a b => stringLess a b = true) ∧
      (∀ w, w ∈ newWords ↔ w ∈ words ∧ bow.vocab.get? w = none) ∧
      (AddDocument ρ₁ ρ₂ bow doc).2.vocab.len = bow.vocab.len + newWords.length ∧
      ∀ (i : Nat) (hi : i < newWords.length),
        (AddDocument ρ₁ ρ₂ bow doc).2.vocab.get? newWords[i] = some (bow.vocab.len + i) := by
  have hvocab : (AddDocument ρ₁ ρ₂ bow doc).2.vocab = extendVocab bow.vocab words := by
    rw [addDocument_unfold ρ₁ ρ₂ bow doc htok hwords hne]
    cases fillVec bow.cfg.UseBinaryEncoding (extendVocab bow.vocab words)
      (ρ₂.visit (countWords words))
      (List.replicate (extendVocab bow.vocab words).length 0) <;> rfl
  refine ⟨newWordsOf bow.vocab words, newWordsOf_strict _ _, fun w => mem_newWordsOf, ?_, ?_⟩
  · rw [hvocab]
    simp [GoMap.len, extendVocab_length]
  · intro i hi
    rw [hvocab]
    exact extendVocab_get?_new bow.vocab words i hi

/-- C3: whatever `AddDocument` returns, every token that was in the vocabulary before the
call is in the vocabulary after it with the same index, and the vocabulary has not become
smaller. -/
theorem addDocument_keeps_indices (ρ₁ ρ₂ : RangeOrder) (bow : BoW) (doc : String) :
    (∀ w i, bow.vocab.get? w = some i →
      (AddDocument ρ₁ ρ₂ bow doc).2.vocab.get? w = some i) ∧
    bow.vocab.len ≤ (AddDocument ρ₁ ρ₂ bow doc).2.vocab.len := by
  rcases addDocument_cases ρ₁ ρ₂ bow doc with ⟨_, h⟩ | ⟨_, _, _, _, h⟩ | ⟨_, _, _, h⟩ |
    ⟨_, words, _, _, _, ⟨_, h⟩ | ⟨_, _, h⟩⟩ <;> rw [h]
  · exact ⟨fun _ _ hw => hw, le_refl _⟩
  · exact ⟨fun _ _ hw => hw, le_refl _⟩
  · exact ⟨fun _ _ hw => hw, le_refl _⟩
  · refine ⟨fun _ _ hw => extendVocab_get?_old hw, ?_⟩
    simp [GoMap.len, extendVocab_length]
  · refine ⟨fun _ _ hw => extendVocab_get?_old hw, ?_⟩
    simp [GoMap.len, extendVocab_length]

/-- C4: on a well-formed vocabulary, `AddDocument` of a document with at least one token
succeeds and appends exactly one vector `v` to the document store; `len(v)` is the
vocabulary size after the call; a slot `j` that is the index of a token `t` of the document
holds the number of occurrences of `t` (raw mode) or `1` (binary mode), and every other
slot holds `0`. -/
theorem addDocument_appends_vector (ρ₁ ρ₂ : RangeOrder) (bow : BoW) (doc : String)
    (tokenizer : Tokenizer) (words : List String)
    (hvocab : VocabOK bow.vocab)
    (htok : bow.cfg.Tokenizer = some tokenizer) (hwords : tokenizer doc = .ok words)
    (hne : words ≠ []) :
    ∃ v : List Int,
      (AddDocument ρ₁ ρ₂ bow doc).1 = .ok () ∧
      (AddDocument ρ₁ ρ₂ bow doc).2.docs = bow.docs ++ [v] ∧
      (v.length : Int) = (AddDocument ρ₁ ρ₂ bow doc).2.vocab.len ∧
      (∀ (j : Nat) (t : String), t ∈ words →
        (AddDocument ρ₁ ρ₂ bow doc).2.vocab.get? t = some (j : Int) →
        v[j]? = some (if bow.cfg.UseBinaryEncoding then 1 else (words.count t : Int))) ∧
      (∀ j : Nat, j < v.length →
        (∀ t ∈ words, (AddDocument ρ₁ ρ₂ bow doc).2.vocab.get? t ≠ some (j : Int)) →
        v[j]? = some 0) := by
  obtain ⟨vec, hvec, hlen, hset, hzero⟩ :=
    fillVec_extend ρ₂ bow.cfg.UseBinaryEncoding hvocab words
  have hres : AddDocument ρ₁ ρ₂ bow doc = (.ok (), { bow with
      vocab := extendVocab bow.vocab words, docs := bow.docs ++ [vec] }) := by
    rw [addDocument_unfold ρ₁ ρ₂ bow doc htok hwords hne, hvec]
  rw [hres]
  refine ⟨vec, rfl, rfl, ?_, ?_, ?_⟩
  · simp [GoMap.len, hlen]
  · intro j t ht hj
    have := hset t ht (j : Int) hj
    simpa using this
  · intro j hj hno
    exact hzero j hj hno

/-- C5: a model constructed with `UseBinaryEncoding = true` only ever stores vectors whose
slots are `0` or `1`: this holds for every vector returned by `GetRawDocVectors` in every
reachable state. -/
theorem binary_vectors_of_reachable (u : UnicodeTables) (cfg : Config) (bow : BoW)
    (hbin : cfg.UseBinaryEncoding = true) (h : Reachable u cfg bow) :
    ∀ vec ∈ GetRawDocVectors bow, ∀ x ∈ vec, x = 0 ∨ x = 1 := by
  have key : bow.cfg.UseBinaryEncoding = true ∧ ∀ vec ∈ bow.docs, ∀ x ∈ vec, x = 0 ∨ x = 1 := by
    refine h.preserves (fun b => b.cfg.UseBinaryEncoding = true ∧
      ∀ vec ∈ b.docs, ∀ x ∈ vec, x = 0 ∨ x = 1) ?_ ?_
    · refine ⟨?_, ?_⟩
      · unfold New
        cases cfg.Tokenizer.isNone <;> simpa using hbin
      · intro vec hvec
        simp [New] at hvec
    · intro ρ₁ ρ₂ b doc hb
      rcases addDocument_cases ρ₁ ρ₂ b doc with ⟨_, h⟩ | ⟨_, _, _, _, h⟩ | ⟨_, _, _, h⟩ |
        ⟨_, words, _, _, _, ⟨_, h⟩ | ⟨vec, hvec, h⟩⟩ <;> rw [h]
      · exact hb
      · exact hb
      · exact hb
      · exact hb
      · refine ⟨hb.1, ?_⟩
        intro x hx
        simp only [List.mem_append, List.mem_singleton] at hx
        rcases hx with hx | rfl
        · exact hb.2 x hx
        · rw [hb.1] at hvec
          refine fillVec_binary _ _ _ _ ?_ hvec
          intro y hy
          exact Or.inl (List.eq_of_mem_replicate hy)
  rw [getRawDocVectors_eq]
  exact key.2

/-- C6: when the configured tokenizer returns zero tokens for the document, `AddDocument`
returns success and leaves the whole state (vocabulary and document store) unchanged; the
default tokenizer returns zero tokens for the empty string, so this covers
`AddDocument("")`. -/
theorem addDocument_no_tokens (ρ₁ ρ₂ : RangeOrder) (bow : BoW) (doc : String)
    (tokenizer : Tokenizer)
    (htok : bow.cfg.Tokenizer = some tokenizer) (hwords : tokenizer doc = .ok []) :
    AddDocument ρ₁ ρ₂ bow doc = (.ok (), bow) ∧
    (∀ u : UnicodeTables, DefaultTokenizer.Tokenize u "" = .ok []) := by
  refine ⟨?_, fun u => rfl⟩
  unfold AddDocument
  simp only [htok, hwords, List.length_nil, if_true]

/-- C7: `AddDocument` returns an error exactly when the configured tokenizer fails on the
document; the error is the tokenizer's error, and the state (vocabulary and document
store) is then unchanged. -/
theorem addDocument_error_iff (ρ₁ ρ₂ : RangeOrder) (bow : BoW) (doc : String)
    (tokenizer : Tokenizer) (htok : bow.cfg.Tokenizer = some tokenizer) :
    (∀ e, (AddDocument ρ₁ ρ₂ bow doc).1 = .err e ↔ tokenizer doc = .error e) ∧
    (∀ e, tokenizer doc = .error e → AddDocument ρ₁ ρ₂ bow doc = (.err e, bow)) := by
  have herr : ∀ e, tokenizer doc = .error e → AddDocument ρ₁ ρ₂ bow doc = (.err e, bow) := by
    intro e he
    unfold AddDocument
    simp only [htok, he]
  refine ⟨fun e => ⟨?_, fun he => by rw [herr e he]⟩, herr⟩
  intro hres
  rcases addDocument_cases ρ₁ ρ₂ bow doc with ⟨h0, _⟩ | ⟨tok, e', ht, he', h⟩ | ⟨_, _, _, h⟩ |
    ⟨_, words, _, _, _, ⟨_, h⟩ | ⟨_, _, h⟩⟩
  · rw [htok] at h0
    cases h0
  · rw [htok] at ht
    cases ht
    rw [h] at hres
    cases hres
    exact he'
  · rw [h] at hres
    cases hres
  · rw [h] at hres
    cases hres
  · rw [h] at hres
    cases hres


/-- A call of `AddDocument` that returns an error leaves the state as it was. -/
theorem addDocument_err_state {ρ₁ ρ₂ : RangeOrder} {bow : BoW} {doc : String} {e : GoError}
    (h : (AddDocument ρ₁ ρ₂ bow doc).1 = .err e) : AddDocument ρ₁ ρ₂ bow doc = (.err e, bow) := by
  rcases addDocument_cases ρ₁ ρ₂ bow doc with ⟨_, h'⟩ | ⟨_, e', _, _, h'⟩ | ⟨_, _, _, h'⟩ |
    ⟨_, words, _, _, _, ⟨_, h'⟩ | ⟨_, _, h'⟩⟩ <;> rw [h'] at h ⊢ <;> cases h
  rfl

theorem addDocuments_cons_ok {ρ₁ ρ₂ : Nat → RangeOrder} {bow : BoW} {d : String}
    (rest : List String) (h : (AddDocument (ρ₁ 0) (ρ₂ 0) bow d).1 = .ok ()) :
    AddDocuments ρ₁ ρ₂ bow (d :: rest) =
      AddDocuments (fun k => ρ₁ (k + 1)) (fun k => ρ₂ (k + 1))
        (AddDocument (ρ₁ 0) (ρ₂ 0) bow d).2 rest := by
  rw [AddDocuments]
  cases hr : AddDocument (ρ₁ 0) (ρ₂ 0) bow d with
  | mk r bow' =>
    rw [hr] at h
    simp only at h
    subst h
    rfl

theorem addDocuments_cons_err {ρ₁ ρ₂ : Nat → RangeOrder} {bow : BoW} {d : String}
    {e : GoError} (rest : List String) (h : (AddDocument (ρ₁ 0) (ρ₂ 0) bow d).1 = .err e) :
    AddDocuments ρ₁ ρ₂ bow (d :: rest) = (.err e, bow) := by
  rw [AddDocuments, addDocument_err_state h]

/-- The batch `AddDocuments` stops at the first document on which `AddDocument` returns an error. -/
theorem addDocuments_first_error : ∀ (ds : List String) (ρ₁ ρ₂ : Nat → RangeOrder)
    (bow : BoW) (k : Nat) (d : String) (e : GoError), ds[k]? = some d →
    (∀ (i : Nat) (d' : String), i < k → ds[i]? = some d' →
      (AddDocument (ρ₁ i) (ρ₂ i) (ingestEach ρ₁ ρ₂ bow (ds.take i)) d').1 = .ok ()) →
    (AddDocument (ρ₁ k) (ρ₂ k) (ingestEach ρ₁ ρ₂ bow (ds.take k)) d).1 = .err e →
    AddDocuments ρ₁ ρ₂ bow ds = (.err e, ingestEach ρ₁ ρ₂ bow (ds.take k)) := by
  intro ds
  induction ds with
  | nil => intro ρ₁ ρ₂ bow k d e hk; simp at hk
  | cons d₀ rest ih =>
    intro ρ₁ ρ₂ bow k d e hk hok herr
    cases k with
    | zero =>
      simp only [List.getElem?_cons_zero, Option.some.injEq] at hk
      subst hk
      exact addDocuments_cons_err rest herr
    | succ k =>
      have h0 : (AddDocument (ρ₁ 0) (ρ₂ 0) bow d₀).1 = .ok () :=
        hok 0 d₀ (Nat.succ_pos k) (by simp)
      rw [addDocuments_cons_ok rest h0]
      exact ih (fun k => ρ₁ (k + 1)) (fun k => ρ₂ (k + 1)) _ k d e
        (by simpa using hk)
        (fun i d' hi hd' => hok (i + 1) d' (Nat.succ_lt_succ hi) (by simpa using hd'))
        herr

/-- When no call of `AddDocument` returns an error, `AddDocuments` ingests every document. -/
theorem addDocuments_all_ok : ∀ (ds : List String) (ρ₁ ρ₂ : Nat → RangeOrder) (bow : BoW),
    (∀ (i : Nat) (d' : String), ds[i]? = some d' →
      (AddDocument (ρ₁ i) (ρ₂ i) (ingestEach ρ₁ ρ₂ bow (ds.take i)) d').1 = .ok ()) →
    AddDocuments ρ₁ ρ₂ bow ds = (.ok (), ingestEach ρ₁ ρ₂ bow ds) := by
  intro ds
  induction ds with
  | nil => intro ρ₁ ρ₂ bow _; rfl
  | cons d₀ rest ih =>
    intro ρ₁ ρ₂ bow hok
    have h0 : (AddDocument (ρ₁ 0) (ρ₂ 0) bow d₀).1 = .ok () := hok 0 d₀ (by simp)
    rw [addDocuments_cons_ok rest h0]
    exact ih (fun k => ρ₁ (k + 1)) (fun k => ρ₂ (k + 1)) _
      (fun i d' hd' => hok (i + 1) d' (by simpa using hd'))

/-- C8: `AddDocuments ds` is `AddDocument` applied to the documents in order, stopping at
the first failure.  If `ds[k]` is the first document on which `AddDocument` fails, the
result is that error and the state is the one after ingesting `ds[0..k-1]` only; if no
document fails, the result is success and the state is the one after ingesting all of
`ds`. -/
theorem addDocuments_sequential (ρ₁ ρ₂ : Nat → RangeOrder) (bow : BoW) (ds : List String) :
    (∀ (k : Nat) (d : String) (e : GoError), ds[k]? = some d →
      (∀ (i : Nat) (d' : String), i < k → ds[i]? = some d' →
        (AddDocument (ρ₁ i) (ρ₂ i) (ingestEach ρ₁ ρ₂ bow (ds.take i)) d').1 = .ok ()) →
      (AddDocument (ρ₁ k) (ρ₂ k) (ingestEach ρ₁ ρ₂ bow (ds.take k)) d).1 = .err e →
      AddDocuments ρ₁ ρ₂ bow ds = (.err e, ingestEach ρ₁ ρ₂ bow (ds.take k))) ∧
    ((∀ (i : Nat) (d' : String), ds[i]? = some d' →
        (AddDocument (ρ₁ i) (ρ₂ i) (ingestEach ρ₁ ρ₂ bow (ds.take i)) d').1 = .ok ()) →
      AddDocuments ρ₁ ρ₂ bow ds = (.ok (), ingestEach ρ₁ ρ₂ bow ds)) :=
  ⟨addDocuments_first_error ds ρ₁ ρ₂ bow, addDocuments_all_ok ds ρ₁ ρ₂ bow⟩


/-! ## `GetVocab` -/

/-- On a well-formed vocabulary `GetVocab` does not panic and returns the list whose
element `i` is the token with index `i`. -/
theorem getVocab_spec (ρ : RangeOrder) {bow : BoW} (hv : VocabOK bow.vocab) :
    ∃ l : List String, GetVocab ρ bow = .ok l ∧ l.length = bow.vocab.length ∧
      ∀ (i : Nat) (hi : i < l.length), bow.vocab.get? l[i] = some (i : Int) := by
  have hperm := ρ.perm bow.vocab
  have hrange : ∀ p ∈ (ρ.visit bow.vocab).map (fun e => (e.2, e.1)),
      0 ≤ p.1 ∧ p.1 < ((List.replicate bow.vocab.length "").length : Int) := by
    intro p hp
    obtain ⟨⟨w, i⟩, he, rfl⟩ := List.mem_map.1 hp
    have := hv.index_lt (GoMap.get?_of_mem hv.1 (hperm.mem_iff.1 he))
    simpa using this
  have hnd : (((ρ.visit bow.vocab).map (fun e => (e.2, e.1))).map Prod.fst).Nodup := by
    have e : ((ρ.visit bow.vocab).map (fun e => (e.2, e.1))).map Prod.fst =
        (ρ.visit bow.vocab).map Prod.snd := by
      simp [List.map_map, Function.comp_def]
    rw [e]
    refine ((hperm.map Prod.snd).trans hv.2).nodup_iff.2 ?_
    exact (List.nodup_range _).map (fun a b hab => Int.ofNat.inj hab)
  obtain ⟨l, h1, h2, h3, -⟩ := scatter_spec _ _ hrange hnd
  have hlen : l.length = bow.vocab.length := by simpa using h2
  refine ⟨l, ?_, hlen, ?_⟩
  · unfold GetVocab
    simp only [GoMap.len, Int.toNat_ofNat, fillVocabList_eq_scatter, h1]
  · intro i hi
    obtain ⟨w, hw⟩ := hv.index_surj (hlen ▸ hi)
    have hmem : ((i : Int), w) ∈ (ρ.visit bow.vocab).map (fun e => (e.2, e.1)) :=
      List.mem_map.2 ⟨(w, (i : Int)), hperm.mem_iff.2 (GoMap.mem_of_get? hw), rfl⟩
    have := h3 _ hmem
    simp only [Int.toNat_ofNat] at this
    rw [List.getElem?_eq_getElem hi] at this
    rw [Option.some.inj this]
    exact hw

/-- C9: in every reachable state `GetVocab` returns a list of length `|vocab|` whose
element `i` is the token whose vocabulary index is `i`; the list has no repetition and its
members are exactly the vocabulary tokens, so it contains every token exactly once. -/
theorem getVocab_of_reachable (u : UnicodeTables) (cfg : Config) (ρ : RangeOrder) (bow : BoW)
    (h : Reachable u cfg bow) :
    ∃ l : List String, GetVocab ρ bow = .ok l ∧ (l.length : Int) = bow.vocab.len ∧
      (∀ (i : Nat) (hi : i < l.length), bow.vocab.get? l[i] = some (i : Int)) ∧
      l.Nodup ∧ (∀ w, w ∈ l ↔ w ∈ bow.vocab.keys) := by
  have hv := h.valid.vocabOK
  obtain ⟨l, hl, hlen, hidx⟩ := getVocab_spec ρ hv
  refine ⟨l, hl, by simp [GoMap.len, hlen], hidx, ?_, ?_⟩
  · rw [List.nodup_iff_injective_get]
    intro a b hab
    have ha := hidx a.1 a.2
    have hb := hidx b.1 b.2
    simp only [List.get_eq_getElem] at hab
    rw [hab, hb] at ha
    have : (b.1 : Int) = (a.1 : Int) := Option.some.inj ha
    exact Fin.ext (by omega)
  · intro w
    constructor
    · intro hw
      obtain ⟨i, hi, rfl⟩ := List.getElem_of_mem hw
      exact GoMap.mem_keys_of_get? (hidx i hi)
    · intro hw
      have hg := GoMap.get?_eq_some_getD hw
      have hr := hv.index_lt hg
      have hi : (bow.vocab.getD w).toNat < l.length := by
        rw [hlen]
        omega
      have hi' := hidx _ hi
      have e : (((bow.vocab.getD w).toNat : Nat) : Int) = bow.vocab.getD w := by omega
      rw [e] at hi'
      have := hv.index_inj hi' hg
      rw [← this]
      exact List.getElem_mem hi


/-! ## `ComputeTFIDF` and `GetDocVectorsWeighted` -/


/-- The document-frequency loop stays in range on a vector that fits. -/
theorem bumpDocFreq_some : ∀ (vec : List Int) (j : Nat) (docFreq : List Int),
    j + vec.length ≤ docFreq.length →
    ∃ d, bumpDocFreq vec j docFreq = some d ∧ d.length = docFreq.length := by
  intro vec
  induction vec with
  | nil => intro j docFreq _; exact ⟨docFreq, rfl, rfl⟩
  | cons tf rest ih =>
    intro j docFreq h
    simp only [List.length_cons] at h
    by_cases htf : tf > 0
    · have hj : j < docFreq.length := by omega
      obtain ⟨d, hd, hlen⟩ := ih (j + 1) (docFreq.set j (docFreq[j] + 1))
        (by simp only [List.length_set]; omega)
      refine ⟨d, ?_, by simpa using hlen⟩
      simp only [bumpDocFreq, htf, if_true, List.getElem?_eq_getElem hj]
      exact hd
    · obtain ⟨d, hd, hlen⟩ := ih (j + 1) docFreq (by omega)
      refine ⟨d, ?_, hlen⟩
      simp only [bumpDocFreq, htf, if_false]
      exact hd

theorem countDocFreq_some : ∀ (raw : List (List Int)) (docFreq : List Int),
    (∀ vec ∈ raw, vec.length ≤ docFreq.length) →
    ∃ d, countDocFreq raw docFreq = some d ∧ d.length = docFreq.length := by
  intro raw
  induction raw with
  | nil => intro docFreq _; exact ⟨docFreq, rfl, rfl⟩
  | cons vec rest ih =>
    intro docFreq h
    obtain ⟨d₁, hd₁, hlen₁⟩ := bumpDocFreq_some vec 0 docFreq
      (by simpa using h vec (List.mem_cons_self _ _))
    obtain ⟨d, hd, hlen⟩ := ih d₁ (fun v hv => by
      rw [hlen₁]
      exact h v (List.mem_cons_of_mem _ hv))
    refine ⟨d, ?_, hlen.trans hlen₁⟩
    simp only [countDocFreq, hd₁]
    exact hd

theorem fillTFIDFVec_some {F : Type} [Field F] (log : F → F) (totalDocs : F)
    (docFreq : List Int) : ∀ (vec : List Int) (j : Nat) (out : List F),
    j + vec.length ≤ out.length → out.length = docFreq.length →
    ∃ o, fillTFIDFVec log totalDocs docFreq vec j out = some o ∧ o.length = out.length := by
  intro vec
  induction vec with
  | nil => intro j out _ _; exact ⟨out, rfl, rfl⟩
  | cons tf rest ih =>
    intro j out h hd
    simp only [List.length_cons] at h
    by_cases htf : tf > 0
    · have hj : j < out.length := by omega
      have hj' : j < docFreq.length := hd ▸ hj
      obtain ⟨o, ho, hlen⟩ := ih (j + 1)
        (out.set j ((tf : F) * (log ((totalDocs + 1) / ((docFreq[j] : F) + 1)) + 1)))
        (by simp only [List.length_set]; omega) (by simpa using hd)
      refine ⟨o, ?_, by simpa using hlen⟩
      simp only [fillTFIDFVec, htf, if_true, List.getElem?_eq_getElem hj', hj]
      exact ho
    · obtain ⟨o, ho, hlen⟩ := ih (j + 1) out (by omega) hd
      refine ⟨o, ?_, hlen⟩
      simp only [fillTFIDFVec, htf, if_false]
      exact ho

theorem tfidfRows_some {F : Type} [Field F] (log : F → F) (totalDocs : F)
    (docFreq : List Int) (vocabSize : Int) (hd : docFreq.length = vocabSize.toNat) :
    ∀ (raw : List (List Int)), (∀ vec ∈ raw, vec.length ≤ vocabSize.toNat) →
    ∃ rows, tfidfRows log totalDocs docFreq vocabSize raw = some rows := by
  intro raw
  induction raw with
  | nil => intro _; exact ⟨[], rfl⟩
  | cons vec rest ih =>
    intro h
    obtain ⟨o, ho, -⟩ := fillTFIDFVec_some log totalDocs docFreq vec 0
      (List.replicate vocabSize.toNat 0)
      (by simpa using h vec (List.mem_cons_self _ _)) (by simpa using hd.symm)
    obtain ⟨rows, hrows⟩ := ih (fun v hv => h v (List.mem_cons_of_mem _ hv))
    exact ⟨o :: rows, by simp only [tfidfRows, ho, hrows]⟩

/-- On a valid state `ComputeTFIDF` returns a matrix: no index is out of range. -/
theorem computeTFIDF_ok {F : Type} [Field F] [DecidableEq F] (log : F → F) {bow : BoW}
    (hv : Valid bow) : ∃ m, ComputeTFIDF log bow = .ok m := by
  unfold ComputeTFIDF
  simp only [getRawDocVectors_eq, GoMap.len, Int.toNat_ofNat]
  by_cases h0 : ((bow.docs.length : Nat) : F) = 0
  · exact ⟨[], by simp only [h0, if_true]⟩
  · simp only [h0, if_false]
    obtain ⟨d, hd, hlen⟩ := countDocFreq_some bow.docs (List.replicate bow.vocab.length 0)
      (by simpa using hv.docsLen)
    obtain ⟨rows, hrows⟩ := tfidfRows_some log ((bow.docs.length : Nat) : F) d
      (bow.vocab.length : Int) (by simpa using hlen) bow.docs (by simpa using hv.docsLen)
    exact ⟨rows, by simp only [hd, hrows]⟩

/-- C10: in every state reachable from `New cfg`, `GetDocVectorsWeighted` returns an error
exactly when the model was configured with `Weighting = tfidf` and
`UseBinaryEncoding = true`; with that configuration the error is the
unsupported-configuration error (no vectors are returned), whatever has been ingested, and
with every other configuration the call returns vectors. -/
theorem getDocVectorsWeighted_error_iff {F : Type} [Field F] [DecidableEq F] (log : F → F)
    (u : UnicodeTables) (cfg : Config) (bow : BoW) (h : Reachable u cfg bow) :
    ((∃ e, GetDocVectorsWeighted log bow = .err e) ↔
      (cfg.Weighting = WeightingTFIDF ∧ cfg.UseBinaryEncoding = true)) ∧
    (cfg.Weighting = WeightingTFIDF ∧ cfg.UseBinaryEncoding = true →
      GetDocVectorsWeighted log bow = .err errUnsupportedConfiguration) ∧
    (¬ (cfg.Weighting = WeightingTFIDF ∧ cfg.UseBinaryEncoding = true) →
      ∃ vectors, GetDocVectorsWeighted log bow = .ok vectors) := by
  obtain ⟨hbin, hw⟩ := h.flags
  have hfail : cfg.Weighting = WeightingTFIDF ∧ cfg.UseBinaryEncoding = true →
      GetDocVectorsWeighted log bow = .err errUnsupportedConfiguration := by
    rintro ⟨h1, h2⟩
    unfold GetDocVectorsWeighted
    simp only [hw, hbin, h1, h2, if_true]
  have hok : ¬ (cfg.Weighting = WeightingTFIDF ∧ cfg.UseBinaryEncoding = true) →
      ∃ vectors, GetDocVectorsWeighted log bow = .ok vectors := by
    intro hn
    unfold GetDocVectorsWeighted
    rw [hw, hbin]
    by_cases h1 : cfg.Weighting = WeightingTFIDF
    · have h2 : ¬ cfg.UseBinaryEncoding = true := fun h2 => hn ⟨h1, h2⟩
      simp only [h1, h2, if_true, if_false]
      exact computeTFIDF_ok log h.valid
    · simp only [h1, if_false]
      exact ⟨_, rfl⟩
  refine ⟨⟨?_, fun hc => ⟨_, hfail hc⟩⟩, hfail, hok⟩
  rintro ⟨e, he⟩
  by_contra hn
  obtain ⟨vectors, hvec⟩ := hok hn
  rw [hvec] at he
  cases he


/-! ## The claims at concrete inputs -/

theorem exampleIngested_reachable :
    Reachable UnicodeTables.ascii exampleCfg exampleIngested :=
  Reachable.addDocument _ _ _ _ Reachable.new

theorem exampleBinaryIngested_reachable :
    Reachable UnicodeTables.ascii exampleBinaryCfg exampleBinaryIngested :=
  Reachable.addDocument _ _ _ _ Reachable.new

/-- C1 at the model that has ingested `"go go go fast"`: its vocabulary
`fast ↦ 0, go ↦ 1` is a bijection onto `{0, 1}`. -/
theorem vocab_bijection_of_reachable_witness :
    Reachable UnicodeTables.ascii exampleCfg exampleIngested ∧
    exampleIngested.vocab = [("fast", 0), ("go", 1)] ∧
    (exampleIngested.vocab.keys.Nodup ∧
      (∀ w i, exampleIngested.vocab.get? w = some i → 0 ≤ i ∧ i < exampleIngested.vocab.len) ∧
      (∀ w₁ w₂ i, exampleIngested.vocab.get? w₁ = some i →
        exampleIngested.vocab.get? w₂ = some i → w₁ = w₂) ∧
      (∀ i : Int, 0 ≤ i → i < exampleIngested.vocab.len →
        ∃ w, exampleIngested.vocab.get? w = some i)) :=
  ⟨exampleIngested_reachable, by decide,
    vocab_bijection_of_reachable _ _ _ exampleIngested_reachable⟩

/-- C2 at `"go go go fast"` on a fresh model: the new words `fast < go` get the indices
`0` and `1`. -/
theorem addDocument_new_indices_witness :
    exampleModel.cfg.Tokenizer = some (DefaultTokenizer.Tokenize UnicodeTables.ascii) ∧
    DefaultTokenizer.Tokenize UnicodeTables.ascii "go go go fast" =
      .ok ["go", "go", "go", "fast"] ∧
    ["go", "go", "go", "fast"] ≠ [] ∧
    (AddDocument RangeOrder.stored RangeOrder.reversed exampleModel "go go go fast").2.vocab =
      [("fast", 0), ("go", 1)] ∧
    ∃ newWords : List String,
      newWords.Pairwise (fun a b => stringLess a b = true) ∧
      (∀ w, w ∈ newWords ↔
        w ∈ ["go", "go", "go", "fast"] ∧ exampleModel.vocab.get? w = none) ∧
      (AddDocument RangeOrder.stored RangeOrder.reversed exampleModel
        "go go go fast").2.vocab.len = exampleModel.vocab.len + newWords.length ∧
      ∀ (i : Nat) (hi : i < newWords.length),
        (AddDocument RangeOrder.stored RangeOrder.reversed exampleModel
          "go go go fast").2.vocab.get? newWords[i] = some (exampleModel.vocab.len + i) :=
  ⟨rfl, rfl, by decide, by decide,
    addDocument_new_indices RangeOrder.stored RangeOrder.reversed exampleModel "go go go fast"
      (DefaultTokenizer.Tokenize UnicodeTables.ascii) ["go", "go", "go", "fast"] rfl rfl
      (by decide)⟩

/-- C4 at `"go go go fast"` on a fresh raw-count model: the vocabulary becomes
`["fast", "go"]` and the vector `[1, 3]` is appended. -/
theorem addDocument_appends_vector_witness :
    VocabOK exampleModel.vocab ∧
    exampleModel.cfg.Tokenizer = some (DefaultTokenizer.Tokenize UnicodeTables.ascii) ∧
    DefaultTokenizer.Tokenize UnicodeTables.ascii "go go go fast" =
      .ok ["go", "go", "go", "fast"] ∧
    ["go", "go", "go", "fast"] ≠ [] ∧
    GetVocab RangeOrder.reversed exampleIngested = .ok ["fast", "go"] ∧
    GetRawDocVectors exampleIngested = [[1, 3]] ∧
    ∃ v : List Int,
      (AddDocument RangeOrder.stored RangeOrder.reversed exampleModel
        "go go go fast").1 = .ok () ∧
      (AddDocument RangeOrder.stored RangeOrder.reversed exampleModel
        "go go go fast").2.docs = exampleModel.docs ++ [v] ∧
      (v.length : Int) = (AddDocument RangeOrder.stored RangeOrder.reversed exampleModel
        "go go go fast").2.vocab.len ∧
      (∀ (j : Nat) (t : String), t ∈ ["go", "go", "go", "fast"] →
        (AddDocument RangeOrder.stored RangeOrder.reversed exampleModel
          "go go go fast").2.vocab.get? t = some (j : Int) →
        v[j]? = some (if exampleModel.cfg.UseBinaryEncoding then 1
          else (["go", "go", "go", "fast"].count t : Int))) ∧
      (∀ j : Nat, j < v.length →
        (∀ t ∈ ["go", "go", "go", "fast"],
          (AddDocument RangeOrder.stored RangeOrder.reversed exampleModel
            "go go go fast").2.vocab.get? t ≠ some (j : Int)) →
        v[j]? = some 0) :=
  ⟨vocabOK_nil, rfl, rfl, by decide, by decide, by decide,
    addDocument_appends_vector RangeOrder.stored RangeOrder.reversed exampleModel
      "go go go fast" (DefaultTokenizer.Tokenize UnicodeTables.ascii)
      ["go", "go", "go", "fast"] vocabOK_nil rfl rfl (by decide)⟩

/-- C5 at the binary model that has ingested `"go go go fast"`: the stored vector is
`[1, 1]`. -/
theorem binary_vectors_of_reachable_witness :
    exampleBinaryCfg.UseBinaryEncoding = true ∧
    Reachable UnicodeTables.ascii exampleBinaryCfg exampleBinaryIngested ∧
    GetRawDocVectors exampleBinaryIngested = [[1, 1]] ∧
    ∀ vec ∈ GetRawDocVectors exampleBinaryIngested, ∀ x ∈ vec, x = 0 ∨ x = 1 :=
  ⟨rfl, exampleBinaryIngested_reachable, by decide,
    binary_vectors_of_reachable UnicodeTables.ascii exampleBinaryCfg exampleBinaryIngested rfl
      exampleBinaryIngested_reachable⟩

/-- C6 at the empty document on the model that has ingested `"go go go fast"`. -/
theorem addDocument_no_tokens_witness :
    exampleIngested.cfg.Tokenizer = some (DefaultTokenizer.Tokenize UnicodeTables.ascii) ∧
    DefaultTokenizer.Tokenize UnicodeTables.ascii "" = .ok [] ∧
    (AddDocument RangeOrder.stored RangeOrder.stored exampleIngested "" =
        (.ok (), exampleIngested) ∧
      (∀ u : UnicodeTables, DefaultTokenizer.Tokenize u "" = .ok [])) :=
  ⟨rfl, rfl, addDocument_no_tokens RangeOrder.stored RangeOrder.stored exampleIngested ""
    (DefaultTokenizer.Tokenize UnicodeTables.ascii) rfl rfl⟩

/-- C7 at a tokenizer that fails on the document `"bad"`. -/
theorem addDocument_error_iff_witness :
    exampleFailing.cfg.Tokenizer = some failingTokenizer ∧
    failingTokenizer "bad" = .error "cannot tokenize" ∧
    ((∀ e, (AddDocument RangeOrder.stored RangeOrder.stored exampleFailing "bad").1 = .err e ↔
        failingTokenizer "bad" = .error e) ∧
      (∀ e, failingTokenizer "bad" = .error e →
        AddDocument RangeOrder.stored RangeOrder.stored exampleFailing "bad" =
          (.err e, exampleFailing))) :=
  ⟨rfl, rfl, addDocument_error_iff RangeOrder.stored RangeOrder.stored exampleFailing "bad"
    failingTokenizer rfl⟩

/-- C8 at the batch `["go fast", "bad", "more"]` with a tokenizer that fails on `"bad"`:
the batch returns that error, the first document stays ingested and the third is never
looked at. -/
theorem addDocuments_sequential_witness :
    AddDocuments (fun _ => RangeOrder.stored) (fun _ => RangeOrder.reversed) exampleFailing
        ["go fast", "bad", "more"] =
      (.err "cannot tokenize",
        ingestEach (fun _ => RangeOrder.stored) (fun _ => RangeOrder.reversed) exampleFailing
          ["go fast"]) ∧
    (ingestEach (fun _ => RangeOrder.stored) (fun _ => RangeOrder.reversed) exampleFailing
      ["go fast"]).docs = [[1, 1]] := by
  refine ⟨?_, by decide⟩
  refine (addDocuments_sequential (fun _ => RangeOrder.stored) (fun _ => RangeOrder.reversed)
    exampleFailing ["go fast", "bad", "more"]).1 1 "bad" "cannot tokenize" rfl ?_ (by decide)
  intro i d hi hd
  have hi0 : i = 0 := by omega
  subst hi0
  simp only [List.getElem?_cons_zero, Option.some.injEq] at hd
  subst hd
  decide

/-- C9 at the model that has ingested `"go go go fast"`: `GetVocab` returns
`["fast", "go"]`. -/
theorem getVocab_of_reachable_witness :
    Reachable UnicodeTables.ascii exampleCfg exampleIngested ∧
    GetVocab RangeOrder.stored exampleIngested = .ok ["fast", "go"] ∧
    ∃ l : List String, GetVocab RangeOrder.stored exampleIngested = .ok l ∧
      (l.length : Int) = exampleIngested.vocab.len ∧
      (∀ (i : Nat) (hi : i < l.length), exampleIngested.vocab.get? l[i] = some (i : Int)) ∧
      l.Nodup ∧ (∀ w, w ∈ l ↔ w ∈ exampleIngested.vocab.keys) :=
  ⟨exampleIngested_reachable, by decide,
    getVocab_of_reachable UnicodeTables.ascii exampleCfg RangeOrder.stored exampleIngested
      exampleIngested_reachable⟩

/-- C10 at a model configured with TF-IDF weighting and binary encoding that has ingested
one document: the weighted vectors are refused. -/
theorem getDocVectorsWeighted_error_iff_witness :
    Reachable UnicodeTables.ascii exampleBinaryCfg exampleBinaryIngested ∧
    (((∃ e, GetDocVectorsWeighted (fun x : ℚ => x) exampleBinaryIngested = .err e) ↔
        (exampleBinaryCfg.Weighting = WeightingTFIDF ∧
          exampleBinaryCfg.UseBinaryEncoding = true)) ∧
      (exampleBinaryCfg.Weighting = WeightingTFIDF ∧
          exampleBinaryCfg.UseBinaryEncoding = true →
        GetDocVectorsWeighted (fun x : ℚ => x) exampleBinaryIngested =
          .err errUnsupportedConfiguration) ∧
      (¬ (exampleBinaryCfg.Weighting = WeightingTFIDF ∧
          exampleBinaryCfg.UseBinaryEncoding = true) →
        ∃ vectors, GetDocVectorsWeighted (fun x : ℚ => x) exampleBinaryIngested =
          .ok vectors)) :=
  ⟨exampleBinaryIngested_reachable,
    getDocVectorsWeighted_error_iff (fun x : ℚ => x) UnicodeTables.ascii exampleBinaryCfg
      exampleBinaryIngested exampleBinaryIngested_reachable⟩

/-! ## Raw weighting -/

theorem weightingRaw_ne_tfidf : WeightingRaw ≠ WeightingTFIDF := by decide

/-- C11: for a model configured with raw weighting (binary encoding on or off), in every
reachable state `GetDocVectorsWeighted` succeeds and returns as many vectors as
`GetRawDocVectors`; the `i`-th weighted vector has the length of the `i`-th raw vector and
each of its entries is the numeric value of the corresponding integer entry. -/
theorem getDocVectorsWeighted_raw {F : Type} [Field F] [DecidableEq F] (log : F → F)
    (u : UnicodeTables) (cfg : Config) (bow : BoW)
    (hraw : cfg.Weighting = WeightingRaw) (h : Reachable u cfg bow) :
    ∃ weighted : List (List F), GetDocVectorsWeighted log bow = .ok weighted ∧
      weighted.length = (GetRawDocVectors bow).length ∧
      ∀ (i : Nat) (vec : List Int), (GetRawDocVectors bow)[i]? = some vec →
        ∃ w, weighted[i]? = some w ∧ w.length = vec.length ∧
          ∀ (j : Nat) (x : Int), vec[j]? = some x → w[j]? = some (x : F) := by
  have hw : bow.cfg.Weighting ≠ WeightingTFIDF := by
    rw [h.flags.2, hraw]
    exact weightingRaw_ne_tfidf
  refine ⟨(GetRawDocVectors bow).map (fun vec => vec.map (fun val : Int => (val : F))), ?_, ?_, ?_⟩
  · unfold GetDocVectorsWeighted
    rw [if_neg hw]
  · simp
  · intro i vec hi
    refine ⟨vec.map (fun val : Int => (val : F)), ?_, ?_, ?_⟩
    · simp [List.getElem?_map, hi]
    · simp
    · intro j x hj
      simp [List.getElem?_map, hj]

/-! ## The document store only grows -/

theorem scatter_length {α : Type} : ∀ (ws : List (Int × α)) (s s' : List α),
    scatter ws s = some s' → s'.length = s.length := by
  intro ws
  induction ws with
  | nil =>
    intro s s' h
    simp only [scatter, Option.some.injEq] at h
    rw [h]
  | cons q ws ih =>
    intro s s' h
    obtain ⟨i, v⟩ := q
    simp only [scatter] at h
    cases hs : setIdx? s i v with
    | none => simp [hs] at h
    | some s₁ =>
      rw [hs] at h
      rw [ih s₁ s' h, setIdx?_length hs]

/-- A call of `AddDocument` leaves the stored vectors in place and appends at most one. -/
theorem addDocument_docs (ρ₁ ρ₂ : RangeOrder) (bow : BoW) (doc : String) :
    (AddDocument ρ₁ ρ₂ bow doc).2.docs = bow.docs ∨
    ∃ vec, (AddDocument ρ₁ ρ₂ bow doc).2.docs = bow.docs ++ [vec] ∧
      vec.length = (AddDocument ρ₁ ρ₂ bow doc).2.vocab.length := by
  rcases addDocument_cases ρ₁ ρ₂ bow doc with ⟨_, h⟩ | ⟨_, _, _, _, h⟩ | ⟨_, _, _, h⟩ |
    ⟨_, words, _, _, _, ⟨_, h⟩ | ⟨vec, hvec, h⟩⟩ <;> rw [h]
  · exact Or.inl rfl
  · exact Or.inl rfl
  · exact Or.inl rfl
  · exact Or.inl rfl
  · refine Or.inr ⟨vec, rfl, ?_⟩
    rw [fillVec_eq_scatter] at hvec
    simpa using scatter_length _ _ _ hvec

/-- C17: the vectors returned by `GetRawDocVectors` before a call of `AddDocument` are
the first vectors returned after it, unchanged in value and length, followed by at most
one new vector; `GetRawDocVectors` is a read of the store (it returns the stored values
and has no effect on the state); on a valid state, a call that expands the vocabulary
appends a vector strictly longer than every vector recorded before; and a reachable store
can hold vectors of different lengths. -/
theorem getRawDocVectors_frame (ρ₁ ρ₂ : RangeOrder) (bow : BoW) (doc : String) :
    (∃ tail, GetRawDocVectors (AddDocument ρ₁ ρ₂ bow doc).2 = GetRawDocVectors bow ++ tail ∧
      tail.length ≤ 1) ∧
    GetRawDocVectors bow = bow.docs ∧
    (Valid bow → bow.vocab.len < (AddDocument ρ₁ ρ₂ bow doc).2.vocab.len →
      ∃ v, GetRawDocVectors (AddDocument ρ₁ ρ₂ bow doc).2 = GetRawDocVectors bow ++ [v] ∧
        ∀ vec ∈ GetRawDocVectors bow, vec.length < v.length) ∧
    (∃ v₁ ∈ GetRawDocVectors exampleCorpusModel, ∃ v₂ ∈ GetRawDocVectors exampleCorpusModel,
      v₁.length ≠ v₂.length) := by
  simp only [getRawDocVectors_eq]
  refine ⟨?_, trivial, ?_, ?_⟩
  · rcases addDocument_docs ρ₁ ρ₂ bow doc with h | ⟨vec, h, -⟩
    · exact ⟨[], by simp [h], by simp⟩
    · exact ⟨[vec], h, by simp⟩
  · intro hv hgrow
    rcases addDocument_docs ρ₁ ρ₂ bow doc with h | ⟨vec, h, hlen⟩
    · exfalso
      rcases addDocument_cases ρ₁ ρ₂ bow doc with ⟨_, h'⟩ | ⟨_, _, _, _, h'⟩ | ⟨_, _, _, h'⟩ |
        ⟨_, words, _, _, _, ⟨_, h'⟩ | ⟨vec, hvec, h'⟩⟩
      · rw [h'] at hgrow; exact lt_irrefl _ hgrow
      · rw [h'] at hgrow; exact lt_irrefl _ hgrow
      · rw [h'] at hgrow; exact lt_irrefl _ hgrow
      · have := (addDocument_valid ρ₁ ρ₂ hv doc).2
        rw [h'] at this
        exact this rfl
      · rw [h'] at h
        simp at h
    · refine ⟨vec, h, ?_⟩
      intro x hx
      have := hv.docsLen x hx
      simp only [GoMap.len] at hgrow
      omega
  · refine ⟨[1, 2], by decide, [1, 0, 1, 1], by decide, by decide⟩

/-! ## Independence of the map iteration order -/

/-- The frequency maps of two permuted token sequences have the same entries. -/
theorem countWords_perm {words words' : List String} (h : words.Perm words') :
    (countWords words).Perm (countWords words') := by
  have hn : (countWords words).Nodup := List.Nodup.of_map _ (countWords_keys_nodup words)
  have hn' : (countWords words').Nodup := List.Nodup.of_map _ (countWords_keys_nodup words')
  refine (List.perm_ext_iff_of_nodup hn hn').2 ?_
  rintro ⟨w, f⟩
  constructor
  · intro hm
    obtain ⟨hw, hf⟩ := mem_countWords hm
    rw [hf, h.count_eq]
    exact GoMap.mem_of_get? (countWords_get? (h.mem_iff.1 hw))
  · intro hm
    obtain ⟨hw, hf⟩ := mem_countWords hm
    rw [hf, ← h.count_eq]
    exact GoMap.mem_of_get? (countWords_get? (h.mem_iff.2 hw))

/-- Permuted token sequences extend the vocabulary in the same way. -/
theorem extendVocab_perm (vocab : GoMap) {words words' : List String}
    (h : words.Perm words') : extendVocab vocab words = extendVocab vocab words' := by
  unfold extendVocab newWordsOf
  rw [sortStrings_congr (collectNew_perm vocab (countWords_perm h))]

/-- The vector built for a document does not depend on the order in which the frequency
map is visited, nor on the order of the tokens. -/
theorem fillVec_perm (ρ ρ' : RangeOrder) (binary : Bool) {vocab : GoMap} (hv : VocabOK vocab)
    {words words' : List String} (h : words.Perm words') :
    fillVec binary (extendVocab vocab words) (ρ.visit (countWords words))
        (List.replicate (extendVocab vocab words).length 0) =
      fillVec binary (extendVocab vocab words') (ρ'.visit (countWords words'))
        (List.replicate (extendVocab vocab words').length 0) := by
  obtain ⟨vec, h1, h2, h3, h4⟩ := fillVec_extend ρ binary hv words
  obtain ⟨vec', h1', h2', h3', h4'⟩ := fillVec_extend ρ' binary hv words'
  rw [h1, h1']
  congr 1
  have hE := extendVocab_perm vocab h
  rw [← hE] at h2' h3' h4'
  apply List.ext_getElem?
  intro j
  by_cases hj : j < vec.length
  · by_cases hex : ∃ t ∈ words, (extendVocab vocab words).get? t = some (j : Int)
    · obtain ⟨t, ht, hidx⟩ := hex
      have e1 := h3 t ht _ hidx
      have e2 := h3' t (h.mem_iff.1 ht) _ hidx
      simp only [Int.toNat_ofNat] at e1 e2
      rw [e1, e2, h.count_eq]
    · have hno : ∀ t ∈ words, (extendVocab vocab words).get? t ≠ some (j : Int) :=
        fun t ht hidx => hex ⟨t, ht, hidx⟩
      rw [h4 j hj hno, h4' j (by omega) (fun t ht => hno t (h.mem_iff.2 ht))]
  · rw [List.getElem?_eq_none (by omega), List.getElem?_eq_none (by omega)]

/-- On a well-formed vocabulary the result of `AddDocument` does not depend on the order
in which the `range` loops visit the frequency map, nor on the order of the tokens. -/
theorem addDocument_perm (ρ₁ ρ₂ ρ₁' ρ₂' : RangeOrder) {bow : BoW} (hv : VocabOK bow.vocab)
    {doc doc' : String} {tokenizer : Tokenizer} {words words' : List String}
    (htok : bow.cfg.Tokenizer = some tokenizer) (hwords : tokenizer doc = .ok words)
    (hwords' : tokenizer doc' = .ok words') (hne : words ≠ []) (h : words.Perm words') :
    AddDocument ρ₁ ρ₂ bow doc = AddDocument ρ₁' ρ₂' bow doc' := by
  have hne' : words' ≠ [] := fun e => hne (List.perm_nil.1 (e ▸ h))
  rw [addDocument_unfold ρ₁ ρ₂ bow doc htok hwords hne,
    addDocument_unfold ρ₁' ρ₂' bow doc' htok hwords' hne',
    fillVec_perm ρ₂ ρ₂' bow.cfg.UseBinaryEncoding hv h, extendVocab_perm bow.vocab h]

theorem addDocument_order (ρ₁ ρ₂ ρ₁' ρ₂' : RangeOrder) {bow : BoW} (hv : VocabOK bow.vocab)
    (doc : String) : AddDocument ρ₁ ρ₂ bow doc = AddDocument ρ₁' ρ₂' bow doc := by
  cases htok : bow.cfg.Tokenizer with
  | none => unfold AddDocument; simp only [htok]
  | some tokenizer =>
    cases hwords : tokenizer doc with
    | error e => unfold AddDocument; simp only [htok, hwords]
    | ok words =>
      by_cases hne : words = []
      · subst hne
        unfold AddDocument
        simp only [htok, hwords, List.length_nil, if_true]
      · exact addDocument_perm ρ₁ ρ₂ ρ₁' ρ₂' hv htok hwords hwords hne (List.Perm.refl _)

theorem addDocuments_order : ∀ (ds : List String) (σ₁ σ₂ σ₁' σ₂' : Nat → RangeOrder)
    (bow : BoW), Valid bow → AddDocuments σ₁ σ₂ bow ds = AddDocuments σ₁' σ₂' bow ds := by
  intro ds
  induction ds with
  | nil => intro _ _ _ _ bow _; rfl
  | cons d rest ih =>
    intro σ₁ σ₂ σ₁' σ₂' bow hv
    have e := addDocument_order (σ₁ 0) (σ₂ 0) (σ₁' 0) (σ₂' 0) hv.vocabOK d
    have hv' := (addDocument_valid (σ₁ 0) (σ₂ 0) hv d).1
    rw [AddDocuments, AddDocuments, ← e]
    cases hr : AddDocument (σ₁ 0) (σ₂ 0) bow d with
    | mk r bow' =>
      rw [hr] at hv'
      cases r with
      | ok _ => exact ih _ _ _ _ bow' hv'
      | err e => rfl
      | panicked => rfl

/-- On a well-formed vocabulary `GetVocab` does not depend on the iteration order. -/
theorem getVocab_order (ρ ρ' : RangeOrder) {bow : BoW} (hv : VocabOK bow.vocab) :
    GetVocab ρ bow = GetVocab ρ' bow := by
  obtain ⟨l, hl, hlen, hidx⟩ := getVocab_spec ρ hv
  obtain ⟨l', hl', hlen', hidx'⟩ := getVocab_spec ρ' hv
  rw [hl, hl']
  congr 1
  apply List.ext_getElem (by omega)
  intro i h1 h2
  exact hv.index_inj (hidx i h1) (hidx' i h2)

/-- C16: index assignment and vector construction do not depend on the token iteration
order.  On a well-formed vocabulary, for two token sequences that are permutations of each
other (the first non-empty), `AddDocument` returns the same outcome and the same state
(same vocabulary map, same appended vector), whatever orders the `range` loops visit the
frequency map in; hence ingesting a fixed list of documents into a fresh model gives the
same outcome and state under all iteration orders, and `GetVocab` and `GetRawDocVectors`
of that state are uniquely determined. -/
theorem addDocument_order_independent (ρ₁ ρ₂ ρ₁' ρ₂' : RangeOrder) (bow : BoW)
    (doc doc' : String) (tokenizer : Tokenizer) (words words' : List String)
    (hvocab : VocabOK bow.vocab)
    (htok : bow.cfg.Tokenizer = some tokenizer) (hwords : tokenizer doc = .ok words)
    (hwords' : tokenizer doc' = .ok words') (hne : words ≠ []) (hperm : words.Perm words') :
    AddDocument ρ₁ ρ₂ bow doc = AddDocument ρ₁' ρ₂' bow doc' ∧
    (∀ (u : UnicodeTables) (cfg : Config) (ds : List String)
      (σ₁ σ₂ σ₁' σ₂' : Nat → RangeOrder) (ρ ρ' : RangeOrder),
      AddDocuments σ₁ σ₂ (New u cfg) ds = AddDocuments σ₁' σ₂' (New u cfg) ds ∧
      GetVocab ρ (AddDocuments σ₁ σ₂ (New u cfg) ds).2 =
        GetVocab ρ' (AddDocuments σ₁' σ₂' (New u cfg) ds).2 ∧
      GetRawDocVectors (AddDocuments σ₁ σ₂ (New u cfg) ds).2 =
        GetRawDocVectors (AddDocuments σ₁' σ₂' (New u cfg) ds).2) := by
  refine ⟨addDocument_perm ρ₁ ρ₂ ρ₁' ρ₂' hvocab htok hwords hwords' hne hperm, ?_⟩
  intro u cfg ds σ₁ σ₂ σ₁' σ₂' ρ ρ'
  have e := addDocuments_order ds σ₁ σ₂ σ₁' σ₂' (New u cfg) (new_valid u cfg)
  have hv : Valid (AddDocuments σ₁' σ₂' (New u cfg) ds).2 :=
    (Reachable.addDocuments σ₁' σ₂' _ ds (@Reachable.new u cfg)).valid
  refine ⟨e, ?_, by rw [e]⟩
  rw [e]
  exact getVocab_order ρ ρ' hv.vocabOK

/-! ## The default tokenizer -/

theorem maximalRuns_nil (p : Char → Bool) : maximalRuns p [] = [] := by
  rw [maximalRuns]

theorem maximalRuns_cons_pos {p : Char → Bool} {r : Char} (h : p r = true) (rest : List Char) :
    maximalRuns p (r :: rest) = (r :: rest.takeWhile p) :: maximalRuns p (rest.dropWhile p) := by
  rw [maximalRuns, if_pos h]

theorem maximalRuns_cons_neg {p : Char → Bool} {r : Char} (h : ¬ p r = true) (rest : List Char) :
    maximalRuns p (r :: rest) = maximalRuns p rest := by
  rw [maximalRuns, if_neg h]

/-- The tokenizer loop, resumed from the state `(tokens, cur)` on the remaining runes
`text`: the pending token `cur` is completed by the run at the start of `text`. -/
theorem tokenize_loop (u : UnicodeTables) (p : Char → Bool)
    (hp : ∀ r, (u.IsLetter r || u.IsDigit r) = p r) :
    ∀ (text : List Char) (tokens : List String) (cur : List Char),
    tokenizeFinish (text.foldl (tokenizeStep u) (tokens, cur)) =
      tokens ++
        (if cur = [] then
          (maximalRuns p text).map (fun run => String.mk (run.map u.ToLower))
        else
          String.mk (cur ++ (text.takeWhile p).map u.ToLower)
            :: (maximalRuns p (text.dropWhile p)).map
              (fun run => String.mk (run.map u.ToLower))) := by
  intro text
  induction text with
  | nil =>
    intro tokens cur
    by_cases hc : cur = []
    · simp [tokenizeFinish, hc, maximalRuns_nil]
    · have : 0 < cur.length := List.length_pos.2 hc
      simp [tokenizeFinish, hc, maximalRuns_nil, this]
  | cons r rest ih =>
    intro tokens cur
    rw [List.foldl_cons]
    by_cases hr : p r = true
    · have hstep : tokenizeStep u (tokens, cur) r = (tokens, cur ++ [u.ToLower r]) := by
        simp only [tokenizeStep, hp, hr, if_true]
      rw [hstep, ih]
      have hne : cur ++ [u.ToLower r] ≠ [] := by simp
      rw [if_neg hne]
      by_cases hc : cur = []
      · subst hc
        rw [if_pos rfl, maximalRuns_cons_pos hr]
        simp
      · rw [if_neg hc, List.takeWhile_cons_of_pos hr, List.dropWhile_cons_of_pos hr]
        simp
    · by_cases hc : cur = []
      · subst hc
        have hstep : tokenizeStep u (tokens, []) r = (tokens, []) := by
          simp [tokenizeStep, hp, hr]
        rw [hstep, ih, if_pos rfl, if_pos rfl, maximalRuns_cons_neg hr]
      · have hlen : cur.length > 0 := List.length_pos.2 hc
        have hstep : tokenizeStep u (tokens, cur) r = (tokens ++ [String.mk cur], []) := by
          simp only [tokenizeStep, hp, hr, hlen, if_true]
          simp
        rw [hstep, ih, if_pos rfl, if_neg hc, List.takeWhile_cons_of_neg hr,
          List.dropWhile_cons_of_neg hr, maximalRuns_cons_neg hr]
        simp

theorem maximalRuns_mem (p : Char → Bool) : ∀ (n : Nat) (text : List Char),
    text.length ≤ n → ∀ run ∈ maximalRuns p text, run ≠ [] ∧ ∀ r ∈ run, p r = true := by
  intro n
  induction n with
  | zero =>
    intro text h run hrun
    have : text = [] := List.length_eq_zero.1 (Nat.le_zero.1 h)
    subst this
    simp [maximalRuns_nil] at hrun
  | succ n ih =>
    intro text h run hrun
    cases text with
    | nil => simp [maximalRuns_nil] at hrun
    | cons r rest =>
      simp only [List.length_cons] at h
      by_cases hr : p r = true
      · rw [maximalRuns_cons_pos hr] at hrun
        rcases List.mem_cons.1 hrun with rfl | hrun
        · refine ⟨by simp, ?_⟩
          intro x hx
          rcases List.mem_cons.1 hx with rfl | hx
          · exact hr
          · exact (List.mem_takeWhile_imp hx)
        · exact ih _ (le_trans (List.dropWhile_sublist p).length_le (by omega)) run hrun
      · rw [maximalRuns_cons_neg hr] at hrun
        exact ih rest (by omega) run hrun

/-- The runs together hold exactly the runes satisfying `p`, in their order. -/
theorem maximalRuns_join (p : Char → Bool) : ∀ (n : Nat) (text : List Char),
    text.length ≤ n → (maximalRuns p text).flatten = text.filter p := by
  intro n
  induction n with
  | zero =>
    intro text h
    have : text = [] := List.length_eq_zero.1 (Nat.le_zero.1 h)
    subst this
    simp [maximalRuns_nil]
  | succ n ih =>
    intro text h
    cases text with
    | nil => simp [maximalRuns_nil]
    | cons r rest =>
      simp only [List.length_cons] at h
      by_cases hr : p r = true
      · rw [maximalRuns_cons_pos hr, List.flatten_cons,
          ih _ (le_trans (List.dropWhile_sublist p).length_le (by omega)),
          List.filter_cons_of_pos hr, List.cons_append]
        congr 1
        conv_rhs => rw [← List.takeWhile_append_dropWhile p rest, List.filter_append]
        congr 1
        exact (List.filter_eq_self.2 (fun x hx => List.mem_takeWhile_imp hx)).symm
      · rw [maximalRuns_cons_neg hr, ih rest (by omega), List.filter_cons_of_neg hr]

theorem maximalRuns_eq_nil (p : Char → Bool) : ∀ (text : List Char),
    (∀ r ∈ text, p r = false) → maximalRuns p text = [] := by
  intro text
  induction text with
  | nil => intro _; exact maximalRuns_nil p
  | cons r rest ih =>
    intro h
    have hr : ¬ p r = true := by simp [h r (List.mem_cons_self _ _)]
    rw [maximalRuns_cons_neg hr]
    exact ih (fun x hx => h x (List.mem_cons_of_mem _ hx))

theorem tokenize_eq_finish (u : UnicodeTables) (text : String) :
    DefaultTokenizer.Tokenize u text =
      .ok (tokenizeFinish (text.toList.foldl (tokenizeStep u) ([], []))) := by
  unfold DefaultTokenizer.Tokenize tokenizeFinish
  dsimp only
  split <;> rfl

/-- C15: for every text the default tokenizer succeeds and returns, in order of
occurrence, the maximal runs of consecutive letter-or-digit runes, each rune mapped to
lowercase.  Every run is non-empty and made of letter-or-digit runes only, so a rune that
is neither is a boundary and contributes to no token; the runs together hold all
letter-or-digit runes of the text in order; every token is non-empty; and a text with no
letter or digit (the empty text included) yields no token. -/
theorem defaultTokenizer_spec (u : UnicodeTables) (text : String) :
    DefaultTokenizer.Tokenize u text = .ok (specTokens u text) ∧
    (∀ run ∈ maximalRuns (fun r => u.IsLetter r || u.IsDigit r) text.toList,
      run ≠ [] ∧ ∀ r ∈ run, (u.IsLetter r || u.IsDigit r) = true) ∧
    (maximalRuns (fun r => u.IsLetter r || u.IsDigit r) text.toList).flatten =
      text.toList.filter (fun r => u.IsLetter r || u.IsDigit r) ∧
    (∀ token ∈ specTokens u text, token ≠ "") ∧
    ((∀ r ∈ text.toList, (u.IsLetter r || u.IsDigit r) = false) →
      DefaultTokenizer.Tokenize u text = .ok []) ∧
    DefaultTokenizer.Tokenize UnicodeTables.ascii "hello, world! world?" =
      .ok ["hello", "world", "world"] := by
  have hmain : DefaultTokenizer.Tokenize u text = .ok (specTokens u text) := by
    have h := tokenize_loop u (fun r => u.IsLetter r || u.IsDigit r) (fun _ => rfl)
      text.toList [] []
    simp only [if_true, List.nil_append] at h
    rw [tokenize_eq_finish, h]
    rfl
  have hmem := maximalRuns_mem (fun r => u.IsLetter r || u.IsDigit r) _ text.toList
    (le_refl _)
  refine ⟨hmain, hmem, maximalRuns_join _ _ _ (le_refl _), ?_, ?_, rfl⟩
  · intro token htoken
    unfold specTokens at htoken
    obtain ⟨run, hrun, rfl⟩ := List.mem_map.1 htoken
    have hne := (hmem run hrun).1
    intro e
    have : (String.mk (run.map u.ToLower)).data = "".data := by rw [e]
    simp at this
    exact hne this
  · intro h
    rw [hmain]
    unfold specTokens
    rw [maximalRuns_eq_nil _ _ h]
    rfl

/-! ## The loops of `ComputeTFIDF` -/

theorem getD_set_int (d : List Int) (j k : Nat) (c : Int) (hj : j < d.length) :
    (d.set j c).getD k 0 = if k = j then c else d.getD k 0 := by
  simp only [List.getD_eq_getElem?_getD, List.getElem?_set]
  by_cases h : j = k
  · subst h
    simp [hj]
  · have h' : ¬ k = j := fun e => h e.symm
    simp [h, h']

theorem getD_cons_sub (tf : Int) (rest : List Int) {j k : Nat} (h : j < k) :
    (tf :: rest).getD (k - j) 0 = rest.getD (k - (j + 1)) 0 := by
  have e : k - j = (k - (j + 1)) + 1 := by omega
  rw [e, List.getD_cons_succ]

/-- The document-frequency loop adds one to every slot at which the vector is positive. -/
theorem bumpDocFreq_spec : ∀ (vec : List Int) (j : Nat) (d d' : List Int),
    bumpDocFreq vec j d = some d' →
    d'.length = d.length ∧ ∀ k, k < d.length →
      d'.getD k 0 = d.getD k 0 + (if j ≤ k ∧ 0 < vec.getD (k - j) 0 then 1 else 0) := by
  intro vec
  induction vec with
  | nil =>
    intro j d d' h
    simp only [bumpDocFreq, Option.some.injEq] at h
    subst h
    simp
  | cons tf rest ih =>
    intro j d d' h
    simp only [bumpDocFreq] at h
    by_cases htf : tf > 0
    · simp only [htf, if_true] at h
      cases hc : d[j]? with
      | none => simp [hc] at h
      | some c =>
        simp only [hc] at h
        obtain ⟨hj, hcv⟩ := List.getElem?_eq_some_iff.1 hc
        obtain ⟨hl, hk⟩ := ih (j + 1) _ d' h
        refine ⟨by simpa using hl, ?_⟩
        intro k hk'
        rw [hk k (by simpa using hk'), getD_set_int d j k (c + 1) hj]
        by_cases hkj : k = j
        · subst hkj
          have e : d.getD k 0 = c := by
            rw [List.getD_eq_getElem?_getD, hc]
            rfl
          have h1 : ¬ (k + 1 ≤ k ∧ 0 < rest.getD (k - (k + 1)) 0) := fun h => by omega
          have h2 : k ≤ k ∧ 0 < (tf :: rest).getD (k - k) 0 := by
            refine ⟨le_refl k, ?_⟩
            rw [Nat.sub_self, List.getD_cons_zero]
            exact htf
          rw [if_pos rfl, if_neg h1, if_pos h2, e, add_zero]
        · by_cases hlt : j < k
          · have h1 : j + 1 ≤ k := hlt
            have h2 : j ≤ k := by omega
            simp only [hkj, if_false, h1, h2, true_and, getD_cons_sub tf rest hlt]
          · have h1 : ¬ j + 1 ≤ k := by omega
            have h2 : ¬ j ≤ k := by omega
            simp [hkj, h1, h2]
    · simp only [htf, if_false] at h
      obtain ⟨hl, hk⟩ := ih (j + 1) d d' h
      refine ⟨hl, ?_⟩
      intro k hk'
      rw [hk k hk']
      by_cases hkj : k = j
      · subst hkj
        have h1 : ¬ (k + 1 ≤ k ∧ 0 < rest.getD (k - (k + 1)) 0) := fun h => by omega
        have h2 : ¬ (k ≤ k ∧ 0 < (tf :: rest).getD (k - k) 0) := by
          rw [Nat.sub_self, List.getD_cons_zero]
          exact fun h => htf h.2
        rw [if_neg h1, if_neg h2]
      · by_cases hlt : j < k
        · have h1 : j + 1 ≤ k := hlt
          have h2 : j ≤ k := by omega
          simp only [h1, h2, true_and, getD_cons_sub tf rest hlt]
        · have h1 : ¬ j + 1 ≤ k := by omega
          have h2 : ¬ j ≤ k := by omega
          simp [h1, h2]

/-- After the document-frequency pass, slot `k` holds the number of vectors that are
positive at `k`. -/
theorem countDocFreq_spec : ∀ (raw : List (List Int)) (d d' : List Int),
    countDocFreq raw d = some d' →
    d'.length = d.length ∧ ∀ k, k < d.length →
      d'.getD k 0 = d.getD k 0 + (posCount raw k : Int) := by
  intro raw
  induction raw with
  | nil =>
    intro d d' h
    simp only [countDocFreq, Option.some.injEq] at h
    subst h
    simp [posCount]
  | cons vec rest ih =>
    intro d d' h
    simp only [countDocFreq] at h
    cases hb : bumpDocFreq vec 0 d with
    | none => simp [hb] at h
    | some d₁ =>
      simp only [hb] at h
      obtain ⟨hl₁, hk₁⟩ := bumpDocFreq_spec vec 0 d d₁ hb
      obtain ⟨hl, hk⟩ := ih d₁ d' h
      refine ⟨hl.trans hl₁, ?_⟩
      intro k hk'
      rw [hk k (hl₁ ▸ hk'), hk₁ k hk']
      have e : posCount (vec :: rest) k =
          posCount rest k + (if 0 < vec.getD k 0 then 1 else 0) := by
        simp only [posCount, List.countP_cons, decide_eq_true_eq]
      rw [e]
      simp only [Nat.zero_le, true_and, Nat.sub_zero]
      by_cases hp : 0 < vec.getD k 0
      · rw [if_pos hp, if_pos hp]
        push_cast
        ring
      · rw [if_neg hp, if_neg hp]
        push_cast
        ring

theorem getD_set_field {F : Type} [Field F] (d : List F) (j k : Nat) (c : F)
    (hj : j < d.length) : (d.set j c).getD k 0 = if k = j then c else d.getD k 0 := by
  simp only [List.getD_eq_getElem?_getD, List.getElem?_set]
  by_cases h : j = k
  · subst h
    simp [hj]
  · have h' : ¬ k = j := fun e => h e.symm
    simp [h, h']

/-- The weighting loop stores the weight at every slot at which the vector is positive and
leaves the other slots as they were. -/
theorem fillTFIDFVec_spec {F : Type} [Field F] (log : F → F) (totalDocs : F)
    (docFreq : List Int) : ∀ (vec : List Int) (j : Nat) (out o : List F),
    fillTFIDFVec log totalDocs docFreq vec j out = some o →
    o.length = out.length ∧ ∀ k, k < out.length →
      o.getD k 0 = if j ≤ k ∧ 0 < vec.getD (k - j) 0 then
        tfidfWeight log totalDocs (vec.getD (k - j) 0) (docFreq.getD k 0)
      else out.getD k 0 := by
  intro vec
  induction vec with
  | nil =>
    intro j out o h
    simp only [fillTFIDFVec, Option.some.injEq] at h
    subst h
    simp
  | cons tf rest ih =>
    intro j out o h
    simp only [fillTFIDFVec] at h
    by_cases htf : tf > 0
    · simp only [htf, if_true] at h
      cases hc : docFreq[j]? with
      | none => simp [hc] at h
      | some df =>
        simp only [hc] at h
        by_cases hj : j < out.length
        · simp only [hj, if_true] at h
          obtain ⟨hl, hk⟩ := ih (j + 1) _ o h
          refine ⟨by simpa using hl, ?_⟩
          intro k hk'
          rw [hk k (by simpa using hk'), getD_set_field out j k _ hj]
          by_cases hkj : k = j
          · subst hkj
            have e : docFreq.getD k 0 = df := by
              rw [List.getD_eq_getElem?_getD, hc]
              rfl
            have h1 : ¬ (k + 1 ≤ k ∧ 0 < rest.getD (k - (k + 1)) 0) := fun h => by omega
            have h2 : k ≤ k ∧ 0 < (tf :: rest).getD (k - k) 0 := by
              refine ⟨le_refl k, ?_⟩
              rw [Nat.sub_self, List.getD_cons_zero]
              exact htf
            rw [if_pos rfl, if_neg h1, if_pos h2, e, Nat.sub_self, List.getD_cons_zero]
            rfl
          · by_cases hlt : j < k
            · have h1 : j + 1 ≤ k := hlt
              have h2 : j ≤ k := by omega
              simp only [hkj, if_false, h1, h2, true_and, getD_cons_sub tf rest hlt]
            · have h1 : ¬ j + 1 ≤ k := by omega
              have h2 : ¬ j ≤ k := by omega
              simp [hkj, h1, h2]
        · simp [hj] at h
    · simp only [htf, if_false] at h
      obtain ⟨hl, hk⟩ := ih (j + 1) out o h
      refine ⟨hl, ?_⟩
      intro k hk'
      rw [hk k hk']
      by_cases hkj : k = j
      · subst hkj
        have h1 : ¬ (k + 1 ≤ k ∧ 0 < rest.getD (k - (k + 1)) 0) := fun h => by omega
        have h2 : ¬ (k ≤ k ∧ 0 < (tf :: rest).getD (k - k) 0) := by
          rw [Nat.sub_self, List.getD_cons_zero]
          exact fun h => htf h.2
        rw [if_neg h1, if_neg h2]
      · by_cases hlt : j < k
        · have h1 : j + 1 ≤ k := hlt
          have h2 : j ≤ k := by omega
          simp only [h1, h2, true_and, getD_cons_sub tf rest hlt]
        · have h1 : ¬ j + 1 ≤ k := by omega
          have h2 : ¬ j ≤ k := by omega
          simp [h1, h2]

/-- Every row of the matrix has the vocabulary size; a slot holds the weight where the raw
vector is positive and zero elsewhere. -/
theorem tfidfRows_spec {F : Type} [Field F] (log : F → F) (totalDocs : F)
    (docFreq : List Int) (vocabSize : Int) : ∀ (raw : List (List Int)) (rows : List (List F)),
    tfidfRows log totalDocs docFreq vocabSize raw = some rows →
    rows.length = raw.length ∧
    ∀ (i : Nat) (vec : List Int), raw[i]? = some vec →
      ∃ row, rows[i]? = some row ∧ row.length = vocabSize.toNat ∧
        ∀ k, k < vocabSize.toNat →
          row.getD k 0 = if 0 < vec.getD k 0 then
            tfidfWeight log totalDocs (vec.getD k 0) (docFreq.getD k 0) else 0 := by
  intro raw
  induction raw with
  | nil =>
    intro rows h
    simp only [tfidfRows, Option.some.injEq] at h
    subst h
    exact ⟨rfl, fun i vec hi => by simp at hi⟩
  | cons vec rest ih =>
    intro rows h
    simp only [tfidfRows] at h
    cases hf : fillTFIDFVec log totalDocs docFreq vec 0 (List.replicate vocabSize.toNat 0) with
    | none => simp [hf] at h
    | some row =>
      simp only [hf] at h
      cases hr : tfidfRows log totalDocs docFreq vocabSize rest with
      | none => simp [hr] at h
      | some rows' =>
        simp only [hr, Option.some.injEq] at h
        subst h
        obtain ⟨hl, hk⟩ := fillTFIDFVec_spec log totalDocs docFreq vec 0 _ row hf
        obtain ⟨hl', hi'⟩ := ih rows' hr
        refine ⟨by simp [hl'], ?_⟩
        intro i v hi
        cases i with
        | zero =>
          simp only [List.getElem?_cons_zero, Option.some.injEq] at hi
          subst hi
          refine ⟨row, by simp, by simpa using hl, ?_⟩
          intro k hk'
          rw [hk k (by simpa using hk')]
          simp only [Nat.zero_le, true_and, Nat.sub_zero]
          have e : (List.replicate vocabSize.toNat (0 : F)).getD k 0 = 0 := by
            simp [List.getD_eq_getElem?_getD, hk']
          rw [e]
        | succ i =>
          simp only [List.getElem?_cons_succ] at hi ⊢
          exact hi' i v hi

/-- On a valid state `ComputeTFIDF` returns one row per stored vector, each of the
vocabulary size, holding the smoothed TF-IDF weight where the raw vector is positive and
zero elsewhere. -/
theorem computeTFIDF_spec {F : Type} [Field F] [CharZero F] [DecidableEq F] (log : F → F)
    {bow : BoW} (hv : Valid bow) :
    ∃ m, ComputeTFIDF log bow = .ok m ∧ m.length = bow.docs.length ∧
      ∀ (i : Nat) (vec : List Int), bow.docs[i]? = some vec →
        ∃ row, m[i]? = some row ∧ row.length = bow.vocab.length ∧
          ∀ k, k < bow.vocab.length →
            row.getD k 0 = if 0 < vec.getD k 0 then
              tfidfWeight log (bow.docs.length : F) (vec.getD k 0) (posCount bow.docs k)
            else 0 := by
  unfold ComputeTFIDF
  simp only [getRawDocVectors_eq, GoMap.len, Int.toNat_ofNat]
  by_cases h0 : bow.docs.length = 0
  · refine ⟨[], by simp [h0], by simp [h0], ?_⟩
    intro i vec hi
    rw [List.length_eq_zero.1 h0] at hi
    simp at hi
  · have hN : ((bow.docs.length : Nat) : F) ≠ 0 := Nat.cast_ne_zero.2 h0
    simp only [hN, if_false]
    obtain ⟨d, hd, hlen⟩ := countDocFreq_some bow.docs (List.replicate bow.vocab.length 0)
      (by simpa using hv.docsLen)
    obtain ⟨-, hdk⟩ := countDocFreq_spec _ _ _ hd
    obtain ⟨rows, hrows⟩ := tfidfRows_some log ((bow.docs.length : Nat) : F) d
      (bow.vocab.length : Int) (by simpa using hlen) bow.docs (by simpa using hv.docsLen)
    obtain ⟨hrl, hrk⟩ := tfidfRows_spec log _ d _ _ _ hrows
    refine ⟨rows, by simp only [hd, hrows], hrl, ?_⟩
    intro i vec hi
    obtain ⟨row, h1, h2, h3⟩ := hrk i vec hi
    refine ⟨row, h1, by simpa using h2, ?_⟩
    intro k hk
    rw [h3 k (by simpa using hk)]
    have e : d.getD k 0 = (posCount bow.docs k : Int) := by
      rw [hdk k (by simpa using hk)]
      simp [List.getD_eq_getElem?_getD, hk]
    rw [e]

/-- The vector that `AddDocument` builds has no negative entry and a positive one. -/
theorem fillVec_extend_positive (ρ : RangeOrder) (binary : Bool) {vocab : GoMap}
    (h : VocabOK vocab) {words : List String} (hne : words ≠ []) {vec : List Int}
    (hvec : fillVec binary (extendVocab vocab words) (ρ.visit (countWords words))
      (List.replicate (extendVocab vocab words).length 0) = some vec) :
    (∀ x ∈ vec, 0 ≤ x) ∧ ∃ x ∈ vec, 0 < x := by
  obtain ⟨vec', h1, h2, h3, h4⟩ := fillVec_extend ρ binary h words
  rw [hvec] at h1
  cases h1
  have hval : ∀ t ∈ words, 0 < (if binary = true then (1 : Int) else (words.count t : Int)) := by
    intro t ht
    by_cases hb : binary = true
    · simp [hb]
    · simp only [hb, if_false]
      exact_mod_cast List.count_pos_iff.2 ht
  constructor
  · intro x hx
    obtain ⟨j, hj, rfl⟩ := List.getElem_of_mem hx
    by_cases hex : ∃ t ∈ words, (extendVocab vocab words).get? t = some (j : Int)
    · obtain ⟨t, ht, hidx⟩ := hex
      have e := h3 t ht _ hidx
      simp only [Int.toNat_ofNat, List.getElem?_eq_getElem hj, Option.some.injEq] at e
      rw [e]
      exact le_of_lt (hval t ht)
    · have e := h4 j hj (fun t ht hidx => hex ⟨t, ht, hidx⟩)
      simp only [List.getElem?_eq_getElem hj, Option.some.injEq] at e
      rw [e]
  · obtain ⟨t, ht⟩ := List.exists_mem_of_ne_nil words hne
    obtain ⟨i, hi⟩ := @extendVocab_get?_isSome vocab words t ht
    have e := h3 t ht i hi
    refine ⟨_, List.getElem?_mem e, hval t ht⟩

/-- Every reachable state is valid and stores only vectors with non-negative entries and a
positive one. -/
theorem Reachable.docsPositive {u : UnicodeTables} {cfg : Config} {bow : BoW}
    (h : Reachable u cfg bow) : DocsPositive bow := by
  have key : Valid bow ∧ DocsPositive bow := by
    refine h.preserves (fun b => Valid b ∧ DocsPositive b) ⟨new_valid u cfg, ?_⟩ ?_
    · intro vec hvec
      simp [New] at hvec
    · rintro ρ₁ ρ₂ b doc ⟨hv, hp⟩
      refine ⟨(addDocument_valid ρ₁ ρ₂ hv doc).1, ?_⟩
      rcases addDocument_cases ρ₁ ρ₂ b doc with ⟨_, h⟩ | ⟨_, _, _, _, h⟩ | ⟨_, _, _, h⟩ |
        ⟨_, words, _, _, hne, ⟨_, h⟩ | ⟨vec, hvec, h⟩⟩ <;> rw [h]
      · exact hp
      · exact hp
      · exact hp
      · exact hp
      · intro x hx
        simp only [List.mem_append, List.mem_singleton] at hx
        rcases hx with hx | rfl
        · exact hp x hx
        · exact fillVec_extend_positive ρ₂ _ hv.vocabOK hne hvec
  exact key.2

/-- Where no entry is negative, "non-zero at slot `j`" and "positive at slot `j`" count the
same vectors. -/
theorem docFreqOf_eq_posCount {raw : List (List Int)}
    (h : ∀ vec ∈ raw, ∀ x ∈ vec, (0 : Int) ≤ x) (j : Nat) :
    docFreqOf raw j = posCount raw j := by
  unfold docFreqOf posCount
  refine List.countP_congr ?_
  intro vec hvec
  have hnn : 0 ≤ vec.getD j 0 := by
    rw [List.getD_eq_getElem?_getD]
    cases hj : vec[j]? with
    | none => simp
    | some x => exact h vec hvec x (List.getElem?_mem hj)
  simp only [decide_eq_true_eq]
  omega

/-! ## TF-IDF weighting over the reals -/

/-- In a reachable state of a TF-IDF model over raw counts, `GetDocVectorsWeighted` returns
one row per stored vector, each of the vocabulary size, with the smoothed TF-IDF weight
where the raw vector is positive and zero elsewhere. -/
theorem weighted_tfidf_core {F : Type} [Field F] [CharZero F] [DecidableEq F] (log : F → F)
    {u : UnicodeTables} {cfg : Config} {bow : BoW}
    (htfidf : cfg.Weighting = WeightingTFIDF) (hcount : cfg.UseBinaryEncoding = false)
    (h : Reachable u cfg bow) :
    ∃ m, GetDocVectorsWeighted log bow = .ok m ∧ m.length = bow.docs.length ∧
      ∀ (i : Nat) (vec : List Int), bow.docs[i]? = some vec →
        ∃ row, m[i]? = some row ∧ row.length = bow.vocab.length ∧
          ∀ k, k < bow.vocab.length →
            row.getD k 0 = if 0 < vec.getD k 0 then
              tfidfWeight log (bow.docs.length : F) (vec.getD k 0) (docFreqOf bow.docs k)
            else 0 := by
  obtain ⟨m, hm, hlen, hrows⟩ := computeTFIDF_spec log h.valid
  refine ⟨m, ?_, hlen, ?_⟩
  · unfold GetDocVectorsWeighted
    rw [h.flags.2, h.flags.1, htfidf, hcount, if_pos rfl]
    exact hm
  · intro i vec hi
    obtain ⟨row, h1, h2, h3⟩ := hrows i vec hi
    refine ⟨row, h1, h2, ?_⟩
    intro k hk
    rw [h3 k hk, docFreqOf_eq_posCount (fun v hv => (h.docsPositive v hv).1)]

theorem docFreqOf_le_length (raw : List (List Int)) (j : Nat) : docFreqOf raw j ≤ raw.length :=
  List.countP_le_length _

/-- The smoothed weight of a positive count is positive when `df ≤ N`. -/
theorem tfidfWeight_pos {N df : Nat} {tf : Int} (htf : 0 < tf) (hdf : df ≤ N) :
    0 < tfidfWeight Real.log (N : ℝ) tf (df : Int) := by
  unfold tfidfWeight
  have hpos : (0 : ℝ) < ((df : Int) : ℝ) + 1 := by
    push_cast
    positivity
  have hle : (1 : ℝ) ≤ ((N : ℝ) + 1) / (((df : Int) : ℝ) + 1) := by
    rw [one_le_div hpos]
    push_cast
    have : (df : ℝ) ≤ (N : ℝ) := by exact_mod_cast hdf
    linarith
  have hlog := Real.log_nonneg hle
  have htf' : (0 : ℝ) < (tf : ℝ) := by exact_mod_cast htf
  exact mul_pos htf' (by linarith)

theorem getD_of_getElem? {α : Type} {l : List α} {j : Nat} {x d : α} (h : l[j]? = some x) :
    l.getD j d = x := by
  rw [List.getD_eq_getElem?_getD, h]
  rfl

theorem getElem?_eq_getD {α : Type} {l : List α} {j : Nat} (d : α) (h : j < l.length) :
    l[j]? = some (l.getD j d) := by
  rw [List.getD_eq_getElem?_getD, List.getElem?_eq_getElem h]
  rfl

/-- C12: for a model configured with TF-IDF weighting over raw counts, in every reachable
state with `N` stored raw vectors and vocabulary size `V`, `GetDocVectorsWeighted`
succeeds and returns `N` vectors (none when `N = 0`), each of length `V`.  With `df j` the
number of stored raw vectors with a non-zero value at slot `j`, entry `j` of weighted vector
`i` is `tf * (ln ((N + 1) / (df j + 1)) + 1)` when raw vector `i` has a slot `j` with value
`tf > 0`, and `0` otherwise, also for the slots beyond the length of the raw vector.  The
arithmetic is over the real numbers. -/
theorem getDocVectorsWeighted_tfidf (u : UnicodeTables) (cfg : Config) (bow : BoW)
    (htfidf : cfg.Weighting = WeightingTFIDF) (hcount : cfg.UseBinaryEncoding = false)
    (h : Reachable u cfg bow) :
    ∃ weighted : List (List ℝ),
      GetDocVectorsWeighted Real.log bow = .ok weighted ∧
      weighted.length = (GetRawDocVectors bow).length ∧
      ((GetRawDocVectors bow).length = 0 → weighted = []) ∧
      ∀ (i : Nat) (vec : List Int), (GetRawDocVectors bow)[i]? = some vec →
        ∃ row, weighted[i]? = some row ∧ (row.length : Int) = bow.vocab.len ∧
          ∀ j, j < row.length →
            (∀ tf : Int, vec[j]? = some tf → 0 < tf →
              row[j]? = some ((tf : ℝ) *
                (Real.log ((((GetRawDocVectors bow).length : ℝ) + 1) /
                  ((docFreqOf (GetRawDocVectors bow) j : ℝ) + 1)) + 1))) ∧
            ((¬ ∃ tf : Int, vec[j]? = some tf ∧ 0 < tf) → row[j]? = some 0) := by
  obtain ⟨m, hm, hlen, hrows⟩ := weighted_tfidf_core Real.log htfidf hcount h
  simp only [getRawDocVectors_eq]
  refine ⟨m, hm, hlen, ?_, ?_⟩
  · intro h0
    exact List.length_eq_zero.1 (hlen.trans h0)
  · intro i vec hi
    obtain ⟨row, h1, h2, h3⟩ := hrows i vec hi
    refine ⟨row, h1, by simp [GoMap.len, h2], ?_⟩
    intro j hj
    have hval := h3 j (h2 ▸ hj)
    rw [getElem?_eq_getD 0 hj, hval]
    constructor
    · intro tf htf hpos
      rw [getD_of_getElem? htf, if_pos hpos]
      unfold tfidfWeight
      push_cast
      rfl
    · intro hno
      have : ¬ 0 < vec.getD j 0 := by
        intro hpos
        cases hv : vec[j]? with
        | none =>
          rw [List.getD_eq_getElem?_getD, hv] at hpos
          exact lt_irrefl _ hpos
        | some tf =>
          rw [getD_of_getElem? hv] at hpos
          exact hno ⟨tf, hv, hpos⟩
      rw [if_neg this]

/-- C13: for a model configured with TF-IDF weighting over raw counts, in every reachable
state every entry of every vector returned by `GetDocVectorsWeighted` is `>= 0`, and is
exactly `0` at every slot where the raw count is `0` or the raw vector has no such slot;
the document frequency never exceeds the number of documents, which makes the logarithm
non-negative.  The arithmetic is over the real numbers. -/
theorem getDocVectorsWeighted_tfidf_nonneg (u : UnicodeTables) (cfg : Config) (bow : BoW)
    (htfidf : cfg.Weighting = WeightingTFIDF) (hcount : cfg.UseBinaryEncoding = false)
    (h : Reachable u cfg bow) :
    ∃ weighted : List (List ℝ),
      GetDocVectorsWeighted Real.log bow = .ok weighted ∧
      (∀ j, docFreqOf (GetRawDocVectors bow) j ≤ (GetRawDocVectors bow).length) ∧
      ∀ (i : Nat) (vec : List Int) (row : List ℝ),
        (GetRawDocVectors bow)[i]? = some vec → weighted[i]? = some row →
        (∀ x ∈ row, 0 ≤ x) ∧
        ∀ j, j < row.length → (vec[j]? = none ∨ vec[j]? = some 0) → row[j]? = some 0 := by
  obtain ⟨m, hm, hlen, hrows⟩ := weighted_tfidf_core Real.log htfidf hcount h
  simp only [getRawDocVectors_eq]
  refine ⟨m, hm, fun j => docFreqOf_le_length _ j, ?_⟩
  intro i vec row hi hrow
  obtain ⟨row', h1, h2, h3⟩ := hrows i vec hi
  rw [hrow] at h1
  cases h1
  constructor
  · intro x hx
    obtain ⟨j, hj, rfl⟩ := List.getElem_of_mem hx
    have hval := h3 j (h2 ▸ hj)
    have e : row[j] = row.getD j 0 := by
      have := getElem?_eq_getD (0 : ℝ) hj
      rw [List.getElem?_eq_getElem hj] at this
      exact Option.some.inj this
    rw [e, hval]
    by_cases hpos : 0 < vec.getD j 0
    · rw [if_pos hpos]
      exact le_of_lt (tfidfWeight_pos hpos (docFreqOf_le_length _ j))
    · rw [if_neg hpos]
  · intro j hj hzero
    have hval := h3 j (h2 ▸ hj)
    rw [getElem?_eq_getD 0 hj, hval]
    have : ¬ 0 < vec.getD j 0 := by
      rcases hzero with hv | hv
      · rw [List.getD_eq_getElem?_getD, hv]
        exact lt_irrefl _
      · rw [getD_of_getElem? hv]
        exact lt_irrefl _
    rw [if_neg this]

/-- C14: for a model configured with TF-IDF weighting over raw counts, in every reachable
state no vector returned by `GetDocVectorsWeighted` is all zeroes: every returned vector
has a strictly positive entry, because every stored raw vector has a slot with a positive
count and the smoothed IDF factor is positive.  The arithmetic is over the real numbers. -/
theorem getDocVectorsWeighted_tfidf_positive (u : UnicodeTables) (cfg : Config) (bow : BoW)
    (htfidf : cfg.Weighting = WeightingTFIDF) (hcount : cfg.UseBinaryEncoding = false)
    (h : Reachable u cfg bow) :
    ∃ weighted : List (List ℝ),
      GetDocVectorsWeighted Real.log bow = .ok weighted ∧
      (∀ vec ∈ GetRawDocVectors bow, ∃ x ∈ vec, 0 < x) ∧
      ∀ row ∈ weighted, ∃ x ∈ row, 0 < x := by
  obtain ⟨m, hm, hlen, hrows⟩ := weighted_tfidf_core Real.log htfidf hcount h
  simp only [getRawDocVectors_eq]
  refine ⟨m, hm, fun vec hvec => (h.docsPositive vec hvec).2, ?_⟩
  intro row hrow
  obtain ⟨i, hi, rfl⟩ := List.getElem_of_mem hrow
  have hi' : i < bow.docs.length := hlen ▸ hi
  obtain ⟨row', h1, h2, h3⟩ := hrows i bow.docs[i] (List.getElem?_eq_getElem hi')
  rw [List.getElem?_eq_getElem hi] at h1
  cases h1
  obtain ⟨x, hx, hpos⟩ := (h.docsPositive _ (List.getElem_mem hi')).2
  obtain ⟨k, hk, rfl⟩ := List.getElem_of_mem hx
  have hkV : k < bow.vocab.length :=
    lt_of_lt_of_le hk (h.valid.docsLen _ (List.getElem_mem hi'))
  have hval := h3 k hkV
  have hg : bow.docs[i].getD k 0 = bow.docs[i][k] :=
    getD_of_getElem? (List.getElem?_eq_getElem hk)
  rw [hg, if_pos hpos] at hval
  refine ⟨m[i].getD k 0, ?_, ?_⟩
  · have := getElem?_eq_getD (0 : ℝ) (h2 ▸ hkV : k < m[i].length)
    exact List.getElem?_mem this
  · rw [hval]
    exact tfidfWeight_pos hpos (docFreqOf_le_length _ k)

/-! ## The TF-IDF scenario of the spec -/

theorem ingestCorpus_eq (σ₁ σ₂ : Nat → RangeOrder) : ingestCorpus σ₁ σ₂ = exampleCorpusModel := by
  unfold ingestCorpus exampleCorpusModel
  rw [addDocuments_order exampleCorpus σ₁ σ₂ (fun _ => RangeOrder.stored)
    (fun _ => RangeOrder.reversed) _ (new_valid _ _)]

/-- The weighted vectors of a TF-IDF model that stores the raw vectors `[1, 2]` and
`[1, 0, 1, 1]` over a vocabulary of size four. -/
theorem weighted_of_example_docs {F : Type} [Field F] [CharZero F] [DecidableEq F]
    (log : F → F) (bow : BoW) (hw : bow.cfg.Weighting = WeightingTFIDF)
    (hb : bow.cfg.UseBinaryEncoding = false) (hdocs : bow.docs = [[1, 2], [1, 0, 1, 1]])
    (hlen : bow.vocab.length = 4) :
    GetDocVectorsWeighted log bow =
      .ok [[tfidfWeight log 2 1 2, tfidfWeight log 2 2 1, 0, 0],
           [tfidfWeight log 2 1 2, 0, tfidfWeight log 2 1 1, tfidfWeight log 2 1 1]] := by
  have h2 : ((2 : Nat) : F) ≠ 0 := Nat.cast_ne_zero.2 (by decide)
  unfold GetDocVectorsWeighted ComputeTFIDF
  simp only [hw, hb, getRawDocVectors_eq, hdocs, GoMap.len, hlen, if_true]
  simp [countDocFreq, bumpDocFreq, tfidfRows, fillTFIDFVec, tfidfWeight, List.replicate]

/-- C18, as stated, fails on the code: after the example corpus `GetVocab` returns
`["fast", "go", "and", "slow"]`, not `["and", "fast", "go", "slow"]`, and the raw vector of
document 0 is `[1, 2]`, not `[0, 1, 2, 0]`. -/
theorem exampleCorpus_counterexample :
    GetVocab RangeOrder.stored exampleCorpusModel = .ok ["fast", "go", "and", "slow"] ∧
    GetRawDocVectors exampleCorpusModel = [[1, 2], [1, 0, 1, 1]] ∧
    ¬ (GetVocab RangeOrder.stored exampleCorpusModel = .ok ["and", "fast", "go", "slow"] ∧
      (GetRawDocVectors exampleCorpusModel)[0]? = some [0, 1, 2, 0]) := by
  decide

/-- C18 amended: for the corpus `["go go fast", "fast and slow"]` ingested in that order
into a fresh model with TF-IDF weighting over raw counts and the default tokenizer, under
every map iteration order, the vocabulary assigns `fast ↦ 0, go ↦ 1, and ↦ 2, slow ↦ 3`
(each document appends its new words in sorted order), the raw vector of document 0 is
`[1, 2]` (sized when it was ingested), and the weighted vector of document 0 has four
slots, positive at the slots of `fast` and `go` and zero at the slots of `and` and
`slow`. -/
theorem exampleCorpus_tfidf (σ₁ σ₂ : Nat → RangeOrder) :
    (ingestCorpus σ₁ σ₂).vocab = [("fast", 0), ("go", 1), ("and", 2), ("slow", 3)] ∧
    GetRawDocVectors (ingestCorpus σ₁ σ₂) = [[1, 2], [1, 0, 1, 1]] ∧
    ∃ (a b : ℝ) (w₁ : List ℝ),
      GetDocVectorsWeighted Real.log (ingestCorpus σ₁ σ₂) = .ok [[a, b, 0, 0], w₁] ∧
      0 < a ∧ 0 < b := by
  rw [ingestCorpus_eq]
  refine ⟨by decide, by decide, tfidfWeight Real.log 2 1 2, tfidfWeight Real.log 2 2 1, _,
    weighted_of_example_docs Real.log exampleCorpusModel (by decide) (by decide) (by decide)
      (by decide), ?_, ?_⟩
  · have := @tfidfWeight_pos 2 2 1 (by decide) (le_refl _)
    exact_mod_cast this
  · have := @tfidfWeight_pos 2 1 2 (by decide) (by decide)
    exact_mod_cast this

/-- C19 fails on the code: after the example corpus `GetVocab` returns
`["fast", "go", "and", "slow"]`, in which `"and"` comes after the larger word `"go"`. -/
theorem getVocab_unsorted :
    Reachable UnicodeTables.ascii exampleTFIDFCfg exampleCorpusModel ∧
    GetVocab RangeOrder.stored exampleCorpusModel = .ok ["fast", "go", "and", "slow"] ∧
    stringLess "and" "go" = true ∧
    ¬ List.Sorted stringLE ["fast", "go", "and", "slow"] := by
  refine ⟨Reachable.addDocuments _ _ _ _ Reachable.new, by decide, by decide, ?_⟩
  unfold List.Sorted
  decide

/-! ## The later claims at concrete inputs -/

theorem exampleCorpusModel_reachable :
    Reachable UnicodeTables.ascii exampleTFIDFCfg exampleCorpusModel :=
  Reachable.addDocuments _ _ _ _ Reachable.new

/-- C11 at the raw-count model that has ingested `"go go go fast"`: the weighted vectors
are `[[1, 3]]`. -/
theorem getDocVectorsWeighted_raw_witness :
    exampleCfg.Weighting = WeightingRaw ∧
    Reachable UnicodeTables.ascii exampleCfg exampleIngested ∧
    GetDocVectorsWeighted (fun x : ℚ => x) exampleIngested = .ok [[1, 3]] ∧
    ∃ weighted : List (List ℚ),
      GetDocVectorsWeighted (fun x : ℚ => x) exampleIngested = .ok weighted ∧
      weighted.length = (GetRawDocVectors exampleIngested).length ∧
      ∀ (i : Nat) (vec : List Int), (GetRawDocVectors exampleIngested)[i]? = some vec →
        ∃ w, weighted[i]? = some w ∧ w.length = vec.length ∧
          ∀ (j : Nat) (x : Int), vec[j]? = some x → w[j]? = some (x : ℚ) :=
  ⟨rfl, exampleIngested_reachable, by decide,
    getDocVectorsWeighted_raw (fun x : ℚ => x) UnicodeTables.ascii exampleCfg exampleIngested
      rfl exampleIngested_reachable⟩

/-- C12 at the TF-IDF model that has ingested the example corpus. -/
theorem getDocVectorsWeighted_tfidf_witness :
    exampleTFIDFCfg.Weighting = WeightingTFIDF ∧
    exampleTFIDFCfg.UseBinaryEncoding = false ∧
    Reachable UnicodeTables.ascii exampleTFIDFCfg exampleCorpusModel ∧
    ∃ weighted : List (List ℝ),
      GetDocVectorsWeighted Real.log exampleCorpusModel = .ok weighted ∧
      weighted.length = (GetRawDocVectors exampleCorpusModel).length ∧
      ((GetRawDocVectors exampleCorpusModel).length = 0 → weighted = []) ∧
      ∀ (i : Nat) (vec : List Int), (GetRawDocVectors exampleCorpusModel)[i]? = some vec →
        ∃ row, weighted[i]? = some row ∧ (row.length : Int) = exampleCorpusModel.vocab.len ∧
          ∀ j, j < row.length →
            (∀ tf : Int, vec[j]? = some tf → 0 < tf →
              row[j]? = some ((tf : ℝ) *
                (Real.log ((((GetRawDocVectors exampleCorpusModel).length : ℝ) + 1) /
                  ((docFreqOf (GetRawDocVectors exampleCorpusModel) j : ℝ) + 1)) + 1))) ∧
            ((¬ ∃ tf : Int, vec[j]? = some tf ∧ 0 < tf) → row[j]? = some 0) :=
  ⟨rfl, rfl, exampleCorpusModel_reachable,
    getDocVectorsWeighted_tfidf UnicodeTables.ascii exampleTFIDFCfg exampleCorpusModel rfl rfl
      exampleCorpusModel_reachable⟩

/-- C13 at the TF-IDF model that has ingested the example corpus. -/
theorem getDocVectorsWeighted_tfidf_nonneg_witness :
    exampleTFIDFCfg.Weighting = WeightingTFIDF ∧
    exampleTFIDFCfg.UseBinaryEncoding = false ∧
    Reachable UnicodeTables.ascii exampleTFIDFCfg exampleCorpusModel ∧
    ∃ weighted : List (List ℝ),
      GetDocVectorsWeighted Real.log exampleCorpusModel = .ok weighted ∧
      (∀ j, docFreqOf (GetRawDocVectors exampleCorpusModel) j ≤
        (GetRawDocVectors exampleCorpusModel).length) ∧
      ∀ (i : Nat) (vec : List Int) (row : List ℝ),
        (GetRawDocVectors exampleCorpusModel)[i]? = some vec → weighted[i]? = some row →
        (∀ x ∈ row, 0 ≤ x) ∧
        ∀ j, j < row.length → (vec[j]? = none ∨ vec[j]? = some 0) → row[j]? = some 0 :=
  ⟨rfl, rfl, exampleCorpusModel_reachable,
    getDocVectorsWeighted_tfidf_nonneg UnicodeTables.ascii exampleTFIDFCfg exampleCorpusModel
      rfl rfl exampleCorpusModel_reachable⟩

/-- C14 at the TF-IDF model that has ingested the example corpus. -/
theorem getDocVectorsWeighted_tfidf_positive_witness :
    exampleTFIDFCfg.Weighting = WeightingTFIDF ∧
    exampleTFIDFCfg.UseBinaryEncoding = false ∧
    Reachable UnicodeTables.ascii exampleTFIDFCfg exampleCorpusModel ∧
    GetRawDocVectors exampleCorpusModel = [[1, 2], [1, 0, 1, 1]] ∧
    ∃ weighted : List (List ℝ),
      GetDocVectorsWeighted Real.log exampleCorpusModel = .ok weighted ∧
      (∀ vec ∈ GetRawDocVectors exampleCorpusModel, ∃ x ∈ vec, 0 < x) ∧
      ∀ row ∈ weighted, ∃ x ∈ row, 0 < x :=
  ⟨rfl, rfl, exampleCorpusModel_reachable, by decide,
    getDocVectorsWeighted_tfidf_positive UnicodeTables.ascii exampleTFIDFCfg
      exampleCorpusModel rfl rfl exampleCorpusModel_reachable⟩

/-- C16 at the documents `"go go go fast"` and `"fast go go go"` on a fresh model, visited
in different orders: the outcome and the state are the same. -/
theorem addDocument_order_independent_witness :
    VocabOK exampleModel.vocab ∧
    exampleModel.cfg.Tokenizer = some (DefaultTokenizer.Tokenize UnicodeTables.ascii) ∧
    DefaultTokenizer.Tokenize UnicodeTables.ascii "go go go fast" =
      .ok ["go", "go", "go", "fast"] ∧
    DefaultTokenizer.Tokenize UnicodeTables.ascii "fast go go go" =
      .ok ["fast", "go", "go", "go"] ∧
    ["go", "go", "go", "fast"] ≠ [] ∧
    ["go", "go", "go", "fast"].Perm ["fast", "go", "go", "go"] ∧
    (AddDocument RangeOrder.stored RangeOrder.reversed exampleModel "go go go fast" =
        AddDocument RangeOrder.reversed RangeOrder.stored exampleModel "fast go go go" ∧
      (∀ (u : UnicodeTables) (cfg : Config) (ds : List String)
        (σ₁ σ₂ σ₁' σ₂' : Nat → RangeOrder) (ρ ρ' : RangeOrder),
        AddDocuments σ₁ σ₂ (New u cfg) ds = AddDocuments σ₁' σ₂' (New u cfg) ds ∧
        GetVocab ρ (AddDocuments σ₁ σ₂ (New u cfg) ds).2 =
          GetVocab ρ' (AddDocuments σ₁' σ₂' (New u cfg) ds).2 ∧
        GetRawDocVectors (AddDocuments σ₁ σ₂ (New u cfg) ds).2 =
          GetRawDocVectors (AddDocuments σ₁' σ₂' (New u cfg) ds).2)) :=
  ⟨vocabOK_nil, rfl, rfl, rfl, by decide, by decide,
    addDocument_order_independent RangeOrder.stored RangeOrder.reversed RangeOrder.reversed
      RangeOrder.stored exampleModel "go go go fast" "fast go go go"
      (DefaultTokenizer.Tokenize UnicodeTables.ascii) ["go", "go", "go", "fast"]
      ["fast", "go", "go", "go"] vocabOK_nil rfl rfl rfl (by decide) (by decide)⟩

/-- C17 at the model that has ingested `"go go go fast"` and then ingests
`"fast and slow"`: the vocabulary grows from two to four words, the stored vector `[1, 3]`
stays as it is and the new vector `[1, 0, 1, 1]` is longer. -/
theorem getRawDocVectors_frame_witness :
    Valid exampleIngested ∧
    exampleIngested.vocab.len <
      (AddDocument RangeOrder.stored RangeOrder.stored exampleIngested
        "fast and slow").2.vocab.len ∧
    GetRawDocVectors (AddDocument RangeOrder.stored RangeOrder.stored exampleIngested
      "fast and slow").2 = [[1, 3], [1, 0, 1, 1]] ∧
    ∃ v, GetRawDocVectors (AddDocument RangeOrder.stored RangeOrder.stored exampleIngested
        "fast and slow").2 = GetRawDocVectors exampleIngested ++ [v] ∧
      ∀ vec ∈ GetRawDocVectors exampleIngested, vec.length < v.length :=
  ⟨exampleIngested_reachable.valid, by decide, by decide,
    (getRawDocVectors_frame RangeOrder.stored RangeOrder.stored exampleIngested
      "fast and slow").2.2.1 exampleIngested_reachable.valid (by decide)⟩

/-! ## Concurrent ingestion as an interleaving of the lock-protected sections -/

/-- Run alone, the four sections of a call are `AddDocument`. -/
theorem runAlone_eq (ρ₁ ρ₂ : RangeOrder) (bow : BoW) (doc : String) :
    runAlone ρ₁ ρ₂ bow doc =
      ((AddDocument ρ₁ ρ₂ bow doc).2, Phase.returned (AddDocument ρ₁ ρ₂ bow doc).1) := by
  unfold runAlone AddDocument
  cases htok : bow.cfg.Tokenizer with
  | none => simp [advance, htok]
  | some tokenizer =>
    cases hwords : tokenizer doc with
    | error e => simp [advance, htok, hwords]
    | ok words =>
      by_cases hne : words.length = 0
      · simp [advance, htok, hwords, hne]
      · simp only [advance, htok, hwords, hne, if_false]
        cases fillVec bow.cfg.UseBinaryEncoding
          (assignIndices bow.vocab (sortStrings (collectNew bow.vocab (ρ₁.visit (countWords words)))))
          (ρ₂.visit (countWords words))
          (List.replicate (GoMap.len (assignIndices bow.vocab
            (sortStrings (collectNew bow.vocab (ρ₁.visit (countWords words)))))).toNat 0) with
        | none => simp [advance]
        | some vec => simp [advance]

theorem tokensOf_ok {cfg : Config} {tokenizer : Tokenizer} {doc : String}
    {words : List String} (htok : cfg.Tokenizer = some tokenizer)
    (hwords : tokenizer doc = .ok words) : tokensOf cfg doc = words := by
  simp [tokensOf, htok, hwords]

theorem tokensOf_error {cfg : Config} {tokenizer : Tokenizer} {doc : String} {e : GoError}
    (htok : cfg.Tokenizer = some tokenizer) (hwords : tokenizer doc = .error e) :
    tokensOf cfg doc = [] := by
  simp [tokensOf, htok, hwords]

theorem taskOK_mono {cfg : Config} {vocab vocab' : GoMap}
    (h : ∀ w ∈ vocab.keys, w ∈ vocab'.keys) {t : String × Phase} (ht : TaskOK cfg vocab t) :
    TaskOK cfg vocab' t := by
  obtain ⟨doc, phase⟩ := t
  cases phase with
  | start => trivial
  | counted wf => exact ht
  | indexed wf => exact ⟨ht.1, ht.2.1, fun w hw => h w (ht.2.2 w hw)⟩
  | built vec => exact ⟨ht.1, fun w hw => h w (ht.2 w hw)⟩
  | returned r => exact ⟨ht.1, fun w hw => h w (ht.2 w hw)⟩

theorem extendVocab_keys (vocab : GoMap) (words : List String) :
    (extendVocab vocab words).keys = vocab.keys ++ newWordsOf vocab words := by
  have e : List.map Prod.fst (numberFrom vocab.length (newWordsOf vocab words)) =
      newWordsOf vocab words := numberFrom_keys _ _
  simp only [extendVocab, GoMap.keys, List.map_append, e]

theorem mem_extendVocab_keys {vocab : GoMap} {words : List String} {w : String} :
    w ∈ (extendVocab vocab words).keys ↔ w ∈ vocab.keys ∨ w ∈ words := by
  rw [extendVocab_keys, List.mem_append, mem_newWordsOf]
  constructor
  · rintro (h | ⟨h, -⟩)
    · exact Or.inl h
    · exact Or.inr h
  · rintro (h | h)
    · exact Or.inl h
    · by_cases hk : w ∈ vocab.keys
      · exact Or.inl hk
      · exact Or.inr ⟨h, GoMap.get?_eq_none_iff.2 hk⟩

/-- A document whose words are all in the vocabulary leaves the vocabulary as it is. -/
theorem extendVocab_of_known {vocab : GoMap} {words : List String}
    (h : ∀ w ∈ words, w ∈ vocab.keys) : extendVocab vocab words = vocab := by
  have : newWordsOf vocab words = [] := by
    rw [List.eq_nil_iff_forall_not_mem]
    intro w hw
    obtain ⟨hw1, hw2⟩ := mem_newWordsOf.1 hw
    exact GoMap.get?_eq_none_iff.1 hw2 (h w hw1)
  simp [extendVocab, this, numberFrom]

/-- The write-locked section extends the vocabulary by the new words of the document. -/
theorem advance_counted (ρ : RangeOrder) (bow : BoW) (doc : String) (words : List String) :
    advance ρ bow doc (Phase.counted (countWords words)) =
      ({ bow with vocab := extendVocab bow.vocab words }, Phase.indexed (countWords words)) := by
  have hV : assignIndices bow.vocab
      (sortStrings (collectNew bow.vocab (ρ.visit (countWords words))))
      = extendVocab bow.vocab words := by
    rw [newWords_eq]
    exact assignIndices_eq _ _ (newWordsOf_nodup _ _) (newWordsOf_not_mem _ _)
  simp only [advance, hV]

/-- The read-locked section cannot panic once the words of the document are in a
well-formed vocabulary, however much the vocabulary has grown in between. -/
theorem advance_indexed (ρ : RangeOrder) {bow : BoW} (doc : String) {words : List String}
    (hv : VocabOK bow.vocab) (h : ∀ w ∈ words, w ∈ bow.vocab.keys) :
    ∃ vec, advance ρ bow doc (Phase.indexed (countWords words)) = (bow, Phase.built vec) := by
  obtain ⟨vec, hvec, -⟩ := fillVec_extend ρ bow.cfg.UseBinaryEncoding hv words
  rw [extendVocab_of_known h] at hvec
  refine ⟨vec, ?_⟩
  simp only [advance, GoMap.len, Int.toNat_ofNat, hvec]

theorem countP_replace {α : Type} (f : α → Bool) (pre post : List α) (x : α) :
    (pre ++ x :: post).countP f = pre.countP f + post.countP f + (if f x then 1 else 0) := by
  rw [List.countP_append, List.countP_cons]
  omega

/-- Replacing one goroutine of the pool by one that is fine keeps all goroutines fine. -/
theorem tasks_replace {cfg : Config} {vocab vocab' : GoMap}
    (hmono : ∀ w ∈ vocab.keys, w ∈ vocab'.keys) {pre post : List (String × Phase)}
    {x x' : String × Phase} (h : ∀ t ∈ pre ++ x :: post, TaskOK cfg vocab t)
    (hx' : TaskOK cfg vocab' x') : ∀ t ∈ pre ++ x' :: post, TaskOK cfg vocab' t := by
  intro t ht
  simp only [List.mem_append, List.mem_cons] at ht
  rcases ht with ht | rfl | ht
  · exact taskOK_mono hmono (h t (by simp [ht]))
  · exact hx'
  · exact taskOK_mono hmono (h t (by simp [ht]))

/-- A section that changes neither the state nor the count of finished ingestions keeps
the invariant. -/
theorem poolInv_same {bow₀ bow : BoW} {docs : List String} {pre post : List (String × Phase)}
    {doc : String} {phase phase' : Phase}
    (hinv : PoolInv bow₀ docs ⟨bow, pre ++ (doc, phase) :: post⟩)
    (hok : TaskOK bow₀.cfg bow.vocab (doc, phase'))
    (hcount : (phase'.isReturned && !(tokensOf bow₀.cfg doc).isEmpty) =
      (phase.isReturned && !(tokensOf bow₀.cfg doc).isEmpty)) :
    PoolInv bow₀ docs ⟨bow, pre ++ (doc, phase') :: post⟩ := by
  refine ⟨hinv.cfg, ?_, hinv.vocabOK, hinv.keysOld, hinv.keysNew,
    tasks_replace (fun _ h => h) hinv.tasks hok, ?_⟩
  · have := hinv.names
    simpa using this
  · obtain ⟨tail, h1, h2⟩ := hinv.docs
    refine ⟨tail, h1, ?_⟩
    rw [h2]
    simp only [countP_replace, hcount]

/-- Every atomic section keeps the invariant. -/
theorem poolInv_step {bow₀ : BoW} {docs : List String} (hv : Valid bow₀) {c c' : Pool}
    (hinv : PoolInv bow₀ docs c) (hstep : PoolStep c c') : PoolInv bow₀ docs c' := by
  cases hstep with
  | atomic ρ bow pre post doc phase =>
    have hcfg : bow.cfg = bow₀.cfg := hinv.cfg
    have htask : TaskOK bow₀.cfg bow.vocab (doc, phase) := hinv.tasks _ (by simp)
    cases phase with
    | start =>
      have hsome := hv.tokenizer
      rw [← hcfg] at hsome
      obtain ⟨tokenizer, htok⟩ := Option.isSome_iff_exists.1 hsome
      have htok₀ : bow₀.cfg.Tokenizer = some tokenizer := hcfg ▸ htok
      cases hwords : tokenizer doc with
      | error e =>
        have hadv : advance ρ bow doc Phase.start = (bow, Phase.returned (Outcome.err e)) := by
          simp only [advance, htok, hwords]
        rw [hadv]
        have ht := tokensOf_error htok₀ hwords
        refine poolInv_same hinv ⟨by simp, ?_⟩ (by simp [ht, Phase.isReturned])
        intro w hw
        rw [ht] at hw
        simp at hw
      | ok words =>
        have ht := tokensOf_ok htok₀ hwords
        by_cases hlen : words.length = 0
        · have hadv : advance ρ bow doc Phase.start =
              (bow, Phase.returned (Outcome.ok ())) := by
            simp only [advance, htok, hwords, hlen, if_true]
          have hnil : words = [] := List.length_eq_zero.1 hlen
          rw [hadv]
          refine poolInv_same hinv ⟨by simp, ?_⟩ (by simp [ht, hnil, Phase.isReturned])
          intro w hw
          rw [ht, hnil] at hw
          simp at hw
        · have hadv : advance ρ bow doc Phase.start =
              (bow, Phase.counted (countWords words)) := by
            simp only [advance, htok, hwords, hlen, if_false]
          have hne : words ≠ [] := fun e => hlen (by simp [e])
          rw [hadv]
          exact poolInv_same hinv ⟨by rw [ht]; exact hne, by rw [ht]⟩
            (by simp [Phase.isReturned])
    | counted wf =>
      obtain ⟨hne, hwf⟩ := htask
      simp only at hne hwf
      subst hwf
      rw [advance_counted]
      have hmono : ∀ w ∈ bow.vocab.keys,
          w ∈ (extendVocab bow.vocab (tokensOf bow₀.cfg doc)).keys :=
        fun w hw => mem_extendVocab_keys.2 (Or.inl hw)
      have hdoc : doc ∈ docs := by
        rw [← hinv.names]
        simp
      refine ⟨hcfg, ?_, extendVocab_ok hinv.vocabOK _, fun w hw => hmono w (hinv.keysOld w hw),
        ?_, tasks_replace hmono hinv.tasks ⟨hne, rfl, fun w hw =>
          mem_extendVocab_keys.2 (Or.inr hw)⟩, ?_⟩
      · have := hinv.names
        simpa using this
      · intro w hw
        rcases mem_extendVocab_keys.1 hw with h | h
        · exact hinv.keysNew w h
        · exact Or.inr ⟨doc, hdoc, h⟩
      · obtain ⟨tail, h1, h2⟩ := hinv.docs
        refine ⟨tail, h1, ?_⟩
        rw [h2]
        simp only [countP_replace, Phase.isReturned, Bool.false_and]
    | indexed wf =>
      obtain ⟨hne, hwf, hkeys⟩ := htask
      simp only at hne hwf hkeys
      subst hwf
      obtain ⟨vec, hadv⟩ := advance_indexed ρ doc hinv.vocabOK hkeys
      rw [hadv]
      exact poolInv_same hinv ⟨hne, hkeys⟩ (by simp [Phase.isReturned])
    | built vec =>
      obtain ⟨hne, hkeys⟩ := htask
      simp only at hne hkeys
      have hadv : advance ρ bow doc (Phase.built vec) =
          ({ bow with docs := bow.docs ++ [vec] }, Phase.returned (Outcome.ok ())) := rfl
      rw [hadv]
      refine ⟨hcfg, ?_, hinv.vocabOK, hinv.keysOld, hinv.keysNew,
        tasks_replace (fun _ h => h) hinv.tasks ⟨by simp, hkeys⟩, ?_⟩
      · have := hinv.names
        simpa using this
      · obtain ⟨tail, h1, h2⟩ := hinv.docs
        refine ⟨tail ++ [vec], ?_, ?_⟩
        · show bow.docs ++ [vec] = bow₀.docs ++ (tail ++ [vec])
          have h1' : bow.docs = bow₀.docs ++ tail := h1
          rw [h1', List.append_assoc]
        · have hemp : (tokensOf bow₀.cfg doc).isEmpty = false := by
            cases h : tokensOf bow₀.cfg doc with
            | nil => exact absurd h hne
            | cons a l => rfl
          rw [List.length_append, h2]
          simp only [countP_replace, Phase.isReturned, hemp, Bool.false_and, Bool.not_false,
            Bool.and_self, if_true, List.length_singleton]
          simp
    | returned ret =>
      exact hinv

/-- Every state of an interleaving satisfies the invariant. -/
theorem poolInv_run {bow₀ : BoW} {docs : List String} (hv : Valid bow₀) {c c' : Pool}
    (hrun : PoolRun c c') (hinv : PoolInv bow₀ docs c) : PoolInv bow₀ docs c' := by
  induction hrun with
  | refl => exact hinv
  | tail _ hstep ih => exact poolInv_step hv ih hstep

theorem poolInv_init {bow₀ : BoW} (hv : Valid bow₀) (docs : List String) :
    PoolInv bow₀ docs ⟨bow₀, docs.map (fun d => (d, Phase.start))⟩ := by
  refine ⟨rfl, ?_, hv.vocabOK, fun _ h => h, fun _ h => Or.inl h, ?_, ⟨[], by simp, ?_⟩⟩
  · simp [List.map_map, Function.comp_def]
  · intro t ht
    obtain ⟨d, -, rfl⟩ := List.mem_map.1 ht
    trivial
  · simp [List.countP_map, Function.comp_def, Phase.isReturned]

/-- What one sequential call of `AddDocument` does to the set of vocabulary words and to
the number of stored vectors. -/
theorem addDocument_keys_docs (ρ₁ ρ₂ : RangeOrder) {bow : BoW} (hv : Valid bow) (doc : String) :
    (∀ w, w ∈ (AddDocument ρ₁ ρ₂ bow doc).2.vocab.keys ↔
      w ∈ bow.vocab.keys ∨ w ∈ tokensOf bow.cfg doc) ∧
    (AddDocument ρ₁ ρ₂ bow doc).2.docs.length =
      bow.docs.length + (if (tokensOf bow.cfg doc).isEmpty then 0 else 1) := by
  rcases addDocument_cases ρ₁ ρ₂ bow doc with ⟨h0, _⟩ | ⟨_, _, htok, hwords, h⟩ |
    ⟨_, htok, hwords, h⟩ | ⟨_, words, htok, hwords, hne, hcase⟩
  · have := hv.tokenizer
    simp [h0] at this
  · rw [h, tokensOf_error htok hwords]
    simp
  · rw [h, tokensOf_ok htok hwords]
    simp
  · rw [tokensOf_ok htok hwords]
    have hemp : words.isEmpty = false := by
      cases words with
      | nil => exact absurd rfl hne
      | cons a l => rfl
    rcases hcase with ⟨_, h⟩ | ⟨vec, _, h⟩
    · have := (addDocument_valid ρ₁ ρ₂ hv doc).2
      rw [h] at this
      exact absurd rfl this
    · rw [h]
      refine ⟨fun w => mem_extendVocab_keys, ?_⟩
      simp [hemp]

/-- The set of vocabulary words and the number of stored vectors after ingesting the
documents one after the other. -/
theorem ingestEach_keys_docs : ∀ (docs : List String) (σ₁ σ₂ : Nat → RangeOrder) (bow : BoW),
    Valid bow →
    (∀ w, w ∈ (ingestEach σ₁ σ₂ bow docs).vocab.keys ↔
      w ∈ bow.vocab.keys ∨ ∃ d ∈ docs, w ∈ tokensOf bow.cfg d) ∧
    (ingestEach σ₁ σ₂ bow docs).docs.length =
      bow.docs.length + docs.countP (fun d => !(tokensOf bow.cfg d).isEmpty) := by
  intro docs
  induction docs with
  | nil =>
    intro σ₁ σ₂ bow _
    simp [ingestEach]
  | cons d rest ih =>
    intro σ₁ σ₂ bow hv
    obtain ⟨hk, hd⟩ := addDocument_keys_docs (σ₁ 0) (σ₂ 0) hv d
    have hv' := (addDocument_valid (σ₁ 0) (σ₂ 0) hv d).1
    obtain ⟨ihk, ihd⟩ := ih (fun k => σ₁ (k + 1)) (fun k => σ₂ (k + 1)) _ hv'
    rw [addDocument_cfg] at ihk ihd
    constructor
    · intro w
      rw [ingestEach, ihk, hk]
      simp only [List.mem_cons, exists_eq_or_imp]
      tauto
    · rw [ingestEach, ihd, hd, List.countP_cons]
      cases (tokensOf bow.cfg d).isEmpty <;> first | (simp; omega) | simp

/-- C20: concurrency safety at the granularity of the lock-protected sections.  Start one
goroutine per document on a valid model and let the goroutines run their sections
(unlocked prologue, vocabulary write lock, vocabulary read lock, document lock) in any
interleaving and with any map iteration orders.  Once every call has returned, the set of
vocabulary words and the number of stored vectors are those of ingesting the documents
sequentially; the vocabulary is still a bijection onto `0 .. len - 1` (no duplicate index),
holds every token of every document (no lost token), the vectors stored before are still
in place followed by exactly one vector per document with at least one token (no lost or
overlapping append), and no call has panicked. -/
theorem concurrent_ingest_safe (bow₀ : BoW) (docs : List String) (c : Pool)
    (σ₁ σ₂ : Nat → RangeOrder) (hvalid : Valid bow₀)
    (hrun : PoolRun ⟨bow₀, docs.map (fun d => (d, Phase.start))⟩ c)
    (hdone : ∀ t ∈ c.tasks, t.2.isReturned = true) :
    (∀ w, w ∈ c.bow.vocab.keys ↔ w ∈ (ingestEach σ₁ σ₂ bow₀ docs).vocab.keys) ∧
    c.bow.docs.length = (ingestEach σ₁ σ₂ bow₀ docs).docs.length ∧
    VocabOK c.bow.vocab ∧
    (∀ d ∈ docs, ∀ w ∈ tokensOf bow₀.cfg d, w ∈ c.bow.vocab.keys) ∧
    (∃ tail, c.bow.docs = bow₀.docs ++ tail ∧
      tail.length = docs.countP (fun d => !(tokensOf bow₀.cfg d).isEmpty)) ∧
    (∀ t ∈ c.tasks, t.2 ≠ Phase.returned Outcome.panicked) ∧
    c.tasks.map Prod.fst = docs := by
  have hinv := poolInv_run hvalid hrun (poolInv_init hvalid docs)
  obtain ⟨hseqk, hseqd⟩ := ingestEach_keys_docs docs σ₁ σ₂ bow₀ hvalid
  have htok : ∀ d ∈ docs, ∀ w ∈ tokensOf bow₀.cfg d, w ∈ c.bow.vocab.keys := by
    intro d hd w hw
    rw [← hinv.names] at hd
    obtain ⟨⟨d', phase⟩, ht, rfl⟩ := List.mem_map.1 hd
    have hok := hinv.tasks _ ht
    have hret := hdone _ ht
    cases phase with
    | returned r => exact hok.2 w hw
    | start => simp [Phase.isReturned] at hret
    | counted wf => simp [Phase.isReturned] at hret
    | indexed wf => simp [Phase.isReturned] at hret
    | built vec => simp [Phase.isReturned] at hret
  have hcount : c.tasks.countP
      (fun t => t.2.isReturned && !(tokensOf bow₀.cfg t.1).isEmpty) =
      docs.countP (fun d => !(tokensOf bow₀.cfg d).isEmpty) := by
    rw [← hinv.names, List.countP_map]
    refine List.countP_congr ?_
    intro t ht
    simp [hdone t ht]
  obtain ⟨tail, ht1, ht2⟩ := hinv.docs
  refine ⟨?_, ?_, hinv.vocabOK, htok, ⟨tail, ht1, ht2.trans hcount⟩, ?_, hinv.names⟩
  · intro w
    rw [hseqk]
    constructor
    · exact hinv.keysNew w
    · rintro (h | ⟨d, hd, hw⟩)
      · exact hinv.keysOld w h
      · exact htok d hd w hw
  · rw [hseqd, ht1, List.length_append, ht2, hcount]
  · intro t ht e
    have hok := hinv.tasks _ ht
    obtain ⟨d, phase⟩ := t
    simp only at e
    subst e
    exact hok.1 rfl

theorem poolStep_stepAt (ρ : RangeOrder) (c : Pool) {i : Nat} (hi : i < c.tasks.length) :
    PoolStep c (c.stepAt ρ i) := by
  obtain ⟨bow, tasks⟩ := c
  have hget : tasks[i]? = some tasks[i] := List.getElem?_eq_getElem hi
  have hdec : tasks = tasks.take i ++ tasks[i] :: tasks.drop (i + 1) := by
    rw [List.getElem_cons_drop, List.take_append_drop]
  have hres : Pool.stepAt ρ ⟨bow, tasks⟩ i =
      ⟨(advance ρ bow tasks[i].1 tasks[i].2).1,
        tasks.take i ++ (tasks[i].1, (advance ρ bow tasks[i].1 tasks[i].2).2) ::
          tasks.drop (i + 1)⟩ := by
    simp only [Pool.stepAt, hget, List.set_eq_take_append_cons_drop, hi, if_true]
    rfl
  rw [hres]
  have := PoolStep.atomic ρ bow (tasks.take i) (tasks.drop (i + 1)) tasks[i].1 tasks[i].2
  rw [← hdec] at this
  exact this

/-- Every schedule is an interleaving. -/
theorem poolRun_runSchedule (ρ : RangeOrder) : ∀ (schedule : List Nat) (c : Pool),
    PoolRun c (c.runSchedule ρ schedule) := by
  intro schedule
  induction schedule using List.reverseRecOn with
  | nil => intro c; exact PoolRun.refl c
  | append_singleton l i ih =>
    intro c
    have e : c.runSchedule ρ (l ++ [i]) = (c.runSchedule ρ l).stepAt ρ i := by
      simp [Pool.runSchedule, List.foldl_append]
    rw [e]
    by_cases hi : i < (c.runSchedule ρ l).tasks.length
    · exact PoolRun.tail (ih c) (poolStep_stepAt ρ _ hi)
    · have hnone : (c.runSchedule ρ l).tasks[i]? = none :=
        List.getElem?_eq_none (by omega)
      have : (c.runSchedule ρ l).stepAt ρ i = c.runSchedule ρ l := by
        simp only [Pool.stepAt, hnone]
      rw [this]
      exact ih c

/-- C20 at two goroutines ingesting `"go fast"` and `"and go"` into a fresh model, the
second one entering the write-locked section first: the indices differ from the
sequential ones, the set of words and the number of vectors do not. -/
theorem concurrent_ingest_safe_witness :
    Valid exampleModel ∧
    PoolRun ⟨exampleModel, ["go fast", "and go"].map (fun d => (d, Phase.start))⟩
      examplePool ∧
    (∀ t ∈ examplePool.tasks, t.2.isReturned = true) ∧
    examplePool.bow.vocab = [("and", 0), ("go", 1), ("fast", 2)] ∧
    examplePool.bow.docs = [[1, 1, 0], [0, 1, 1]] ∧
    (ingestEach (fun _ => RangeOrder.stored) (fun _ => RangeOrder.stored) exampleModel
      ["go fast", "and go"]).vocab = [("fast", 0), ("go", 1), ("and", 2)] ∧
    ((∀ w, w ∈ examplePool.bow.vocab.keys ↔
        w ∈ (ingestEach (fun _ => RangeOrder.stored) (fun _ => RangeOrder.stored) exampleModel
          ["go fast", "and go"]).vocab.keys) ∧
      examplePool.bow.docs.length =
        (ingestEach (fun _ => RangeOrder.stored) (fun _ => RangeOrder.stored) exampleModel
          ["go fast", "and go"]).docs.length ∧
      VocabOK examplePool.bow.vocab ∧
      (∀ d ∈ ["go fast", "and go"], ∀ w ∈ tokensOf exampleModel.cfg d,
        w ∈ examplePool.bow.vocab.keys) ∧
      (∃ tail, examplePool.bow.docs = exampleModel.docs ++ tail ∧
        tail.length = ["go fast", "and go"].countP
          (fun d => !(tokensOf exampleModel.cfg d).isEmpty)) ∧
      (∀ t ∈ examplePool.tasks, t.2 ≠ Phase.returned Outcome.panicked) ∧
      examplePool.tasks.map Prod.fst = ["go fast", "and go"]) :=
  ⟨new_valid _ _, poolRun_runSchedule _ _ _, by decide, by decide, by decide, by decide,
    concurrent_ingest_safe exampleModel ["go fast", "and go"] examplePool
      (fun _ => RangeOrder.stored) (fun _ => RangeOrder.stored) (new_valid _ _)
      (poolRun_runSchedule _ _ _) (by decide)⟩

/-! ## Index safety of `ComputeTFIDF` -/

/-- C21: in every state reachable from `New cfg` by `AddDocument` / `AddDocuments` calls,
every stored vector is at most as long as the vocabulary and has no negative entry.
Therefore every index `j` that `ComputeTFIDF` uses on `docFreq` and on the output vector of
a document (both of length `vocabSize`) is in range: the document-frequency loop and the
weighting loop run to the end, and `ComputeTFIDF` returns a matrix instead of panicking,
whatever corpus was ingested. -/
theorem computeTFIDF_in_range {F : Type} [Field F] [DecidableEq F] (log : F → F)
    (u : UnicodeTables) (cfg : Config) (bow : BoW) (h : Reachable u cfg bow) :
    (∀ vec ∈ GetRawDocVectors bow,
      (vec.length : Int) ≤ bow.vocab.len ∧ ∀ x ∈ vec, (0 : Int) ≤ x) ∧
    (∀ vec ∈ GetRawDocVectors bow, ∀ j, j < vec.length →
      j < (List.replicate bow.vocab.len.toNat (0 : Int)).length ∧
      j < (List.replicate bow.vocab.len.toNat (0 : F)).length) ∧
    (∃ docFreq,
      countDocFreq (GetRawDocVectors bow) (List.replicate bow.vocab.len.toNat 0) =
        some docFreq ∧
      docFreq.length = bow.vocab.len.toNat ∧
      ∀ totalDocs : F, ∃ rows,
        tfidfRows log totalDocs docFreq bow.vocab.len (GetRawDocVectors bow) = some rows) ∧
    (∃ tfidfMatrix, ComputeTFIDF log bow = .ok tfidfMatrix) ∧
    ComputeTFIDF log bow ≠ .panicked := by
  have hv := h.valid
  have hlen : ∀ vec ∈ bow.docs, vec.length ≤ bow.vocab.len.toNat := by
    intro vec hvec
    simpa [GoMap.len] using hv.docsLen vec hvec
  simp only [getRawDocVectors_eq]
  refine ⟨?_, ?_, ?_, computeTFIDF_ok log hv, ?_⟩
  · intro vec hvec
    refine ⟨?_, (h.docsPositive vec hvec).1⟩
    have := hv.docsLen vec hvec
    simp only [GoMap.len]
    exact_mod_cast this
  · intro vec hvec j hj
    have := hlen vec hvec
    simp only [List.length_replicate]
    omega
  · obtain ⟨d, hd, hdl⟩ := countDocFreq_some bow.docs
      (List.replicate bow.vocab.len.toNat 0) (by simpa using hlen)
    have hdl' : d.length = bow.vocab.len.toNat := by simpa using hdl
    exact ⟨d, hd, hdl', fun totalDocs =>
      tfidfRows_some log totalDocs d bow.vocab.len hdl' bow.docs hlen⟩
  · obtain ⟨m, hm⟩ := computeTFIDF_ok log hv
    rw [hm]
    exact fun e => by cases e

/-- C21 at the TF-IDF model that has ingested the example corpus: the stored vectors
`[1, 2]` and `[1, 0, 1, 1]` fit the vocabulary of four words. -/
theorem computeTFIDF_in_range_witness :
    Reachable UnicodeTables.ascii exampleTFIDFCfg exampleCorpusModel ∧
    GetRawDocVectors exampleCorpusModel = [[1, 2], [1, 0, 1, 1]] ∧
    exampleCorpusModel.vocab.len = 4 ∧
    ((∀ vec ∈ GetRawDocVectors exampleCorpusModel,
        (vec.length : Int) ≤ exampleCorpusModel.vocab.len ∧ ∀ x ∈ vec, (0 : Int) ≤ x) ∧
      (∀ vec ∈ GetRawDocVectors exampleCorpusModel, ∀ j, j < vec.length →
        j < (List.replicate exampleCorpusModel.vocab.len.toNat (0 : Int)).length ∧
        j < (List.replicate exampleCorpusModel.vocab.len.toNat (0 : ℚ)).length) ∧
      (∃ docFreq,
        countDocFreq (GetRawDocVectors exampleCorpusModel)
          (List.replicate exampleCorpusModel.vocab.len.toNat 0) = some docFreq ∧
        docFreq.length = exampleCorpusModel.vocab.len.toNat ∧
        ∀ totalDocs : ℚ, ∃ rows,
          tfidfRows (fun x : ℚ => x) totalDocs docFreq exampleCorpusModel.vocab.len
            (GetRawDocVectors exampleCorpusModel) = some rows) ∧
      (∃ tfidfMatrix, ComputeTFIDF (fun x : ℚ => x) exampleCorpusModel = .ok tfidfMatrix) ∧
      ComputeTFIDF (fun x : ℚ => x) exampleCorpusModel ≠ .panicked) :=
  ⟨exampleCorpusModel_reachable, by decide, by decide,
    computeTFIDF_in_range (fun x : ℚ => x) UnicodeTables.ascii exampleTFIDFCfg
      exampleCorpusModel exampleCorpusModel_reachable⟩

end Bow
